import Mathlib

/-!
Verification model of the minuteos lib-storage journal core.

The definitions below are a shallow embedding of:
  * `storage/ByteStorage.h` / `storage/TestByteStorage.cpp` (byte device with
    AND-programming semantics and sector erase),
  * `storage/SimpleVariableJournalFormat.{h,cpp}` (the sector/record codec),
  * `storage/JournalStorage.{h,cpp}` (the journal engine: scan, enumeration,
    begin/end write, sector rotation).

Machine integers are modelled as `Nat` with explicit `% 2^32` where uint32
overflow matters.  Coroutine loops (`for(;;)`, `while`) become fuel-indexed
recursions returning `Option`; `none` means the fuel bound was reached, which
never happens for the fuels used in the theorems.  The device byte array is a
function `Nat → Nat`; a program operation ANDs bytes into the existing
contents exactly as `TestByteStorage::WriteImpl` does.
-/

namespace JournalModel

/-- Little-endian value of a byte list (least significant byte first). -/
def leVal : List Nat → Nat
  | [] => 0
  | b :: t => b + 256 * leVal t

/-- Little-endian encoding of `v` into `n` bytes, mirroring how the C++ code
programs a `uint16`/`uint32` field via `Span` on a little-endian target. -/
def toLE : Nat → Nat → List Nat
  | 0, _ => []
  | n + 1, v => (v % 256) :: toLE n (v / 256)

/-- A byte-addressable storage device: geometry plus the byte contents.
Mirrors `storage::ByteStorage` with the in-memory test double semantics
(`TestByteStorage`): reads are plain lookups, programs AND into the array,
erase restores `0xFF`. -/
structure Device where
  size : Nat
  sectorSize : Nat
  data : Nat → Nat

/-- Start address of the sector containing `addr`
(`addr & ~sectorMask`, written arithmetically; equal for power-of-two sector
sizes). -/
def Device.sectorAddress (d : Device) (addr : Nat) : Nat :=
  addr / d.sectorSize * d.sectorSize

/-- Whether two addresses share a sector (`!((a ^ b) & ~mask)`). -/
def Device.isSameSector (d : Device) (a b : Nat) : Bool :=
  d.sectorAddress a == d.sectorAddress b

/-- Bytes remaining from `addr` to the end of its sector
(`(~addr & mask) + 1`). -/
def Device.sectorRemaining (d : Device) (addr : Nat) : Nat :=
  d.sectorSize - addr % d.sectorSize

/-- Number of sectors of the device. -/
def Device.numSectors (d : Device) : Nat := d.size / d.sectorSize

/-- Read `n` bytes starting at `addr` (`ByteStorage::Read`). -/
def readBytes (d : Device) (addr n : Nat) : List Nat :=
  (List.range n).map fun i => d.data (addr + i)

/-- Read an `n`-byte little-endian field at `addr`. -/
def readLE (d : Device) (addr n : Nat) : Nat :=
  leVal (readBytes d addr n)

/-- Program `bs` at `addr`: per byte `data[x] ← data[x] AND b`
(`TestByteStorage::WriteImpl`). -/
def program (d : Device) (addr : Nat) (bs : List Nat) : Device :=
  { d with
    data := fun x =>
      if addr ≤ x ∧ x < addr + bs.length then d.data x &&& bs.getD (x - addr) 0
      else d.data x }

/-- Erase every sector intersecting `[addr, addr+len)` back to `0xFF`
(`TestByteStorage::Erase`, which rounds the range outward to sector
boundaries). -/
def eraseRange (d : Device) (addr len : Nat) : Device :=
  { d with
    data := fun x =>
      if d.sectorAddress addr ≤ x ∧
          x < d.sectorAddress (addr + len + (d.sectorSize - 1)) then 255
      else d.data x }

/-- Whether every byte of `[addr, addr+n)` equals `v`
(`TestByteStorage::IsAll`). -/
def isAll (d : Device) (addr v n : Nat) : Bool :=
  (List.range n).all fun i => d.data (addr + i) == v

/-- Blank check: `IsAll` with `0xFF` (`ByteStorage::IsEmpty`). -/
def isEmptyRange (d : Device) (addr n : Nat) : Bool :=
  isAll d addr 255 n

/-- Sector classification, mirroring `JournalFormat::SectorState`
(`Bad < Empty < Valid < ValidPreceding`, value-initialized to `Bad`). -/
inductive SectorState
  | Bad
  | Empty
  | Valid
  | ValidPreceding
deriving DecidableEq

/-- Result of a sector scan, mirroring `JournalFormat::SectorInfo`.
The C++ struct also carries `fixedRecordSize`, which
`SimpleVariableJournalFormat` never assigns and the engine never reads; it is
omitted here. -/
structure SectorInfo where
  sequence : Nat
  firstRecord : Nat
  state : SectorState
deriving DecidableEq

/-- Value-initialized `SectorInfo` (`last = {}` in `Scan`): all fields zero,
`state` therefore `Bad` (enumerator value 0). -/
def SectorInfo.reset : SectorInfo := ⟨0, 0, .Bad⟩

/-- Mirrors `SectorInfo::IsBad`. -/
def SectorInfo.IsBad (i : SectorInfo) : Bool := i.state == .Bad

/-- Mirrors `SectorInfo::IsEmpty`. -/
def SectorInfo.IsEmpty (i : SectorInfo) : Bool := i.state == .Empty

/-- Mirrors `SectorInfo::IsValid` (`state >= SectorState::Valid`). -/
def SectorInfo.IsValid (i : SectorInfo) : Bool :=
  i.state == .Valid || i.state == .ValidPreceding

/-- Mirrors `SectorInfo::IsPreceding`. -/
def SectorInfo.IsPreceding (i : SectorInfo) : Bool :=
  i.state == .ValidPreceding

/-- Record classification, mirroring `JournalFormat::RecordState`. -/
inductive RecordState
  | Bad
  | Empty
  | Valid
deriving DecidableEq

/-- Result of a record scan, mirroring `JournalFormat::RecordInfo`. -/
structure RecordInfo where
  payload : Nat
  nextRecord : Nat
  state : RecordState
deriving DecidableEq

/-- Zero-initialized `RecordInfo` (the `f.ri` frame variable of `BeginWrite`
starts out zeroed; enumerator value 0 is `Bad`). -/
def RecordInfo.reset : RecordInfo := ⟨0, 0, .Bad⟩

/-- Mirrors `RecordInfo::IsBad`. -/
def RecordInfo.IsBad (i : RecordInfo) : Bool := i.state == .Bad

/-- Mirrors `RecordInfo::IsEmpty`. -/
def RecordInfo.IsEmpty (i : RecordInfo) : Bool := i.state == .Empty

/-- Mirrors `RecordInfo::IsValid`. -/
def RecordInfo.IsValid (i : RecordInfo) : Bool := i.state == .Valid

/-- Modelled from the spec: the `OVF_GT` comparison macro (defined in the
base library, outside this repository): `a >OVF b` iff `(a - b)` interpreted
as a signed 32-bit value is positive. -/
def ovfGT (a b : Nat) : Bool :=
  let d := (a + 2 ^ 32 - b % 2 ^ 32) % 2 ^ 32
  0 < d && d < 2 ^ 31

/-- `SimpleVariableJournalFormat::ScanSector`: reads the 8-byte page header
(`u32 magic; u32 sequence`) of the sector containing `addr` (the engine
passes `SectorSpan(addr)`, whose base is the sector address).  `sequence` and
`firstRecord` are filled unconditionally, then the state is classified:
all-ones header → Empty; wrong magic → Bad; sequence exactly one less than
`following` (mod 2^32) → ValidPreceding; otherwise Valid. -/
def scanSector (magic : Nat) (d : Device) (addr : Nat)
    (following : Option SectorInfo) : SectorInfo :=
  let base := d.sectorAddress addr
  let phMagic := readLE d base 4
  let phSeq := readLE d (base + 4) 4
  let state :=
    if (readBytes d base 8).all (· == 255) then SectorState.Empty
    else if phMagic ≠ magic then SectorState.Bad
    else
      match following with
      | some fo =>
        if (phSeq + 1) % 2 ^ 32 == fo.sequence then SectorState.ValidPreceding
        else SectorState.Valid
      | none => SectorState.Valid
  { sequence := phSeq, firstRecord := 8, state := state }

/-- `SimpleVariableJournalFormat::ScanRecord`: reads the 2-byte record header
at `addr` (the start of the rest-of-sector span) and classifies it.
`payload` is `size & 0x7FFF`, `nextRecord` is `payload + 2`; state is Empty
for `0xFFFF`, Bad when bit 15 is set, Valid otherwise.  Returns the record
info together with the payload offset (2).  When the span is shorter than
2 bytes the C++ `Read` clamps and the missing header byte keeps its
zero-initialized frame value, modelled by the zero padding. -/
def scanRecord (d : Device) (addr : Nat) : RecordInfo × Nat :=
  let avail := min 2 (d.sectorRemaining addr)
  let hdr := leVal (readBytes d addr avail ++ List.replicate (2 - avail) 0)
  let payload := hdr &&& 0x7FFF
  let state :=
    if hdr == 0xFFFF then RecordState.Empty
    else if hdr &&& 0x8000 ≠ 0 then RecordState.Bad
    else RecordState.Valid
  (⟨payload, payload + 2, state⟩, 2)

/-- `SimpleVariableJournalFormat::InitSector`: bumps the previous sequence
(1 on first use, uint32 wrap-around), programs the sequence field at offset 4
first, the magic at offset 0 second, and reports a Valid sector with
`firstRecord = 8`. -/
def initSector (magic : Nat) (d : Device) (addr : Nat) (info : SectorInfo) :
    Device × SectorInfo :=
  let base := d.sectorAddress addr
  let seq := ((if info.IsValid then info.sequence else 0) + 1) % 2 ^ 32
  let d1 := program d (base + 4) (toLE 4 seq)
  let d2 := program d1 base (toLE 4 magic)
  (d2, { sequence := seq, firstRecord := 8, state := .Valid })

/-- Device state after the first program of `InitSector` only (sequence
written, magic not yet): the torn state left by power loss between the two
programs.  The write order is taken from the source, which programs the
sequence field before the magic field. -/
def initSectorTorn (d : Device) (addr : Nat) (info : SectorInfo) : Device :=
  let base := d.sectorAddress addr
  let seq := ((if info.IsValid then info.sequence else 0) + 1) % 2 ^ 32
  program d (base + 4) (toLE 4 seq)

/-- `SimpleVariableJournalFormat::InitRecord` at absolute position `pos`
(the engine passes `RestOfSectorSpan(pos)`, so the span size is the rest of
the sector).  Clamps the request to `0x7FFF`, additionally to the sector
capacity when `pos` is the first record position (`offset & mask == 8`);
if header plus clamped payload exceeds the span the state is Bad and nothing
is programmed, otherwise the header is programmed with bit 15 (unfinished)
set.  The C++ computes `span.Size() - sizeof(RecordHeader)` in `size_t`; for
spans shorter than 2 bytes both that and the truncated `Nat` subtraction end
in the Bad branch, so the observable behaviour agrees. -/
def initRecord (d : Device) (pos : Nat) (info : RecordInfo) (payloadReq : Nat) :
    Device × RecordInfo × Nat :=
  let spanSize := d.sectorRemaining pos
  let size0 := min payloadReq 0x7FFF
  let size1 := if pos % d.sectorSize == 8 then min size0 (spanSize - 2) else size0
  if 2 + size1 > spanSize then (d, { info with state := .Bad }, 0)
  else
    let hdr := size1 ||| 0x8000
    let d1 := program d pos (toLE 2 hdr)
    (d1, ⟨hdr &&& 0x7FFF, 2 + (hdr &&& 0x7FFF), .Valid⟩, 2)

/-- `SimpleVariableJournalFormat::CommitRecord`: clears bit 15 of the record
header sitting 2 bytes before the payload by programming `0x7FFF` over it. -/
def commitRecord (d : Device) (payloadAddr : Nat) : Device :=
  program d (payloadAddr - 2) (toLE 2 0x7FFF)

/-- Engine registers of `JournalStorage`: `last`, `firstSector`,
`lastSector`, `freeOffset`, `maxRecord`. -/
structure EngState where
  last : SectorInfo
  firstSector : Nat
  lastSector : Nat
  freeOffset : Nat
  maxRecord : Nat
deriving DecidableEq

/-- Engine registers after construction (all zero-initialized). -/
def initialState : EngState := ⟨SectorInfo.reset, 0, 0, 0, 0⟩

/-- `JournalStorage::PreviousSector(addr)`:
`nonzero(addr, Size()) - SectorSize()` where `nonzero(a, b)` is `a ? a : b`. -/
def prevSectorAddr (d : Device) (addr : Nat) : Nat :=
  (if addr = 0 then d.size else addr) - d.sectorSize

/-- `JournalStorage::NextSector(addr)`: advance by one sector, wrapping from
`Size()` to 0. -/
def nextSectorAddr (d : Device) (addr : Nat) : Nat :=
  if addr + d.sectorSize = d.size then 0 else addr + d.sectorSize

/-- `JournalStorage::RecordEnumerator`: current record/payload address `r`,
next header address `rNext`, payload length `len`, cached sector info `si`.
The C++ constructor leaves `len` default-initialized; it is only read after
a successful step, which assigns it, so 0 is used here. -/
structure RecordEnumerator where
  r : Nat
  rNext : Nat
  len : Nat
  si : SectorInfo
deriving DecidableEq

/-- `JournalStorage::EnumerateRecords`: fresh enumerator on `sector`
(`r = rNext = sector`, `si = {}` whose state is Bad, the first-call
marker). -/
def enumerateRecords (sector : Nat) : RecordEnumerator :=
  ⟨sector, sector, 0, SectorInfo.reset⟩

/-- The `while (IsSameSector(r, rNext))` loop of `JournalStorage::NextRecord`:
advance `r` to `rNext`, scan the record there, and either stop (Empty, or Bad
that cannot be skipped — the `rNext.addr--` sentinel, a uint32 decrement),
skip a Bad record, or yield a Valid record's payload length. -/
def nextRecordLoop : Nat → Device → RecordEnumerator →
    Option (RecordEnumerator × Nat)
  | 0, _, _ => none
  | fuel + 1, dev, re =>
    if dev.isSameSector re.r re.rNext then
      let r1 := re.rNext
      let (ri, off) := scanRecord dev r1
      if ri.IsEmpty then some ({ re with r := r1 }, 0)
      else
        let rn := r1 + ri.nextRecord
        if ri.IsBad then
          if rn ≠ r1 then nextRecordLoop fuel dev { re with r := r1, rNext := rn }
          else some ({ re with r := r1, rNext := (r1 + 2 ^ 32 - 1) % 2 ^ 32 }, 0)
        else some ({ re with r := r1 + off, rNext := rn, len := ri.payload }, ri.payload)
    else some (re, 0)

/-- `JournalStorage::NextRecord`: on the first call (`r == rNext` and the
marker `si` is Bad) scan the sector header and aim `rNext` at the first
record; bail out with 0 if the sector is not Valid; otherwise run the record
loop.  Returns the updated enumerator and the payload length (0 = no more
records in this sector). -/
def nextRecordFn (fuel magic : Nat) (dev : Device) (re : RecordEnumerator) :
    Option (RecordEnumerator × Nat) :=
  let re1 :=
    if re.r == re.rNext && re.si.IsBad then
      let si := scanSector magic dev (dev.sectorAddress re.r) none
      { re with si := si, rNext := re.r + si.firstRecord }
    else re
  if ¬ re1.si.IsValid then some (re1, 0)
  else nextRecordLoop fuel dev re1

/-- The `while (await(NextRecord, f.re))` loop of `Scan`: step the record
enumerator until it reports 0. -/
def walkRecords : Nat → Nat → Nat → Device → RecordEnumerator →
    Option RecordEnumerator
  | 0, _, _, _, _ => none
  | fuel + 1, inner, magic, dev, re =>
    match nextRecordFn inner magic dev re with
    | none => none
    | some (re1, 0) => some re1
    | some (re1, _ + 1) => walkRecords fuel inner magic dev re1

/-- Phase 1 of `Scan`: walk all sectors and keep the best Valid sector.
The first Valid sector seeds `baseSeq` and becomes the candidate; afterwards
a sector replaces the candidate only if its sequence is wrap-greater than
both the candidate's sequence and `baseSeq`.  Returns
`(bestAddr, bestInfo, baseSeq)` or `none` when no Valid sector exists. -/
def scanPhase1 (magic : Nat) (dev : Device) : Option (Nat × SectorInfo × Nat) :=
  (List.range dev.numSectors).foldl
    (fun acc k =>
      let addr := k * dev.sectorSize
      let si := scanSector magic dev addr none
      if si.IsEmpty then acc
      else if ¬ si.IsValid then acc
      else
        match acc with
        | none => some (addr, si, si.sequence)
        | some (bestAddr, best, baseSeq) =>
          if ovfGT si.sequence best.sequence && ovfGT si.sequence baseSeq then
            some (addr, si, baseSeq)
          else some (bestAddr, best, baseSeq))
    none

/-- Addresses visited stepping backward `n` times from `a`
(`PreviousSector` iterated). -/
def ringBack (dev : Device) : Nat → Nat → List Nat
  | 0, _ => []
  | n + 1, a => prevSectorAddr dev a :: ringBack dev n (prevSectorAddr dev a)

/-- Addresses visited stepping forward `n` times from `a`
(`NextSector` iterated). -/
def ringFwd (dev : Device) : Nat → Nat → List Nat
  | 0, _ => []
  | n + 1, a => nextSectorAddr dev a :: ringFwd dev n (nextSectorAddr dev a)

/-- Phase 3 of `Scan`: walk backward from `lastSector` while the sectors are
`ValidPreceding`, extending `firstSector`; a Valid-but-not-preceding sector
stops the walk, Bad/Empty sectors are passed over.  The C++ `for` loop stops
when the address returns to `lastSector`, i.e. after at most
`numSectors - 1` steps, modelled by the generated address list; the `break`
becomes a stop flag. -/
def scanBack (magic : Nat) (dev : Device) (last : Nat) (siLast : SectorInfo) :
    Nat × SectorInfo :=
  let res :=
    (ringBack dev (dev.numSectors - 1) last).foldl
      (fun (acc : Nat × SectorInfo × Bool) addr =>
        if acc.2.2 then acc
        else
          let si := scanSector magic dev addr (some acc.2.1)
          if si.IsPreceding then (addr, si, false)
          else if si.IsValid then (acc.1, acc.2.1, true)
          else acc)
      (last, siLast, false)
  (res.1, res.2.1)

/-- The device-determined part of `JournalStorage::Scan`: find the best
sector, walk its records to derive `freeOffset` (the record address when the
walk ended on Empty, else 0: sector full or corrupted), then extend
`firstSector` backward.  Produces `(last, firstSector, lastSector,
freeOffset)`. -/
def scanCore (recFuel innerFuel magic : Nat) (dev : Device) :
    Option (SectorInfo × Nat × Nat × Nat) :=
  match scanPhase1 magic dev with
  | none => some (SectorInfo.reset, 0, 0, 0)
  | some (bestAddr, siLast, _) =>
    match walkRecords recFuel innerFuel magic dev (enumerateRecords bestAddr) with
    | none => none
    | some re =>
      let freeOffset := if re.r == re.rNext then re.r - bestAddr else 0
      let back := scanBack magic dev bestAddr siLast
      some (siLast, back.1, bestAddr, freeOffset)

/-- `JournalStorage::Scan`: recompute the registers from the device.  `Scan`
performs no device writes (both codepaths only call `ScanSector`/`ScanRecord`,
which read), so only the engine state changes; `maxRecord` is not touched by
`Scan` and is carried over. -/
def scanFn (recFuel innerFuel magic : Nat) (dev : Device) (st : EngState) :
    Option EngState :=
  (scanCore recFuel innerFuel magic dev).map fun c =>
    { last := c.1, firstSector := c.2.1, lastSector := c.2.2.1,
      freeOffset := c.2.2.2, maxRecord := st.maxRecord }

/-- `JournalStorage::NextSector` (the sector enumerator step): starting from
an invalid enumerator (`none`, the `~0u` address) the walk begins at
`firstSector`; it stops with `false` when the position reaches `lastSector`,
and yields the next Valid sector otherwise, skipping non-Valid ones. -/
def nextSectorFn : Nat → Nat → Device → EngState → Option Nat →
    Option (Option Nat × Bool)
  | 0, _, _, _, _ => none
  | fuel + 1, magic, dev, st, se =>
    if se == some st.lastSector then some (none, false)
    else
      let a := match se with
        | none => st.firstSector
        | some x => nextSectorAddr dev x
      if (scanSector magic dev a none).IsValid then some (some a, true)
      else nextSectorFn fuel magic dev st (some a)

/-- The forward walk of `AdvanceSector` looking for the Valid sector that
becomes the new `firstSector`: visit `NextSector(firstSector), …` up to (and
excluding) the new `lastSector`; the first Valid sector wins, otherwise
`firstSector` stays (equal to the new `lastSector`). -/
def advanceFirstSearch (magic : Nat) (dev : Device) (first newLast : Nat) : Nat :=
  match ((ringFwd dev (dev.numSectors - 1) first).takeWhile
      (· ≠ newLast)).find? (fun a => (scanSector magic dev a none).IsValid) with
  | some a => a
  | none => first

/-- `JournalStorage::AdvanceSector`: move `lastSector` one step forward and
reset `freeOffset`; when the new `lastSector` collides with `firstSector`,
walk forward to the next Valid sector and make it `firstSector` (keeping
`firstSector == lastSector` when none is found). -/
def advanceSectorFn (magic : Nat) (dev : Device) (st : EngState) : EngState :=
  let newLast := nextSectorAddr dev st.lastSector
  let st1 := { st with lastSector := newLast, freeOffset := 0 }
  if newLast ≠ st.firstSector then st1
  else { st1 with firstSector := advanceFirstSearch magic dev st.firstSector newLast }

/-- The `for(;;)` loop of `JournalStorage::NewSector`: blank-check/erase the
current `lastSector`, initialize it, and on success record the new sector
info and set `freeOffset` to the first record offset; on failure advance and
retry. -/
def newSectorLoop : Nat → Nat → Device → EngState → Option (Device × EngState)
  | 0, _, _, _ => none
  | fuel + 1, magic, dev, st =>
    let dev1 :=
      if ¬ isEmptyRange dev st.lastSector dev.sectorSize then
        eraseRange dev st.lastSector dev.sectorSize
      else dev
    let (dev2, info) := initSector magic dev1 st.lastSector st.last
    if info.IsValid then
      some (dev2, { st with last := info, freeOffset := info.firstRecord })
    else
      newSectorLoop fuel magic dev2
        (advanceSectorFn magic dev2 { st with last := info })

/-- `JournalStorage::NewSector`: advance first when `freeOffset != 0`, then
run the erase/init loop. -/
def newSectorFn (fuel magic : Nat) (dev : Device) (st : EngState) :
    Option (Device × EngState) :=
  let st1 := if st.freeOffset ≠ 0 then advanceSectorFn magic dev st else st
  newSectorLoop fuel magic dev st1

/-- The `for(;;)` loop of `JournalStorage::BeginWrite` with the frame
variable `ri` threaded through (zero-initialized at the call, reused across
iterations).  Rotates to a new sector when `freeOffset` is 0 or past the
sector, allocates a record, and on success yields the writer span
`(address, length)`; an unskippable failure forces `freeOffset` to the
sector size so the next iteration rotates. -/
def beginWriteLoop : Nat → Nat → Device → EngState → RecordInfo → Nat →
    Option (Device × EngState × Nat × Nat)
  | 0, _, _, _, _, _ => none
  | fuel + 1, magic, dev, st, ri, len =>
    match (if st.freeOffset = 0 || st.freeOffset ≥ dev.sectorSize then
        newSectorFn (fuel + 1) magic dev st
      else some (dev, st)) with
    | none => none
    | some (dev1, st1) =>
      let (dev2, ri2, off) := initRecord dev1 (st1.lastSector + st1.freeOffset) ri len
      let fo2 := st1.freeOffset + ri2.nextRecord
      let st2 :=
        { st1 with
          freeOffset := fo2
          maxRecord := dev1.sectorSize - (fo2 + off) }
      if ri2.IsValid then
        some (dev2, st2, st1.lastSector + st2.freeOffset - ri2.nextRecord + off,
          ri2.payload)
      else
        let st3 :=
          if ¬ (ri2.IsBad && ri2.nextRecord ≠ 0) then
            { st2 with freeOffset := dev1.sectorSize }
          else st2
        beginWriteLoop fuel magic dev2 st3 ri2 len

/-- `JournalStorage::BeginWrite`: run the allocation loop with a fresh
zero-initialized `RecordInfo` frame.  `some (dev, st, addr, len)` is the
successful (`true`) return with the writer span; the source has no `false`
return — the loop can only exit by succeeding. -/
def beginWriteFn (fuel magic : Nat) (dev : Device) (st : EngState) (len : Nat) :
    Option (Device × EngState × Nat × Nat) :=
  beginWriteLoop fuel magic dev st RecordInfo.reset len

/-- One `BeginWrite` + payload program + optional `EndWrite` round, as the
torn-write test (`03 Bad Writes`) performs it: the writer span is filled with
`p` (clipped to the span length, as `RecordWriter::Write` does) and the
record is committed only when `c` is true. -/
def doWrite (fuel magic : Nat) (dev : Device) (st : EngState) (p : List Nat)
    (c : Bool) : Option (Device × EngState) :=
  (beginWriteFn fuel magic dev st p.length).map fun r =>
    let dev2 := program r.1 r.2.2.1 (p.take r.2.2.2)
    (if c then commitRecord dev2 r.2.2.1 else dev2, r.2.1)

/-- Run a list of `(payload, commit?)` requests in order. -/
def doWrites (fuel magic : Nat) :
    List (List Nat × Bool) → Device → EngState → Option (Device × EngState)
  | [], dev, st => some (dev, st)
  | (p, c) :: rest, dev, st =>
    match doWrite fuel magic dev st p c with
    | none => none
    | some r => doWrites fuel magic rest r.1 r.2

/-- `JournalStorage::Write`: `BeginWrite`, program the data, `EndWrite`. -/
def writeFn (fuel magic : Nat) (dev : Device) (st : EngState) (data : List Nat) :
    Option (Device × EngState) :=
  doWrite fuel magic dev st data true

/-- Payload byte lists collected by repeatedly calling `NextRecord` on one
sector until it reports 0, reading each record through `ReadRecord`
(`len` bytes at `r`) — the enumeration loop of the repository's tests. -/
def collectNext : Nat → Nat → Nat → Device → RecordEnumerator →
    Option (List (List Nat))
  | 0, _, _, _, _ => none
  | fuel + 1, inner, magic, dev, re =>
    match nextRecordFn inner magic dev re with
    | none => none
    | some (_, 0) => some []
    | some (re1, _ + 1) =>
      (collectNext fuel inner magic dev re1).map
        (fun l => readBytes dev re1.r re1.len :: l)

/-- Forward enumeration: `NextSector` over all Valid sectors, collecting each
sector's records in order. -/
def collectSectors : Nat → Nat → Nat → Nat → Device → EngState → Option Nat →
    Option (List (List Nat))
  | 0, _, _, _, _, _, _ => none
  | fuel + 1, cf, inner, magic, dev, st, se =>
    match nextSectorFn (dev.numSectors + 1) magic dev st se with
    | none => none
    | some (_, false) => some []
    | some (se1, true) =>
      match se1 with
      | none => some []
      | some a =>
        match collectNext cf inner magic dev (enumerateRecords a) with
        | none => none
        | some l =>
          (collectSectors fuel cf inner magic dev st se1).map (fun t => l ++ t)

/-- Full forward enumeration starting from a fresh sector enumerator. -/
def collectAll (cf inner magic : Nat) (dev : Device) (st : EngState) :
    Option (List (List Nat)) :=
  collectSectors (dev.numSectors + 1) cf inner magic dev st none

/-- The payloads of the committed requests, in order. -/
def committedPayloads (rs : List (List Nat × Bool)) : List (List Nat) :=
  rs.filterMap fun pc => if pc.2 then some pc.1 else none

/-- A fully erased device (`memset(data, 255, size)` in the test double's
constructor). -/
def erasedDevice (size sectorSize : Nat) : Device :=
  ⟨size, sectorSize, fun _ => 255⟩

/-! ### General lemmas about bytes, little-endian fields and programming -/

theorem and255_of_lt (b : Nat) (h : b < 256) : 255 &&& b = b := by
  have h1 : 255 &&& b = b &&& 255 := Nat.and_comm _ _
  have h2 : b &&& 2 ^ 8 - 1 = b % 2 ^ 8 := Nat.and_pow_two_sub_one_eq_mod b 8
  rw [h1]
  norm_num at h2
  rw [h2]
  exact Nat.mod_eq_of_lt h

theorem toLE_length (n v : Nat) : (toLE n v).length = n := by
  induction n generalizing v with
  | zero => rfl
  | succ n ih => simp [toLE, ih]

theorem toLE_getD_lt (n v i : Nat) : (toLE n v).getD i 0 < 256 := by
  induction n generalizing v i with
  | zero => simp [toLE, List.getD]
  | succ n ih =>
    cases i with
    | zero => simpa [toLE, List.getD] using Nat.mod_lt v (by norm_num)
    | succ i => simpa [toLE, List.getD] using ih (v / 256) i

theorem toLE_getD_of_lt (n v i : Nat) (h : i < n) :
    (toLE n v).getD i 0 = v / 256 ^ i % 256 := by
  induction n generalizing v i with
  | zero => omega
  | succ n ih =>
    cases i with
    | zero => simp [toLE, List.getD]
    | succ i =>
      have := ih (v / 256) i (by omega)
      rw [toLE]
      simpa [List.getD, Nat.div_div_eq_div_mul, Nat.pow_succ',
        Nat.mul_comm 256 (256 ^ i)] using this

theorem leVal_toLE (n v : Nat) : leVal (toLE n v) = v % 256 ^ n := by
  induction n generalizing v with
  | zero => simp [toLE, leVal, Nat.mod_one]
  | succ n ih =>
    have hrec := ih (v / 256)
    have hmod : v % 256 ^ (n + 1) = v % 256 + 256 * (v / 256 % 256 ^ n) := by
      rw [Nat.pow_succ', Nat.mod_mul]
    rw [toLE, leVal, hrec, hmod]

theorem program_data (d : Device) (a : Nat) (bs : List Nat) (x : Nat) :
    (program d a bs).data x =
      if a ≤ x ∧ x < a + bs.length then d.data x &&& bs.getD (x - a) 0
      else d.data x := rfl

theorem program_size (d : Device) (a : Nat) (bs : List Nat) :
    (program d a bs).size = d.size := rfl

theorem program_sectorSize (d : Device) (a : Nat) (bs : List Nat) :
    (program d a bs).sectorSize = d.sectorSize := rfl

/-! ### Concrete scenario devices used by individual claims -/

/-- The `ID("TEST")` magic used by the repository's journal tests. -/
def testMagic : Nat := 0x54534554

/-- Two-sector device (32-byte sectors) whose first sector has sequence
`0xFFFFFFFE` and whose second has sequence `0x00000000`; both carry the test
magic. -/
def wrapDevA : Device :=
  program (program (erasedDevice 64 32) 0 (toLE 4 testMagic ++ toLE 4 0xFFFFFFFE))
    32 (toLE 4 testMagic ++ toLE 4 0)

/-- The same two sectors in the opposite placement, so that scan encounters
the `0x00000000` sector first. -/
def wrapDevB : Device :=
  program (program (erasedDevice 64 32) 0 (toLE 4 testMagic ++ toLE 4 0))
    32 (toLE 4 testMagic ++ toLE 4 0xFFFFFFFE)

/-- Claim C4: scan selects the wrap-greatest Valid sector: `a >OVF b` iff
`(a - b)` as signed 32-bit is positive, a candidate replaces the best only
when wrap-greater than both the best and the `baseSeq` anchor; on a device
holding sequences `0xFFFFFFFE` and `0x00000000`, `scan()` selects the sector
with sequence `0x00000000` as `lastSector` regardless of which of the two
sectors is scanned first. -/
theorem C4_wrap_aware_scan_selects_zero_sequence :
    ovfGT 0 0xFFFFFFFE = true ∧ ovfGT 0xFFFFFFFE 0 = false ∧
    (scanSector testMagic wrapDevA 32 none).sequence = 0 ∧
    (scanSector testMagic wrapDevB 0 none).sequence = 0 ∧
    (scanFn 40 40 testMagic wrapDevA initialState).map EngState.lastSector =
      some 32 ∧
    (scanFn 40 40 testMagic wrapDevB initialState).map EngState.lastSector =
      some 0 := by
  decide

/-- Single-sector-journal device for claim C3: 16-byte sectors, sector 0
holds a valid header (sequence 1) followed by one committed 6-byte record
`[11, 22, 33, 44, 55, 66]`, which fills the sector completely. -/
def fullDev : Device :=
  program (program (program (erasedDevice 32 16) 0 (toLE 4 testMagic ++ toLE 4 1))
    8 (toLE 2 6)) 10 [11, 22, 33, 44, 55, 66]

/-- Claim C3 (code behaviour at the failing input): scan of a device whose
last sector is completely full sets `freeOffset = 0` (first half of the
claim, which holds), but the first `BeginWrite` after that scan does NOT
rotate: `NewSector` skips `AdvanceSector` because `freeOffset == 0`, erases
the full sector in place, and allocates the new record in the very same
sector — the previously committed record bytes `[6, 0, 11, 22, ...]` are
destroyed and replaced by an erased sector holding only the new uncommitted
header `[4, 0x80]`. -/
theorem C3_full_sector_is_erased_in_place_not_rotated :
    readBytes fullDev 8 8 = [6, 0, 11, 22, 33, 44, 55, 66] ∧
    (scanFn 40 40 testMagic fullDev initialState).map
      (fun st => (st.freeOffset, st.lastSector)) = some (0, 0) ∧
    ((scanFn 40 40 testMagic fullDev initialState).bind
        (fun st => beginWriteFn 5 testMagic fullDev st 4)).map
      (fun r => (r.2.1.lastSector, r.2.2.1, r.2.2.2, readBytes r.1 8 8)) =
      some (0, 10, 4, [4, 128, 255, 255, 255, 255, 255, 255]) := by
  decide

theorem readBytes_add (d : Device) (a m n : Nat) :
    readBytes d a (m + n) = readBytes d a m ++ readBytes d (a + m) n := by
  simp only [readBytes, List.range_add, List.map_append, List.map_map]
  congr 1
  apply List.map_congr_left
  intro i _
  simp [Function.comp, Nat.add_assoc]

theorem readBytes_congr (d1 d2 : Device) (a n : Nat)
    (h : ∀ i < n, d1.data (a + i) = d2.data (a + i)) :
    readBytes d1 a n = readBytes d2 a n := by
  simp only [readBytes]
  apply List.map_congr_left
  intro i hi
  exact h i (List.mem_range.mp hi)

theorem readBytes_erased (d : Device) (a n : Nat)
    (h : ∀ i < n, d.data (a + i) = 255) :
    readBytes d a n = List.replicate n 255 := by
  simp only [readBytes]
  rw [List.eq_replicate_iff]
  refine ⟨by simp, ?_⟩
  intro b hb
  rcases List.mem_map.mp hb with ⟨i, hi, rfl⟩
  exact h i (List.mem_range.mp hi)

theorem leVal_replicate_255 (n : Nat) : leVal (List.replicate n 255) = 256 ^ n - 1 := by
  induction n with
  | zero => simp [leVal]
  | succ n ih =>
    rw [List.replicate_succ, leVal, ih]
    have h1 : 1 ≤ 256 ^ n := Nat.one_le_pow n 256 (by norm_num)
    rw [Nat.pow_succ]
    omega

theorem toLE_all_ones_iff (n v : Nat) (h : v < 256 ^ n) :
    ((toLE n v).all (· == 255) = true) ↔ v = 256 ^ n - 1 := by
  induction n generalizing v with
  | zero =>
    have hv : v = 0 := by
      have := h
      simp only [Nat.pow_zero] at this
      omega
    subst hv
    simp [toLE]
  | succ n ih =>
    have hdiv : v / 256 < 256 ^ n := by
      rw [Nat.div_lt_iff_lt_mul (by norm_num)]
      calc v < 256 ^ (n + 1) := h
        _ = 256 ^ n * 256 := by rw [Nat.pow_succ]
    rw [toLE, List.all_cons, Bool.and_eq_true, ih (v / 256) hdiv]
    have hm : v % 256 < 256 := Nat.mod_lt v (by norm_num)
    have hv : v = v % 256 + 256 * (v / 256) := (Nat.mod_add_div v 256).symm
    have hp : 256 ^ (n + 1) = 256 ^ n * 256 := Nat.pow_succ 256 n
    have h1 : 1 ≤ 256 ^ n := Nat.one_le_pow n 256 (by norm_num)
    constructor
    · rintro ⟨h255, hrest⟩
      have : v % 256 = 255 := by simpa using h255
      omega
    · intro hveq
      have hlow : v % 256 = 255 := by omega
      have hhigh : v / 256 = 256 ^ n - 1 := by omega
      exact ⟨by simpa using hlow, hhigh⟩

/-- Claim C8: scan is idempotent: it performs no device writes (it only reads
via `ScanSector`/`ScanRecord`), so running it again recomputes the same
`firstSector`, `lastSector`, `freeOffset` and cached last-sector info; the
untouched `maxRecord` register also carries over, hence the whole engine
state is a fixed point. -/
theorem C8_scan_idempotent (recFuel innerFuel magic : Nat) (dev : Device)
    (st st1 : EngState) (h : scanFn recFuel innerFuel magic dev st = some st1) :
    scanFn recFuel innerFuel magic dev st1 = some st1 := by
  cases hc : scanCore recFuel innerFuel magic dev with
  | none => simp [scanFn, hc] at h
  | some c =>
    simp only [scanFn, hc, Option.map_some'] at h ⊢
    injection h with h
    subst h
    rfl

/-- Witness for C8 on a concrete device: a scan of the erased two-sector
device yields the empty state, and scanning again from that state yields it
unchanged. -/
theorem C8_scan_idempotent_witness :
    scanFn 40 40 testMagic (erasedDevice 64 32) initialState =
      some ⟨SectorInfo.reset, 0, 0, 0, 0⟩ ∧
    scanFn 40 40 testMagic (erasedDevice 64 32) ⟨SectorInfo.reset, 0, 0, 0, 0⟩ =
      some ⟨SectorInfo.reset, 0, 0, 0, 0⟩ :=
  ⟨by decide,
   C8_scan_idempotent 40 40 testMagic (erasedDevice 64 32) initialState
     ⟨SectorInfo.reset, 0, 0, 0, 0⟩ (by decide)⟩

/-- Claim C5 counterexample: with the test magic and a previous sector info
carrying sequence `0xFFFFFFFE`, the new sequence is `0xFFFFFFFF`, whose four
little-endian bytes are all ones; losing power after the sequence program but
before the magic program leaves an all-ones header, which `scan_sector`
classifies as Empty — not Bad (magic mismatch) as the claim states. -/
theorem C5_counterexample_torn_after_wrap_scans_empty :
    (scanSector testMagic
        (initSectorTorn (erasedDevice 32 16) 0 ⟨0xFFFFFFFE, 8, .Valid⟩)
        0 none).state = SectorState.Empty ∧
    SectorState.Empty ≠ SectorState.Bad := by
  decide

/-- Claim C5 (amended): `init_sector` assigns
`sequence = (previous valid ? previous sequence : 0) + 1` (uint32, so the
first-ever sector gets 1) and programs the sequence before the magic;
consequently a torn header (power lost between the two programs) over an
erased sector scans as Bad (magic mismatch) — except in the corner case
where the new sequence is `0xFFFFFFFF`, which leaves the header all-ones and
scans as Empty — and in neither case as Valid, provided the configured magic
is not `0xFFFFFFFF`. -/
theorem C5_init_sector_sequence_and_torn_scan
    (magic : Nat) (dev : Device) (addr : Nat) (info : SectorInfo)
    (hm : magic ≠ 0xFFFFFFFF)
    (her : ∀ i < 8, dev.data (dev.sectorAddress addr + i) = 255) :
    (initSector magic dev addr info).2.sequence =
      ((if info.IsValid then info.sequence else 0) + 1) % 2 ^ 32 ∧
    (info.IsValid = false → (initSector magic dev addr info).2.sequence = 1) ∧
    (scanSector magic (initSectorTorn dev addr info) addr none).state =
      (if ((if info.IsValid then info.sequence else 0) + 1) % 2 ^ 32 = 0xFFFFFFFF
       then SectorState.Empty else SectorState.Bad) ∧
    (scanSector magic (initSectorTorn dev addr info) addr none).IsValid = false := by
  set seq := ((if info.IsValid then info.sequence else 0) + 1) % 2 ^ 32 with hseq
  have hseqlt : seq < 2 ^ 32 := Nat.mod_lt _ (by norm_num)
  set base := dev.sectorAddress addr with hbase
  set torn := initSectorTorn dev addr info with htorn
  have htbase : torn.sectorAddress addr = base := rfl
  have hlow : ∀ i < 4, torn.data (base + i) = 255 := by
    intro i hi
    have : torn.data (base + i) = dev.data (base + i) := by
      simp only [htorn, initSectorTorn, program_data, toLE_length, ← hseq, ← hbase]
      rw [if_neg]
      omega
    rw [this]
    exact her i (by omega)
  have hhigh : ∀ i < 4, torn.data (base + 4 + i) = (toLE 4 seq).getD i 0 := by
    intro i hi
    have hin : torn.data (base + 4 + i) =
        dev.data (base + 4 + i) &&& (toLE 4 seq).getD (base + 4 + i - (base + 4)) 0 := by
      simp only [htorn, initSectorTorn, program_data, toLE_length, ← hseq, ← hbase]
      rw [if_pos]
      omega
    rw [hin]
    have : base + 4 + i - (base + 4) = i := by omega
    rw [this]
    have h4 : dev.data (base + 4 + i) = 255 := by
      rw [show base + 4 + i = base + (4 + i) by omega]
      exact her (4 + i) (by omega)
    rw [h4]
    exact and255_of_lt _ (toLE_getD_lt 4 seq i)
  have hr4lo : readBytes torn base 4 = List.replicate 4 255 :=
    readBytes_erased _ _ _ hlow
  have hr4hi : readBytes torn (base + 4) 4 = toLE 4 seq := by
    have hlen : (toLE 4 seq).length = 4 := toLE_length 4 seq
    apply List.ext_getElem
    · simp [readBytes, hlen]
    · intro i h1 h2
      simp only [readBytes, List.getElem_map, List.getElem_range]
      have := hhigh i (by simpa [readBytes] using h1)
      rw [this]
      rw [List.getD_eq_getElem?_getD, List.getElem?_eq_getElem h2]
      rfl
  have hr8 : readBytes torn base 8 = List.replicate 4 255 ++ toLE 4 seq := by
    have := readBytes_add torn base 4 4
    rw [show (4 : Nat) + 4 = 8 from rfl] at this
    rw [this, hr4lo, hr4hi]
  have hmagicRead : readLE torn base 4 = 0xFFFFFFFF := by
    rw [readLE, hr4lo, leVal_replicate_255]
    norm_num
  have hallOnes : ((readBytes torn base 8).all (· == 255) = true) ↔ seq = 0xFFFFFFFF := by
    rw [hr8, List.all_append]
    have h1 : (List.replicate 4 255).all (· == 255) = true := by decide
    rw [h1, Bool.true_and]
    have := toLE_all_ones_iff 4 seq (by norm_num at hseqlt ⊢; omega)
    rw [this]
    norm_num
  refine ⟨rfl, ?_, ?_, ?_⟩
  · intro hinv
    simp [initSector, hinv]
  · show (scanSector magic torn addr none).state = _
    simp only [scanSector, htbase, hmagicRead]
    by_cases hff : seq = 0xFFFFFFFF
    · rw [if_pos (hallOnes.mpr hff), if_pos hff]
    · rw [if_neg (fun hc => hff (hallOnes.mp hc)), if_neg hff, if_pos (Ne.symm hm)]
  · show (scanSector magic torn addr none).IsValid = false
    simp only [scanSector, htbase, hmagicRead, SectorInfo.IsValid]
    by_cases hff : ((readBytes torn base 8).all (· == 255) = true)
    · rw [if_pos hff]
      decide
    · rw [if_neg hff, if_pos (Ne.symm hm)]
      decide

/-- Witness for C5 at a concrete input: erased sector, test magic, previous
sequence 5; the torn header scans Bad and the sequence is bumped to 6. -/
theorem C5_init_sector_sequence_and_torn_scan_witness :
    (initSector testMagic (erasedDevice 32 16) 0 ⟨5, 8, .Valid⟩).2.sequence = 6 ∧
    (scanSector testMagic
        (initSectorTorn (erasedDevice 32 16) 0 ⟨5, 8, .Valid⟩) 0 none).state =
      SectorState.Bad := by
  have h := C5_init_sector_sequence_and_torn_scan testMagic (erasedDevice 32 16) 0
    ⟨5, 8, .Valid⟩ (by decide) (by decide)
  refine ⟨?_, ?_⟩
  · rw [h.1]
    decide
  · rw [h.2.2.1]
    decide


theorem scanRecord_nextRecord (dev : Device) (addr : Nat) :
    (scanRecord dev addr).1.nextRecord = (scanRecord dev addr).1.payload + 2 := rfl

theorem scanRecord_payloadOffset (dev : Device) (addr : Nat) :
    (scanRecord dev addr).2 = 2 := rfl

theorem nextRecordLoop_no_sentinel (dev : Device) :
    ∀ (fuel : Nat) (re re1 : RecordEnumerator) (n : Nat), re.r ≤ re.rNext →
      nextRecordLoop fuel dev re = some (re1, n) → re1.r ≤ re1.rNext := by
  intro fuel
  induction fuel with
  | zero => intro re re1 n _ hx; simp [nextRecordLoop] at hx
  | succ fuel ih =>
    intro re re1 n h hx
    rw [nextRecordLoop] at hx
    by_cases h1 : dev.isSameSector re.r re.rNext
    · rw [if_pos h1] at hx
      rcases hsr : scanRecord dev re.rNext with ⟨ri, off⟩
      simp only [hsr] at hx
      have hnr : ri.nextRecord = ri.payload + 2 := by
        have := scanRecord_nextRecord dev re.rNext
        rw [hsr] at this
        exact this
      have hoff : off = 2 := by
        have := scanRecord_payloadOffset dev re.rNext
        rw [hsr] at this
        exact this
      by_cases he : ri.IsEmpty
      · rw [if_pos he] at hx
        injection hx with hx
        injection hx with hx1 hx2
        subst hx1
        exact Nat.le_refl _
      · rw [if_neg he] at hx
        by_cases hb : ri.IsBad
        · rw [if_pos hb] at hx
          by_cases hskip : re.rNext + ri.nextRecord ≠ re.rNext
          · rw [if_pos hskip] at hx
            exact ih _ re1 n (Nat.le_add_right _ _) hx
          · rw [if_neg hskip] at hx
            omega
        · rw [if_neg hb] at hx
          injection hx with hx
          injection hx with hx1 hx2
          subst hx1
          show re.rNext + off ≤ re.rNext + ri.nextRecord
          omega
    · rw [if_neg h1] at hx
      injection hx with hx
      injection hx with hx1 hx2
      subst hx1
      exact h

/-- Claim C9: in the simple variable format `scan_record` always reports
`nextRecord = payload + 2 ≥ 2` — for Valid, Bad and even Empty headers — so
a Bad record is always skippable and the unskippable-Bad branch of
`NextRecord` (the `rNext = r - 1` sentinel, the only assignment that can
make `rNext` drop below `r`) is unreachable: any `NextRecord` step started
with `r ≤ rNext` ends with `r ≤ rNext`. -/
theorem C9_bad_records_always_skippable :
    (∀ (dev : Device) (addr : Nat),
      (scanRecord dev addr).1.nextRecord = (scanRecord dev addr).1.payload + 2 ∧
      2 ≤ (scanRecord dev addr).1.nextRecord ∧
      ¬ ((scanRecord dev addr).1.IsBad = true ∧
         (scanRecord dev addr).1.nextRecord = 0)) ∧
    (∀ (fuel magic : Nat) (dev : Device) (re re1 : RecordEnumerator) (n : Nat),
      re.r ≤ re.rNext → nextRecordFn fuel magic dev re = some (re1, n) →
      re1.r ≤ re1.rNext) := by
  constructor
  · intro dev addr
    refine ⟨rfl, by rw [scanRecord_nextRecord]; omega, ?_⟩
    rintro ⟨-, hz⟩
    rw [scanRecord_nextRecord] at hz
    omega
  · intro fuel magic dev re re1 n h hx
    rw [nextRecordFn] at hx
    by_cases hfc : (re.r == re.rNext && re.si.IsBad) = true
    · rw [if_pos hfc] at hx
      by_cases hv : ({ re with
          si := scanSector magic dev (dev.sectorAddress re.r) none,
          rNext := re.r + (scanSector magic dev (dev.sectorAddress re.r) none).firstRecord
            } : RecordEnumerator).si.IsValid
      · rw [if_neg (by simpa using hv)] at hx
        exact nextRecordLoop_no_sentinel dev fuel _ re1 n (Nat.le_add_right _ _) hx
      · rw [if_pos (by simpa using hv)] at hx
        injection hx with hx
        injection hx with hx1 hx2
        subst hx1
        simp
    · rw [if_neg hfc] at hx
      by_cases hv : re.si.IsValid
      · rw [if_neg (by simpa using hv)] at hx
        exact nextRecordLoop_no_sentinel dev fuel re re1 n h hx
      · rw [if_pos (by simpa using hv)] at hx
        injection hx with hx
        injection hx with hx1 hx2
        subst hx1
        exact h

/-- Witness for C9: a concrete `NextRecord` step on the two-sector wrap
device ends with `r ≤ rNext` (it stops at the Empty header after the sector
header), and a concrete `scan_record` reports `nextRecord = payload + 2`. -/
theorem C9_bad_records_always_skippable_witness :
    (scanRecord (erasedDevice 64 32) 8).1.nextRecord =
      (scanRecord (erasedDevice 64 32) 8).1.payload + 2 ∧
    nextRecordFn 40 testMagic wrapDevA (enumerateRecords 0) =
      some (⟨8, 8, 0, scanSector testMagic wrapDevA 0 none⟩, 0) ∧
    (⟨8, 8, 0, scanSector testMagic wrapDevA 0 none⟩ : RecordEnumerator).r ≤
      (⟨8, 8, 0, scanSector testMagic wrapDevA 0 none⟩ : RecordEnumerator).rNext :=
  ⟨(C9_bad_records_always_skippable.1 (erasedDevice 64 32) 8).1,
   by decide,
   C9_bad_records_always_skippable.2 40 testMagic wrapDevA (enumerateRecords 0)
     ⟨8, 8, 0, scanSector testMagic wrapDevA 0 none⟩ 0 (by decide) (by decide)⟩

/-- Claim C10: a record allocated with clamped payload length exactly
`0x7FFF` gets the header value `0x7FFF ||| 0x8000 = 0xFFFF`, whose program
flips no bit of erased media (the device bytes are unchanged); since record
classification tests the Empty pattern `0xFFFF` before the uncommitted bit,
such a record left uncommitted scans as Empty rather than Bad, and
`NextRecord` on its sector stops at it (returns 0 with `r = rNext`) instead
of skipping it. -/
theorem C10_unfinished_max_record_scans_empty
    (dev : Device) (pos req len0 : Nat) (info : RecordInfo) (si : SectorInfo)
    (fuel magic : Nat)
    (hfuel : 1 ≤ fuel)
    (hreq : 0x7FFF ≤ req)
    (hspan : 0x8001 ≤ dev.sectorRemaining pos)
    (her : ∀ i < 2, dev.data (pos + i) = 255)
    (hsi : si.IsValid = true) :
    (initRecord dev pos info req).2.1.payload = 0x7FFF ∧
    (initRecord dev pos info req).2.1.state = RecordState.Valid ∧
    toLE 2 (0x7FFF ||| 0x8000) = [255, 255] ∧
    (∀ x, (initRecord dev pos info req).1.data x = dev.data x) ∧
    (scanRecord (initRecord dev pos info req).1 pos).1.state = RecordState.Empty ∧
    nextRecordFn fuel magic (initRecord dev pos info req).1 ⟨pos, pos, len0, si⟩ =
      some (⟨pos, pos, len0, si⟩, 0) := by
  have hspan2 : dev.sectorRemaining pos = dev.sectorSize - pos % dev.sectorSize := rfl
  have hmin : min req 0x7FFF = 0x7FFF := Nat.min_eq_right hreq
  have hmin2 : min (min req 0x7FFF) (dev.sectorRemaining pos - 2) = 0x7FFF := by
    omega
  have hfit : ¬ (2 + 0x7FFF > dev.sectorRemaining pos) := by omega
  have hini : initRecord dev pos info req =
      (program dev pos (toLE 2 (0x7FFF ||| 0x8000)),
        ⟨(0x7FFF ||| 0x8000) &&& 0x7FFF, 2 + ((0x7FFF ||| 0x8000) &&& 0x7FFF),
          .Valid⟩, 2) := by
    cases hposb : (pos % dev.sectorSize == 8) with
    | false =>
        rw [initRecord, hposb]
        simp only [Bool.false_eq_true, if_false, hmin]
        rw [if_neg hfit]
    | true =>
        rw [initRecord, hposb]
        simp only [if_true, hmin2]
        rw [if_neg hfit]
  have hhdr : (0x7FFF ||| 0x8000 : Nat) = 0xFFFF := by decide
  have htole : toLE 2 (0x7FFF ||| 0x8000) = [255, 255] := by decide
  have hand : ((0x7FFF ||| 0x8000 : Nat) &&& 0x7FFF) = 0x7FFF := by decide
  have hdata : ∀ x, (initRecord dev pos info req).1.data x = dev.data x := by
    intro x
    rw [hini]
    simp only [program_data, htole]
    by_cases hin : pos ≤ x ∧ x < pos + ([255, 255] : List Nat).length
    · rw [if_pos hin]
      have hx255 : dev.data x = 255 := by
        have := her (x - pos) (by simp at hin; omega)
        rwa [show pos + (x - pos) = x by omega] at this
      rw [hx255]
      have hk : x - pos = 0 ∨ x - pos = 1 := by
        rcases hin with ⟨h1, h2⟩
        simp only [List.length_cons, List.length_nil] at h2
        omega
      rcases hk with hk | hk <;> rw [hk] <;> decide
    · rw [if_neg hin]
  have hsrem : (initRecord dev pos info req).1.sectorRemaining pos =
      dev.sectorRemaining pos := by
    rw [hini]
    rfl
  have hscan2 : readBytes (initRecord dev pos info req).1 pos 2 = [255, 255] := by
    have := readBytes_erased (initRecord dev pos info req).1 pos 2
      (fun i hi => by rw [hdata]; exact her i hi)
    simpa using this
  have hscanEmpty : (scanRecord (initRecord dev pos info req).1 pos).1.state =
      RecordState.Empty := by
    rw [scanRecord]
    have havail : min 2 ((initRecord dev pos info req).1.sectorRemaining pos) = 2 := by
      rw [hsrem]; omega
    simp only [havail, hscan2]
    decide
  refine ⟨by rw [hini]; exact hand, by rw [hini], htole, hdata, hscanEmpty, ?_⟩
  cases fuel with
  | zero => omega
  | succ fuel =>
    have hb : si.IsBad = false := by
      rcases si with ⟨s1, s2, st⟩
      cases st <;> simp_all [SectorInfo.IsValid, SectorInfo.IsBad]
    rcases hp : scanRecord (initRecord dev pos info req).1 pos with ⟨ri, off⟩
    have hries : ri.IsEmpty = true := by
      have h1 := hscanEmpty
      rw [hp] at h1
      simp only at h1
      simp [RecordInfo.IsEmpty, h1]
    rw [nextRecordFn]
    simp only [hb, hsi, Bool.and_false, Bool.false_eq_true, if_false,
      Bool.not_eq_true, not_true, ite_false]
    rw [nextRecordLoop]
    rw [if_pos (by simp [Device.isSameSector])]
    simp only [hp, hries, if_true]

/-- Witness for C10: 64 KiB sector, allocation of `0x7FFF` at offset 8 (the
first record position of a fresh sector) of the erased device; the uncommitted
record scans Empty and enumeration stops at it. -/
theorem C10_unfinished_max_record_scans_empty_witness :
    (scanRecord (initRecord (erasedDevice 65536 65536) 8 RecordInfo.reset
        0x7FFF).1 8).1.state = RecordState.Empty ∧
    nextRecordFn 1 testMagic
        (initRecord (erasedDevice 65536 65536) 8 RecordInfo.reset 0x7FFF).1
        ⟨8, 8, 0, ⟨1, 8, .Valid⟩⟩ =
      some (⟨8, 8, 0, ⟨1, 8, .Valid⟩⟩, 0) := by
  have h := C10_unfinished_max_record_scans_empty (erasedDevice 65536 65536) 8
    0x7FFF 0 RecordInfo.reset ⟨1, 8, .Valid⟩ 1 testMagic (by decide) (by decide)
    (by decide) (by decide) (by decide)
  exact ⟨h.2.2.2.2.1, h.2.2.2.2.2⟩

/-! ### Bit-level helpers for the record header encoding -/

theorem or_8000_eq_add (a : Nat) (h : a < 0x8000) : a ||| 0x8000 = a + 0x8000 := by
  have h15 : (0x8000 : Nat) = 2 ^ 15 := by norm_num
  have key := Nat.mul_add_lt_is_or (i := 15) (b := a) (by simpa [h15] using h) 1
  rw [Nat.mul_one] at key
  rw [h15, Nat.or_comm, ← key, Nat.add_comm]

theorem or_8000_and_7FFF (a : Nat) (h : a < 0x8000) : (a ||| 0x8000) &&& 0x7FFF = a := by
  have h15 : (0x8000 : Nat) = 2 ^ 15 := by norm_num
  have h7 : (0x7FFF : Nat) = 2 ^ 15 - 1 := by norm_num
  rw [h15, h7, Nat.and_distrib_right]
  have h1 : (2 ^ 15 : Nat) &&& 2 ^ 15 - 1 = 0 := by
    rw [Nat.and_pow_two_sub_one_eq_mod]
    simp
  have h2 : a &&& 2 ^ 15 - 1 = a := by
    rw [Nat.and_pow_two_sub_one_eq_mod]
    exact Nat.mod_eq_of_lt (by simpa [h15] using h)
  rw [h1, h2, Nat.or_zero]

/-! ### Ring arithmetic and sector rotation lemmas -/

theorem nextSectorAddr_aligned_lt (dev : Device) (a : Nat)
    (hT : 0 < dev.sectorSize) (hdvd : dev.sectorSize ∣ dev.size)
    (hsz : 0 < dev.size) (ha : a % dev.sectorSize = 0) (hlt : a < dev.size) :
    nextSectorAddr dev a % dev.sectorSize = 0 ∧ nextSectorAddr dev a < dev.size := by
  rcases hdvd with ⟨m, hm⟩
  rcases Nat.dvd_of_mod_eq_zero ha with ⟨k, hk⟩
  have hkm : k < m := by
    have : dev.sectorSize * k < dev.sectorSize * m := by rw [← hk, ← hm]; exact hlt
    exact Nat.lt_of_mul_lt_mul_left this
  have hle : a + dev.sectorSize ≤ dev.size := by
    rw [hk, hm]
    calc dev.sectorSize * k + dev.sectorSize = dev.sectorSize * (k + 1) := by ring
      _ ≤ dev.sectorSize * m := Nat.mul_le_mul_left _ hkm
  rw [nextSectorAddr]
  by_cases he : a + dev.sectorSize = dev.size
  · rw [if_pos he]
    simpa using hsz
  · rw [if_neg he]
    refine ⟨?_, by omega⟩
    rw [Nat.add_mod_right]
    exact ha

theorem advanceSector_spec (magic : Nat) (dev : Device) (st : EngState) :
    (advanceSectorFn magic dev st).lastSector = nextSectorAddr dev st.lastSector ∧
    (advanceSectorFn magic dev st).freeOffset = 0 ∧
    (advanceSectorFn magic dev st).last = st.last ∧
    (advanceSectorFn magic dev st).maxRecord = st.maxRecord := by
  rw [advanceSectorFn]
  by_cases h : nextSectorAddr dev st.lastSector ≠ st.firstSector
  · rw [if_pos h]
    exact ⟨rfl, rfl, rfl, rfl⟩
  · rw [if_neg h]
    exact ⟨rfl, rfl, rfl, rfl⟩

theorem initSector_isValid (magic : Nat) (d : Device) (a : Nat) (i : SectorInfo) :
    (initSector magic d a i).2.IsValid = true := rfl

theorem newSectorLoop_step (fuel magic : Nat) (dev : Device) (st : EngState) :
    newSectorLoop (fuel + 1) magic dev st =
      some ((initSector magic
          (if ¬ isEmptyRange dev st.lastSector dev.sectorSize then
            eraseRange dev st.lastSector dev.sectorSize
          else dev) st.lastSector st.last).1,
        { st with
          last := (initSector magic
            (if ¬ isEmptyRange dev st.lastSector dev.sectorSize then
              eraseRange dev st.lastSector dev.sectorSize
            else dev) st.lastSector st.last).2
          freeOffset := 8 }) := by
  rfl

/-- Success of `InitRecord` at the first record position of a sector: the
payload is clamped to `min request 0x7FFF` and then to the sector capacity
`sectorSize - 10`, and the allocation always fits. -/
theorem initRecord_at_first (dev : Device) (pos : Nat) (info : RecordInfo)
    (req : Nat) (h16 : 16 ≤ dev.sectorSize) (hpos : pos % dev.sectorSize = 8) :
    initRecord dev pos info req =
      (program dev pos (toLE 2 (min (min req 0x7FFF) (dev.sectorSize - 10) ||| 0x8000)),
        ⟨min (min req 0x7FFF) (dev.sectorSize - 10),
          2 + min (min req 0x7FFF) (dev.sectorSize - 10), .Valid⟩, 2) := by
  have hrem : dev.sectorRemaining pos = dev.sectorSize - 8 := by
    rw [Device.sectorRemaining, hpos]
  have hclamp : min (min req 0x7FFF) (dev.sectorRemaining pos - 2) =
      min (min req 0x7FFF) (dev.sectorSize - 10) := by
    have h2 : dev.sectorSize - 8 - 2 = dev.sectorSize - 10 := by omega
    rw [hrem, h2]
  have hfit : ¬ (2 + min (min req 0x7FFF) (dev.sectorSize - 10) >
      dev.sectorRemaining pos) := by
    rw [hrem]
    have := Nat.min_le_right (min req 0x7FFF) (dev.sectorSize - 10)
    omega
  have hlt : min (min req 0x7FFF) (dev.sectorSize - 10) < 0x8000 := by
    have := Nat.min_le_left (min req 0x7FFF) (dev.sectorSize - 10)
    have := Nat.min_le_right req 0x7FFF
    omega
  have hbeq : (pos % dev.sectorSize == 8) = true := by simpa using hpos
  rw [initRecord, if_pos hbeq, hclamp, if_neg hfit]
  simp only [or_8000_and_7FFF _ hlt]

/-- State shape after a successful `NewSector`: the engine first advances if
`freeOffset` is nonzero, then lands with `freeOffset = 8` and a Valid cached
sector info whose sequence is the previous one bumped by one; `initSector`
never fails in this format, so the erase/init loop succeeds on its first
iteration. -/
theorem newSectorFn_spec (fuel magic : Nat) (dev : Device) (st : EngState) :
    ∃ dev2 : Device,
      newSectorFn (fuel + 1) magic dev st =
        some (dev2,
          { (if st.freeOffset ≠ 0 then advanceSectorFn magic dev st else st) with
            last := ⟨((if st.last.IsValid then st.last.sequence else 0) + 1) % 2 ^ 32,
              8, .Valid⟩
            freeOffset := 8 }) ∧
      dev2.sectorSize = dev.sectorSize ∧ dev2.size = dev.size := by
  rw [newSectorFn]
  set st1 := if st.freeOffset ≠ 0 then advanceSectorFn magic dev st else st with hst1
  have hlast : st1.last = st.last := by
    rw [hst1]
    by_cases h : st.freeOffset ≠ 0
    · rw [if_pos h]
      exact (advanceSector_spec magic dev st).2.2.1
    · rw [if_neg h]
  rw [newSectorLoop_step]
  set dev1 := if ¬ isEmptyRange dev st1.lastSector dev.sectorSize then
      eraseRange dev st1.lastSector dev.sectorSize
    else dev with hdev1
  have hd1s : dev1.sectorSize = dev.sectorSize := by
    rw [hdev1]
    split <;> rfl
  have hd1z : dev1.size = dev.size := by
    rw [hdev1]
    split <;> rfl
  have hinfo : (initSector magic dev1 st1.lastSector st1.last).2 =
      ⟨((if st1.last.IsValid then st1.last.sequence else 0) + 1) % 2 ^ 32,
        8, .Valid⟩ := rfl
  have hinfo2 : (initSector magic dev1 st1.lastSector st1.last).2 =
      ⟨((if st.last.IsValid then st.last.sequence else 0) + 1) % 2 ^ 32,
        8, .Valid⟩ := hinfo.trans (by rw [hlast])
  refine ⟨(initSector magic dev1 st1.lastSector st1.last).1, ?_, hd1s, hd1z⟩
  rw [hinfo2]

/-- Full case analysis of `InitRecord`: with `size1` the clamped payload
(the extra sector clamp applying exactly at the first record position), the
allocation is Bad with nothing programmed and nothing reserved when header
plus clamped payload exceeds the span, and otherwise programs the unfinished
header and reserves `2 + size1` bytes. -/
theorem initRecord_spec (dev : Device) (pos : Nat) (info : RecordInfo) (req : Nat) :
    initRecord dev pos info req =
      (if 2 + (if pos % dev.sectorSize == 8 then
            min (min req 0x7FFF) (dev.sectorRemaining pos - 2)
          else min req 0x7FFF) > dev.sectorRemaining pos then
        (dev, { info with state := .Bad }, 0)
      else
        (program dev pos (toLE 2 ((if pos % dev.sectorSize == 8 then
            min (min req 0x7FFF) (dev.sectorRemaining pos - 2)
          else min req 0x7FFF) ||| 0x8000)),
          ⟨(if pos % dev.sectorSize == 8 then
              min (min req 0x7FFF) (dev.sectorRemaining pos - 2)
            else min req 0x7FFF),
            2 + (if pos % dev.sectorSize == 8 then
              min (min req 0x7FFF) (dev.sectorRemaining pos - 2)
            else min req 0x7FFF), .Valid⟩, 2)) := by
  rw [initRecord]
  split
  · have hlt : min (min req 0x7FFF) (dev.sectorRemaining pos - 2) < 0x8000 := by
      have h1 := Nat.min_le_left (min req 0x7FFF) (dev.sectorRemaining pos - 2)
      have h2 := Nat.min_le_right req 0x7FFF
      omega
    split
    · rfl
    · simp only [or_8000_and_7FFF _ hlt]
  · have hlt : min req 0x7FFF < 0x8000 := by
      have h2 := Nat.min_le_right req 0x7FFF
      omega
    split
    · rfl
    · simp only [or_8000_and_7FFF _ hlt]

/-- Claim C2: for every engine state over a well-formed device geometry,
`BeginWrite` terminates with the successful (`true`) result — two loop
iterations always suffice — and the ring-exhaustion condition described by
the claim cannot arise because `initSector` of the simple variable format
never fails (every candidate sector initializes successfully); hence
"returns false exactly in the ring-exhaustion case" holds with both sides
empty.  The source in fact contains no `false` return at all: the only
`async_return` in `BeginWrite` yields `true`. -/
theorem C2_begin_write_terminates_true (magic : Nat) (dev : Device)
    (st : EngState) (len : Nat)
    (h16 : 16 ≤ dev.sectorSize) (hdvd : dev.sectorSize ∣ dev.size)
    (hsz : 0 < dev.size)
    (hal : st.lastSector % dev.sectorSize = 0) (hlt : st.lastSector < dev.size) :
    (∃ dev2 st2 addr len2,
      beginWriteFn 2 magic dev st len = some (dev2, st2, addr, len2)) ∧
    (∀ (d : Device) (a : Nat) (i : SectorInfo),
      (initSector magic d a i).2.IsValid = true) := by
  refine ⟨?_, fun d a i => initSector_isValid magic d a i⟩
  have hT : 0 < dev.sectorSize := by omega
  have h8T : (8 : Nat) % dev.sectorSize = 8 := Nat.mod_eq_of_lt (by omega)
  have rotate : ∀ (fuel : Nat) (dev0 : Device) (st0 : EngState) (ri : RecordInfo),
      dev0.sectorSize = dev.sectorSize → dev0.size = dev.size →
      st0.lastSector % dev.sectorSize = 0 → st0.lastSector < dev.size →
      (st0.freeOffset = 0 || st0.freeOffset ≥ dev0.sectorSize) = true →
      ∃ dev2 st2 addr len2,
        beginWriteLoop (fuel + 1) magic dev0 st0 ri len =
          some (dev2, st2, addr, len2) := by
    intro fuel dev0 st0 ri hds hdz hal0 hlt0 hc
    rw [beginWriteLoop, if_pos hc]
    rcases newSectorFn_spec fuel magic dev0 st0 with ⟨dev2, hns, hss, hzz⟩
    rw [hns]
    set stA := if st0.freeOffset ≠ 0 then advanceSectorFn magic dev0 st0 else st0
      with hstA
    have hnx : nextSectorAddr dev0 st0.lastSector = nextSectorAddr dev st0.lastSector := by
      rw [nextSectorAddr, nextSectorAddr, hds, hdz]
    have halA : stA.lastSector % dev.sectorSize = 0 ∧ stA.lastSector < dev.size := by
      rw [hstA]
      by_cases h : st0.freeOffset ≠ 0
      · rw [if_pos h, (advanceSector_spec magic dev0 st0).1, hnx]
        exact nextSectorAddr_aligned_lt dev st0.lastSector hT hdvd hsz hal0 hlt0
      · rw [if_neg h]
        exact ⟨hal0, hlt0⟩
    have h16b : 16 ≤ dev2.sectorSize := by rw [hss, hds]; exact h16
    have hpos8 : (stA.lastSector + 8) % dev2.sectorSize = 8 := by
      rw [hss, hds, Nat.add_mod, halA.1, h8T]
      simpa using h8T
    have hini := initRecord_at_first dev2 (stA.lastSector + 8) ri len h16b hpos8
    simp only [hini]
    exact ⟨_, _, _, _, rfl⟩
  rw [beginWriteFn]
  by_cases hc : (st.freeOffset = 0 || st.freeOffset ≥ dev.sectorSize) = true
  · exact rotate 1 dev st RecordInfo.reset rfl rfl hal hlt hc
  · rw [show (2 : Nat) = 1 + 1 from rfl, beginWriteLoop, if_neg hc]
    simp only [initRecord_spec, RecordInfo.reset]
    by_cases hf : 2 + (if (st.lastSector + st.freeOffset) % dev.sectorSize == 8 then
        min (min len 0x7FFF) (dev.sectorRemaining (st.lastSector + st.freeOffset) - 2)
      else min len 0x7FFF) > dev.sectorRemaining (st.lastSector + st.freeOffset)
    · rw [if_pos hf]
      simp only [RecordInfo.IsValid, RecordInfo.IsBad]
      exact rotate 0 dev _ _ rfl rfl hal hlt (by simp)
    · rw [if_neg hf]
      exact ⟨_, _, _, _, rfl⟩

/-- Witness for C2: `BeginWrite` of 5 bytes on the erased two-sector device
succeeds, and a concrete `initSector` reports Valid. -/
theorem C2_begin_write_terminates_true_witness :
    (∃ dev2 st2 addr len2,
      beginWriteFn 2 testMagic (erasedDevice 64 32) initialState 5 =
        some (dev2, st2, addr, len2)) ∧
    (initSector testMagic (erasedDevice 64 32) 0 SectorInfo.reset).2.IsValid = true :=
  ⟨(C2_begin_write_terminates_true testMagic (erasedDevice 64 32) initialState 5
      (by decide) (by decide) (by decide) (by decide) (by decide)).1,
   (C2_begin_write_terminates_true testMagic (erasedDevice 64 32) initialState 5
      (by decide) (by decide) (by decide) (by decide) (by decide)).2
     (erasedDevice 64 32) 0 SectorInfo.reset⟩

theorem sectorAddress_of_aligned (d : Device) (a : Nat) (hT : 0 < d.sectorSize)
    (ha : a % d.sectorSize = 0) : d.sectorAddress a = a :=
  Nat.div_mul_cancel (Nat.dvd_of_mod_eq_zero ha)

theorem mod_of_aligned_add (d : Device) (a k : Nat) (ha : a % d.sectorSize = 0)
    (hk : k < d.sectorSize) : (a + k) % d.sectorSize = k := by
  rw [Nat.add_mod, ha, Nat.zero_add, Nat.mod_mod_of_dvd k (Nat.dvd_refl _),
    Nat.mod_eq_of_lt hk]

theorem sectorAddress_mem (d : Device) (x a : Nat) (hT : 0 < d.sectorSize)
    (ha : a % d.sectorSize = 0) :
    d.sectorAddress x = a ↔ a ≤ x ∧ x < a + d.sectorSize := by
  rcases Nat.dvd_of_mod_eq_zero ha with ⟨k, hk⟩
  have hdm := Nat.div_add_mod x d.sectorSize
  have hmlt : x % d.sectorSize < d.sectorSize := Nat.mod_lt x hT
  rw [Device.sectorAddress]
  constructor
  · intro h
    refine ⟨?_, ?_⟩
    · rw [← h]
      exact Nat.div_mul_le_self x d.sectorSize
    · rw [← h]
      calc x = d.sectorSize * (x / d.sectorSize) + x % d.sectorSize := hdm.symm
        _ < d.sectorSize * (x / d.sectorSize) + d.sectorSize :=
          Nat.add_lt_add_left hmlt _
        _ = x / d.sectorSize * d.sectorSize + d.sectorSize := by
          rw [Nat.mul_comm]
  · rintro ⟨h1, h2⟩
    have hdiv : x / d.sectorSize = k := by
      apply Nat.div_eq_of_lt_le
      · rw [Nat.mul_comm k d.sectorSize, ← hk]
        exact h1
      · rw [Nat.succ_mul, Nat.mul_comm k d.sectorSize, ← hk]
        exact h2
    rw [hdiv, Nat.mul_comm k d.sectorSize, ← hk]

theorem nextSectorAddr_ne (dev : Device) (a : Nat) (hT : 0 < dev.sectorSize)
    (hdvd : dev.sectorSize ∣ dev.size) (hN2 : 2 ≤ dev.numSectors)
    (ha : a % dev.sectorSize = 0) (hlt : a < dev.size) :
    nextSectorAddr dev a ≠ a := by
  rcases hdvd with ⟨m, hm⟩
  have hmn : dev.numSectors = m := by
    rw [Device.numSectors, hm, Nat.mul_div_cancel_left _ hT]
  rw [nextSectorAddr]
  split
  · rename_i he
    have h2m : 2 ≤ m := hmn ▸ hN2
    have : dev.sectorSize ≤ a := by
      have : dev.sectorSize * 2 ≤ dev.sectorSize * m := Nat.mul_le_mul_left _ h2m
      omega
    omega
  · omega

theorem eraseRange_sector_data (d : Device) (a : Nat) (hT : 0 < d.sectorSize)
    (ha : a % d.sectorSize = 0) (x : Nat) :
    (eraseRange d a d.sectorSize).data x =
      if a ≤ x ∧ x < a + d.sectorSize then 255 else d.data x := by
  have h1 : d.sectorAddress a = a := sectorAddress_of_aligned d a hT ha
  have h2 : d.sectorAddress (a + d.sectorSize + (d.sectorSize - 1)) =
      a + d.sectorSize := by
    rcases Nat.dvd_of_mod_eq_zero ha with ⟨k, hk⟩
    rw [Device.sectorAddress]
    have hdiv : (a + d.sectorSize + (d.sectorSize - 1)) / d.sectorSize = k + 1 := by
      apply Nat.div_eq_of_lt_le
      · rw [Nat.succ_mul, Nat.mul_comm k d.sectorSize, ← hk]
        omega
      · rw [Nat.succ_mul, Nat.succ_mul, Nat.mul_comm k d.sectorSize, ← hk]
        omega
    rw [hdiv, Nat.succ_mul, Nat.mul_comm k d.sectorSize, ← hk]
  show (if d.sectorAddress a ≤ x ∧
      x < d.sectorAddress (a + d.sectorSize + (d.sectorSize - 1)) then 255
    else d.data x) = _
  rw [h1, h2]

/-- Concrete shape of a `BeginWrite` iteration that starts with
`freeOffset = sectorSize`: the engine advances to the next ring sector,
erases it if needed, initializes it, and allocates at its first record
position with the payload clamped to `min (min req 0x7FFF) (sectorSize-10)`;
the writer span starts 10 bytes into the new sector. -/
theorem beginWriteLoop_rotate_shape (fuel magic : Nat) (dev : Device)
    (st : EngState) (ri : RecordInfo) (req : Nat)
    (h16 : 16 ≤ dev.sectorSize)
    (hfoT : st.freeOffset = dev.sectorSize)
    (hal2 : nextSectorAddr dev st.lastSector % dev.sectorSize = 0) :
    ∃ st2,
      beginWriteLoop (fuel + 1) magic dev st ri req =
        some ((initRecord
            (initSector magic
              (if ¬ isEmptyRange dev (nextSectorAddr dev st.lastSector)
                  dev.sectorSize then
                eraseRange dev (nextSectorAddr dev st.lastSector) dev.sectorSize
              else dev)
              (nextSectorAddr dev st.lastSector) st.last).1
            (nextSectorAddr dev st.lastSector + 8) ri req).1, st2,
          nextSectorAddr dev st.lastSector + 10,
          min (min req 0x7FFF) (dev.sectorSize - 10)) ∧
      st2.lastSector = nextSectorAddr dev st.lastSector := by
  have hT : 0 < dev.sectorSize := by omega
  have hc : (st.freeOffset = 0 || st.freeOffset ≥ dev.sectorSize) = true := by
    simp [hfoT]
  rw [beginWriteLoop, if_pos hc, newSectorFn]
  rw [if_pos (show st.freeOffset ≠ 0 by omega)]
  rw [newSectorLoop_step]
  have hadv := advanceSector_spec magic dev st
  simp only [hadv.1, hadv.2.2.1]
  set nL := nextSectorAddr dev st.lastSector with hnL
  set dev1 := if ¬ isEmptyRange dev nL dev.sectorSize then
      eraseRange dev nL dev.sectorSize
    else dev with hdev1
  set devB := (initSector magic dev1 nL st.last).1 with hdevB
  have hBs : devB.sectorSize = dev.sectorSize := by
    rw [hdevB]
    have h1 : dev1.sectorSize = dev.sectorSize := by
      rw [hdev1]
      split <;> rfl
    exact h1
  have h16B : 16 ≤ devB.sectorSize := by rw [hBs]; exact h16
  have hpos8 : (nL + 8) % devB.sectorSize = 8 := by
    rw [hBs]
    exact mod_of_aligned_add dev nL 8 hal2 (by omega)
  have hini := initRecord_at_first devB (nL + 8) ri req h16B hpos8
  rw [hBs] at hini
  simp only [hini]
  rw [if_pos (show (⟨min (min req 0x7FFF) (dev.sectorSize - 10),
      2 + min (min req 0x7FFF) (dev.sectorSize - 10), .Valid⟩ : RecordInfo).IsValid = true
    from rfl)]
  refine ⟨{ last := (initSector magic dev1 nL st.last).2,
            firstSector := (advanceSectorFn magic dev st).firstSector,
            lastSector := nL,
            freeOffset := 8 + (2 + min (min req 0x7FFF) (dev.sectorSize - 10)),
            maxRecord := devB.sectorSize -
              (8 + (2 + min (min req 0x7FFF) (dev.sectorSize - 10)) + 2) }, ?_, rfl⟩
  have harith : nL + (8 + (2 + min (min req 0x7FFF) (dev.sectorSize - 10))) -
      (2 + min (min req 0x7FFF) (dev.sectorSize - 10)) + 2 = nL + 10 := by
    omega
  rw [harith]


/-- Claim C6: `init_record` clamps the request to the format maximum
`0x7FFF` in every successful case, further clamps to the remaining sector
space only at the very first record position (sector offset 8); a non-first
allocation whose header plus clamped payload exceeds the remaining space
reports Bad and reserves nothing (device and reservation untouched); and
such a failure makes `BeginWrite` rotate to a different sector and clamp on
retry: the writer lands 10 bytes into the next ring sector with length
`min (min req 0x7FFF) (sectorSize - 10)` and the old sector's bytes are left
intact. -/
theorem C6_init_record_clamping_and_rotation
    (magic : Nat) (dev : Device) (st : EngState) (req : Nat)
    (h16 : 16 ≤ dev.sectorSize) (hdvd : dev.sectorSize ∣ dev.size)
    (hsz : 0 < dev.size) (hN2 : 2 ≤ dev.numSectors)
    (hal : st.lastSector % dev.sectorSize = 0) (hlt : st.lastSector < dev.size)
    (hfo0 : 0 < st.freeOffset) (hfoT : st.freeOffset < dev.sectorSize)
    (hfo8 : st.freeOffset ≠ 8)
    (hnofit : dev.sectorSize - st.freeOffset < 2 + min req 0x7FFF) :
    (∀ (d : Device) (p : Nat) (i : RecordInfo) (r : Nat),
      (initRecord d p i r).2.1.state = RecordState.Valid →
        (initRecord d p i r).2.1.payload ≤ min r 0x7FFF) ∧
    (∀ (d : Device) (p : Nat) (i : RecordInfo) (r : Nat),
      (p % d.sectorSize == 8) = false →
      (initRecord d p i r).2.1.state = RecordState.Valid →
        (initRecord d p i r).2.1.payload = min r 0x7FFF) ∧
    (∀ (d : Device) (p : Nat) (i : RecordInfo) (r : Nat),
      d.sectorRemaining p < 2 + (if p % d.sectorSize == 8 then
          min (min r 0x7FFF) (d.sectorRemaining p - 2) else min r 0x7FFF) →
        initRecord d p i r = (d, { i with state := .Bad }, 0)) ∧
    (∃ dev2 st2,
      beginWriteFn 2 magic dev st req =
        some (dev2, st2, nextSectorAddr dev st.lastSector + 10,
          min (min req 0x7FFF) (dev.sectorSize - 10)) ∧
      st2.lastSector = nextSectorAddr dev st.lastSector ∧
      st2.lastSector ≠ st.lastSector ∧
      (∀ x, dev.sectorAddress x = st.lastSector → dev2.data x = dev.data x)) := by
  have hT : 0 < dev.sectorSize := by omega
  refine ⟨?_, ?_, ?_, ?_⟩
  · intro d p i r hv
    rw [initRecord_spec] at hv ⊢
    by_cases hfit : 2 + (if (p % d.sectorSize == 8) = true then
        min (min r 0x7FFF) (d.sectorRemaining p - 2) else min r 0x7FFF) >
        d.sectorRemaining p
    · rw [if_pos hfit] at hv
      simp at hv
    · rw [if_neg hfit]
      show (if (p % d.sectorSize == 8) = true then
          min (min r 0x7FFF) (d.sectorRemaining p - 2)
        else min r 0x7FFF) ≤ min r 0x7FFF
      split
      · exact Nat.min_le_left _ _
      · exact Nat.le_refl _
  · intro d p i r hp hv
    have hcond : ¬ ((p % d.sectorSize == 8) = true) := by simp [hp]
    rw [initRecord_spec] at hv ⊢
    simp only [if_neg hcond] at hv ⊢
    by_cases hfit : 2 + min r 0x7FFF > d.sectorRemaining p
    · rw [if_pos hfit] at hv
      simp at hv
    · rw [if_neg hfit]
  · intro d p i r hbad
    rw [initRecord_spec, if_pos hbad]
  · rw [beginWriteFn, show (2 : Nat) = 1 + 1 from rfl, beginWriteLoop]
    have hcne : ¬ (st.freeOffset = 0 || st.freeOffset ≥ dev.sectorSize) = true := by
      simp
      omega
    rw [if_neg hcne]
    simp only [initRecord_spec, RecordInfo.reset]
    have hposmod : (st.lastSector + st.freeOffset) % dev.sectorSize = st.freeOffset :=
      mod_of_aligned_add dev st.lastSector st.freeOffset hal hfoT
    have hposne : ((st.lastSector + st.freeOffset) % dev.sectorSize == 8) = false := by
      simp [hposmod, hfo8]
    have hremv : dev.sectorRemaining (st.lastSector + st.freeOffset) =
        dev.sectorSize - st.freeOffset := by
      rw [Device.sectorRemaining, hposmod]
    simp only [hposne, Bool.false_eq_true, if_false]
    rw [if_pos (show 2 + min req 0x7FFF >
        dev.sectorRemaining (st.lastSector + st.freeOffset) by rw [hremv]; omega)]
    rw [if_neg (show ¬ ((⟨0, 0, RecordState.Bad⟩ : RecordInfo).IsValid = true)
      by decide)]
    rw [if_pos (show ¬ (((⟨0, 0, RecordState.Bad⟩ : RecordInfo).IsBad &&
        decide ((⟨0, 0, RecordState.Bad⟩ : RecordInfo).nextRecord ≠ 0)) = true)
      by decide)]
    have halnL := (nextSectorAddr_aligned_lt dev st.lastSector hT hdvd hsz hal hlt).1
    rcases beginWriteLoop_rotate_shape 0 magic dev
        { last := st.last, firstSector := st.firstSector, lastSector := st.lastSector,
          freeOffset := dev.sectorSize,
          maxRecord := dev.sectorSize - (st.freeOffset + 0 + 0) }
        ⟨0, 0, RecordState.Bad⟩ req h16 rfl halnL with ⟨st2, heq, hlast2⟩
    have hne : nextSectorAddr dev st.lastSector ≠ st.lastSector :=
      nextSectorAddr_ne dev st.lastSector hT hdvd hN2 hal hlt
    refine ⟨_, st2, heq, hlast2, by rw [hlast2]; exact hne, ?_⟩
    intro x hx
    set nL := nextSectorAddr dev st.lastSector with hnL
    have hxout : ¬ (nL ≤ x ∧ x < nL + dev.sectorSize) := by
      intro hmem
      have h1 := (sectorAddress_mem dev x nL hT halnL).mpr hmem
      exact hne (by rw [← h1, hx])
    set dev1 := if ¬ isEmptyRange dev nL dev.sectorSize then
        eraseRange dev nL dev.sectorSize
      else dev with hdev1
    have hd1s : dev1.sectorSize = dev.sectorSize := by
      rw [hdev1]
      split <;> rfl
    have hd1al : dev1.sectorAddress nL = nL := by
      rw [Device.sectorAddress, hd1s]
      exact sectorAddress_of_aligned dev nL hT halnL
    have hd1data : dev1.data x = dev.data x := by
      rw [hdev1]
      split
      · rw [eraseRange_sector_data dev nL hT halnL x, if_neg hxout]
      · rfl
    set devB := (initSector magic dev1 nL st.last).1 with hdevB
    have hBs : devB.sectorSize = dev.sectorSize := by rw [hdevB]; exact hd1s
    have hBdata : devB.data x = dev.data x := by
      rw [hdevB]
      show (program (program dev1 (dev1.sectorAddress nL + 4) _)
        (dev1.sectorAddress nL) _).data x = _
      rw [program_data, program_data]
      rw [hd1al, toLE_length, toLE_length]
      rw [if_neg (by omega), if_neg (by omega)]
      exact hd1data
    have h16B : 16 ≤ devB.sectorSize := by rw [hBs]; exact h16
    have hpos8 : (nL + 8) % devB.sectorSize = 8 := by
      rw [hBs]
      exact mod_of_aligned_add dev nL 8 halnL (by omega)
    have hini := initRecord_at_first devB (nL + 8) ⟨0, 0, RecordState.Bad⟩ req h16B hpos8
    show (initRecord devB (nL + 8) ⟨0, 0, RecordState.Bad⟩ req).1.data x = dev.data x
    rw [hini]
    show (program devB (nL + 8) _).data x = _
    rw [program_data, toLE_length, if_neg (by omega)]
    exact hBdata

/-- Witness for C6: on a two-sector 16-byte-sector device with the cursor at
offset 12 of sector 0, a 9-byte request does not fit (4 bytes remain), and
`init_record` reports Bad reserving nothing and programming nothing. -/
theorem C6_init_record_clamping_and_rotation_witness :
    initRecord (erasedDevice 32 16) 12 RecordInfo.reset 9 =
      (erasedDevice 32 16, { RecordInfo.reset with state := .Bad }, 0) ∧
    (erasedDevice 32 16).sectorRemaining 12 <
      2 + (if 12 % (erasedDevice 32 16).sectorSize == 8 then
        min (min 9 0x7FFF) ((erasedDevice 32 16).sectorRemaining 12 - 2)
      else min 9 0x7FFF) :=
  ⟨(C6_init_record_clamping_and_rotation testMagic (erasedDevice 32 16)
      ⟨⟨1, 8, .Valid⟩, 0, 0, 12, 0⟩ 9 (by decide) (by decide) (by decide)
      (by decide) (by decide) (by decide) (by decide) (by decide) (by decide)
      (by decide)).2.2.1 (erasedDevice 32 16) 12 RecordInfo.reset 9 (by decide),
   by decide⟩

/-! ### Image-based device reasoning for the round-trip claims

A device is described by a byte image: `matchesImage d img` says every byte
below `d.size` equals the image byte (erased `255` past the image's end).
Programs on erased regions extend the image; the commit program is an AND
update inside it. -/

def matchesImage (d : Device) (img : List Nat) : Prop :=
  ∀ x, x < d.size → d.data x = img.getD x 255

theorem getD_eq_default (l : List Nat) (i : Nat) (dflt : Nat) (h : l.length ≤ i) :
    l.getD i dflt = dflt := by
  rw [List.getD_eq_getElem?_getD, List.getElem?_eq_none (by omega)]
  rfl

theorem getD_append_lemma (l1 l2 : List Nat) (i : Nat) (dflt : Nat) :
    (l1 ++ l2).getD i dflt =
      if i < l1.length then l1.getD i dflt else l2.getD (i - l1.length) dflt := by
  simp only [List.getD_eq_getElem?_getD, List.getElem?_append]
  split <;> rfl

theorem matchesImage_erased (size sectorSize : Nat) :
    matchesImage (erasedDevice size sectorSize) [] := by
  intro x _
  rfl

theorem matchesImage_congr (d : Device) (img1 img2 : List Nat)
    (hm : matchesImage d img1)
    (h : ∀ x, x < d.size → img1.getD x 255 = img2.getD x 255) :
    matchesImage d img2 := by
  intro x hx
  rw [hm x hx, h x hx]

theorem readBytes_matchesImage (d : Device) (img : List Nat) (a n : Nat)
    (hm : matchesImage d img) (hsz : a + n ≤ d.size) :
    readBytes d a n = (List.range n).map fun i => img.getD (a + i) 255 := by
  simp only [readBytes]
  apply List.map_congr_left
  intro i hi
  exact hm (a + i) (by have := List.mem_range.mp hi; omega)

theorem isEmptyRange_matchesImage (d : Device) (img : List Nat) (a n : Nat)
    (hm : matchesImage d img) (hsz : a + n ≤ d.size)
    (h255 : ∀ i < n, img.getD (a + i) 255 = 255) :
    isEmptyRange d a n = true := by
  simp only [isEmptyRange, isAll, List.all_eq_true]
  intro i hi
  have hmem := List.mem_range.mp hi
  rw [hm (a + i) (by omega), h255 i hmem]
  rfl

/-- AND-programming `bs` at `a`, expressed on images. -/
def overwriteAnd (img : List Nat) (a : Nat) (bs : List Nat) : List Nat :=
  (List.range (max img.length (a + bs.length))).map fun x =>
    if a ≤ x ∧ x < a + bs.length then img.getD x 255 &&& bs.getD (x - a) 0
    else img.getD x 255

theorem getD_range_map (n x : Nat) (f : Nat → Nat) (dflt : Nat) :
    ((List.range n).map f).getD x dflt = if x < n then f x else dflt := by
  by_cases h : x < n
  · rw [if_pos h, List.getD_eq_getElem?_getD, List.getElem?_map,
      List.getElem?_range h]
    rfl
  · rw [if_neg h]
    apply getD_eq_default
    simp
    omega

theorem overwriteAnd_getD (img : List Nat) (a : Nat) (bs : List Nat) (x : Nat) :
    (overwriteAnd img a bs).getD x 255 =
      if a ≤ x ∧ x < a + bs.length then img.getD x 255 &&& bs.getD (x - a) 0
      else img.getD x 255 := by
  rw [overwriteAnd, getD_range_map]
  split
  · rfl
  · rename_i hge
    have h1 : img.length ≤ x := by omega
    have h2 : ¬ (a ≤ x ∧ x < a + bs.length) := by omega
    rw [if_neg h2, getD_eq_default _ _ _ h1]

theorem matchesImage_program (d : Device) (img : List Nat) (a : Nat)
    (bs : List Nat) (hm : matchesImage d img) :
    matchesImage (program d a bs) (overwriteAnd img a bs) := by
  intro x hx
  rw [program_data, overwriteAnd_getD]
  split
  · rw [hm x hx]
  · rw [hm x hx]

/-- Programming fresh bytes past the end of the image appends them. -/
theorem overwriteAnd_fresh (img : List Nat) (a : Nat) (bs : List Nat)
    (hofs : img.length ≤ a) (hbs : ∀ b ∈ bs, b < 256) (x : Nat) :
    (overwriteAnd img a bs).getD x 255 =
      if a ≤ x ∧ x < a + bs.length then bs.getD (x - a) 0
      else img.getD x 255 := by
  rw [overwriteAnd_getD]
  split
  · rename_i hin
    rw [getD_eq_default img x 255 (by omega)]
    have hxa : x - a < bs.length := by omega
    have hmem : bs.getD (x - a) 0 ∈ bs := by
      rw [List.getD_eq_getElem _ _ hxa]
      exact List.getElem_mem hxa
    exact and255_of_lt _ (hbs _ hmem)
  · rfl

/-! ### Frame images: the byte layout a sequence of writes leaves in a sector -/

/-- Byte image of one record frame: the 2-byte header (bit 15 set while the
record is uncommitted) followed by the payload bytes. -/
def frameBytes (f : List Nat × Bool) : List Nat :=
  toLE 2 (if f.2 then f.1.length else f.1.length + 0x8000) ++ f.1

/-- Byte image of a list of frames laid out back to back. -/
def flatFrames : List (List Nat × Bool) → List Nat
  | [] => []
  | f :: rest => frameBytes f ++ flatFrames rest

/-- Well-formed write requests: payload lengths at least 1 (so a yielded
record is not mistaken for the end-of-sector signal), committed payloads up
to the format maximum `0x7FFF`, uncommitted ones up to `0x7FFE` (an
uncommitted `0x7FFF` header is the all-ones `0xFFFF` Empty pattern), and
payload bytes below 256. -/
def goodFrames (fs : List (List Nat × Bool)) : Prop :=
  ∀ f ∈ fs, 1 ≤ f.1.length ∧
    f.1.length ≤ (if f.2 then 0x7FFF else 0x7FFE) ∧ ∀ b ∈ f.1, b < 256

/-- The 8-byte header image of the first-ever sector: magic, then
sequence 1. -/
def headerImage (magic : Nat) : List Nat := toLE 4 magic ++ toLE 4 1

/-- Full image of sector 0 after a run of writes on a fresh journal. -/
def sectorImage (magic : Nat) (fs : List (List Nat × Bool)) : List Nat :=
  headerImage magic ++ flatFrames fs

theorem frameBytes_length (f : List Nat × Bool) :
    (frameBytes f).length = 2 + f.1.length := by
  simp [frameBytes, toLE_length]

theorem flatFrames_append (fs gs : List (List Nat × Bool)) :
    flatFrames (fs ++ gs) = flatFrames fs ++ flatFrames gs := by
  induction fs with
  | nil => rfl
  | cons f fs ih => simp [flatFrames, ih, List.append_assoc]

theorem committedPayloads_cons (p : List Nat) (c : Bool)
    (rest : List (List Nat × Bool)) :
    committedPayloads ((p, c) :: rest) =
      if c then p :: committedPayloads rest else committedPayloads rest := by
  cases c <;> simp [committedPayloads]

theorem committedPayloads_append (fs gs : List (List Nat × Bool)) :
    committedPayloads (fs ++ gs) =
      committedPayloads fs ++ committedPayloads gs := by
  simp [committedPayloads]

theorem toLE_mem_lt (n v : Nat) : ∀ b ∈ toLE n v, b < 256 := by
  induction n generalizing v with
  | zero => intro b hb; simp [toLE] at hb
  | succ n ih =>
    intro b hb
    rw [toLE] at hb
    rcases List.mem_cons.mp hb with h | h
    · subst h; exact Nat.mod_lt _ (by norm_num)
    · exact ih (v / 256) b h

theorem getD_default_irrel (l : List Nat) (i d1 d2 : Nat) (h : i < l.length) :
    l.getD i d1 = l.getD i d2 := by
  rw [List.getD_eq_getElem _ _ h, List.getD_eq_getElem _ _ h]

/-- Programming fresh bytes right at the end of the image appends them. -/
theorem matchesImage_program_append (d : Device) (img bs : List Nat)
    (hm : matchesImage d img) (hbs : ∀ b ∈ bs, b < 256) :
    matchesImage (program d img.length bs) (img ++ bs) := by
  intro x hx
  rw [program_data, getD_append_lemma]
  by_cases hin : img.length ≤ x ∧ x < img.length + bs.length
  · rw [if_pos hin, if_neg (by omega), hm x hx, getD_eq_default img x 255 (by omega)]
    have hxa : x - img.length < bs.length := by omega
    have hmem : bs.getD (x - img.length) 0 ∈ bs := by
      rw [List.getD_eq_getElem _ _ hxa]
      exact List.getElem_mem hxa
    rw [getD_default_irrel _ _ 255 0 hxa]
    exact and255_of_lt _ (hbs _ hmem)
  · rw [if_neg hin, hm x hx]
    by_cases hlt : x < img.length
    · rw [if_pos hlt]
    · rw [if_neg hlt, getD_eq_default img x 255 (by omega),
        getD_eq_default _ _ _ (by omega)]

/-- `InitSector` on a fully erased device writes exactly the first-use
header image into sector 0 and reports the Valid info with sequence 1. -/
theorem initSector_image (magic : Nat) (d : Device) (hm : matchesImage d []) :
    matchesImage (initSector magic d 0 SectorInfo.reset).1 (headerImage magic) ∧
    (initSector magic d 0 SectorInfo.reset).2 =
      ⟨1, 8, SectorState.Valid⟩ := by
  have hbase : d.sectorAddress 0 = 0 := by
    simp [Device.sectorAddress, Nat.zero_div]
  have hseq : ((if SectorInfo.reset.IsValid then SectorInfo.reset.sequence
      else 0) + 1) % 2 ^ 32 = 1 := by decide
  constructor
  · intro x hx
    show (program (program d (d.sectorAddress 0 + 4)
        (toLE 4 (((if SectorInfo.reset.IsValid then SectorInfo.reset.sequence
          else 0) + 1) % 2 ^ 32))) (d.sectorAddress 0) (toLE 4 magic)).data x =
      (headerImage magic).getD x 255
    rw [hbase, hseq]
    have h255 : d.data x = 255 := hm x hx
    rw [program_data, program_data]
    simp only [toLE_length]
    by_cases h0 : x < 4
    · rw [if_pos (by omega), if_neg (by omega), h255]
      rw [headerImage, getD_append_lemma, toLE_length, if_pos (by omega)]
      rw [getD_default_irrel _ _ 255 0 (by rw [toLE_length]; omega),
        Nat.sub_zero]
      have hmem : (toLE 4 magic).getD x 0 ∈ toLE 4 magic := by
        rw [List.getD_eq_getElem _ _ (by rw [toLE_length]; omega)]
        exact List.getElem_mem (by rw [toLE_length]; omega)
      exact and255_of_lt _ (toLE_mem_lt 4 magic _ hmem)
    · by_cases h8 : x < 8
      · rw [if_neg (by omega), if_pos (by omega), h255]
        rw [headerImage, getD_append_lemma, toLE_length, if_neg (by omega)]
        rw [getD_default_irrel _ _ 255 0 (by rw [toLE_length]; omega)]
        have hx4 : x - 4 < 4 := by omega
        have hmem : (toLE 4 1).getD (x - 4) 0 ∈ toLE 4 1 := by
          rw [List.getD_eq_getElem _ _ (by rw [toLE_length]; omega)]
          exact List.getElem_mem (by rw [toLE_length]; omega)
        exact and255_of_lt _ (toLE_mem_lt 4 1 _ hmem)
      · rw [if_neg (by omega), if_neg (by omega), h255,
          getD_eq_default _ _ _ (by simp [headerImage, toLE_length]; omega)]
  · show (⟨((if SectorInfo.reset.IsValid then SectorInfo.reset.sequence
        else 0) + 1) % 2 ^ 32, 8, SectorState.Valid⟩ : SectorInfo) = _
    rw [hseq]

/-- Committing a record rewrites its uncommitted header in the image to the
committed one and changes nothing else. -/
theorem matchesImage_commit (d : Device) (pre p : List Nat) (l : Nat)
    (hm : matchesImage d (pre ++ (toLE 2 (l + 0x8000) ++ p)))
    (hl : l < 0x8000) :
    matchesImage (commitRecord d (pre.length + 2)) (pre ++ (toLE 2 l ++ p)) := by
  have h2 : toLE 2 0x7FFF = [255, 127] := rfl
  intro x hx
  show (program d (pre.length + 2 - 2) (toLE 2 0x7FFF)).data x = _
  rw [Nat.add_sub_cancel, program_data, h2]
  have hdata := hm x hx
  by_cases hin : pre.length ≤ x ∧ x < pre.length + 2
  · rw [if_pos (by simpa using hin)]
    have hx01 : x = pre.length ∨ x = pre.length + 1 := by omega
    have hsplit : (0x8000 : Nat) = 128 * 256 := by norm_num
    rcases hx01 with h | h
    · subst h
      rw [hdata, getD_append_lemma, if_neg (by omega), Nat.sub_self,
        getD_append_lemma, toLE_length, if_pos (by omega)]
      rw [getD_append_lemma, if_neg (by omega), Nat.sub_self,
        getD_append_lemma, toLE_length, if_pos (by omega)]
      rw [getD_default_irrel _ 0 255 0 (by rw [toLE_length]; omega),
        getD_default_irrel _ 0 255 0 (by rw [toLE_length]; omega),
        toLE_getD_of_lt 2 _ 0 (by omega), toLE_getD_of_lt 2 _ 0 (by omega)]
      have hb0 : ([255, 127] : List Nat).getD 0 0 = 255 := rfl
      simp only [Nat.pow_zero, Nat.div_one]
      rw [hb0]
      have hmod : (l + 0x8000) % 256 = l % 256 := by
        rw [hsplit, Nat.add_mul_mod_self_right]
      rw [hmod]
      have h : l % 256 &&& 2 ^ 8 - 1 = l % 256 % 2 ^ 8 :=
        Nat.and_pow_two_sub_one_eq_mod _ 8
      have h8 : (2 : Nat) ^ 8 - 1 = 255 := by norm_num
      have h8b : (2 : Nat) ^ 8 = 256 := by norm_num
      rw [h8, h8b] at h
      rw [h, Nat.mod_eq_of_lt (Nat.mod_lt _ (by norm_num))]
    · subst h
      have hsub : pre.length + 1 - pre.length = 1 := by omega
      rw [hdata, getD_append_lemma, if_neg (by omega), hsub,
        getD_append_lemma, toLE_length, if_pos (by omega)]
      rw [getD_append_lemma, if_neg (by omega), hsub,
        getD_append_lemma, toLE_length, if_pos (by omega)]
      rw [getD_default_irrel _ 1 255 0 (by rw [toLE_length]; omega),
        getD_default_irrel _ 1 255 0 (by rw [toLE_length]; omega),
        toLE_getD_of_lt 2 _ 1 (by omega), toLE_getD_of_lt 2 _ 1 (by omega)]
      have hb1 : ([255, 127] : List Nat).getD 1 0 = 127 := rfl
      simp only [Nat.pow_one]
      rw [hb1]
      have hdiv : (l + 0x8000) / 256 = l / 256 + 128 := by
        rw [hsplit, Nat.add_mul_div_right _ _ (by norm_num : (0 : Nat) < 256)]
      have hq : l / 256 < 128 := by
        rw [Nat.div_lt_iff_lt_mul (by norm_num : (0 : Nat) < 256)]
        omega
      have hmod : (l + 0x8000) / 256 % 256 = l / 256 + 128 := by
        rw [hdiv, Nat.mod_eq_of_lt (by omega)]
      rw [hmod]
      have h : l / 256 + 128 &&& 2 ^ 7 - 1 = (l / 256 + 128) % 2 ^ 7 :=
        Nat.and_pow_two_sub_one_eq_mod _ 7
      have h7 : (2 : Nat) ^ 7 - 1 = 127 := by norm_num
      have h7b : (2 : Nat) ^ 7 = 128 := by norm_num
      rw [h7, h7b] at h
      rw [h, Nat.add_mod_right, Nat.mod_eq_of_lt hq,
        Nat.mod_eq_of_lt (show l / 256 < 256 by omega)]
  · rw [if_neg (by simpa using hin), hdata]
    by_cases hlt : x < pre.length
    · rw [getD_append_lemma, if_pos hlt, getD_append_lemma, if_pos hlt]
    · rw [getD_append_lemma, if_neg hlt]
      rw [getD_append_lemma, toLE_length, if_neg (by omega)]
      rw [getD_append_lemma, if_neg hlt]
      rw [getD_append_lemma, toLE_length, if_neg (by omega)]

/-! ### Record headers as seen through an image -/

theorem and_8000_eq_zero (a : Nat) (h : a < 0x8000) : a &&& 0x8000 = 0 := by
  have h15 : (0x8000 : Nat) = 2 ^ 15 := by norm_num
  rw [h15, Nat.and_two_pow, Nat.testBit_eq_false_of_lt (by simpa [h15] using h)]
  rfl

theorem add_8000_and_8000 (a : Nat) (h : a < 0x8000) :
    (a + 0x8000) &&& 0x8000 = 0x8000 := by
  rw [← or_8000_eq_add a h, Nat.and_distrib_right, and_8000_eq_zero a h]
  decide

theorem and_7FFF_eq (a : Nat) (h : a < 0x8000) : a &&& 0x7FFF = a := by
  have h7 : (0x7FFF : Nat) = 2 ^ 15 - 1 := by norm_num
  rw [h7, Nat.and_pow_two_sub_one_eq_mod]
  exact Nat.mod_eq_of_lt (by norm_num; omega)

theorem range_map_getD (l : List Nat) (dflt : Nat) :
    ((List.range l.length).map fun i => l.getD i dflt) = l := by
  apply List.ext_getElem (by simp)
  intro i h1 h2
  simp only [List.getElem_map, List.getElem_range]
  exact List.getD_eq_getElem l dflt h2

/-- A read whose range the image pins down returns exactly that segment. -/
theorem readBytes_image (d : Device) (img : List Nat) (a : Nat) (seg : List Nat)
    (hm : matchesImage d img) (hsz : a + seg.length ≤ d.size)
    (hh : ∀ i < seg.length, img.getD (a + i) 255 = seg.getD i 255) :
    readBytes d a seg.length = seg := by
  rw [readBytes_matchesImage d img a seg.length hm hsz]
  rw [show ((List.range seg.length).map fun i => img.getD (a + i) 255) =
      ((List.range seg.length).map fun i => seg.getD i 255) from
    List.map_congr_left fun i hi => hh i (List.mem_range.mp hi)]
  exact range_map_getD seg 255

/-- `ScanRecord` when the image pins both header bytes to the little-endian
encoding of `h`. -/
theorem scanRecord_image_core (dev : Device) (img : List Nat) (q h : Nat)
    (hm : matchesImage dev img) (hrem : 2 ≤ dev.sectorRemaining q)
    (hsz : q + 2 ≤ dev.size) (hh : h < 0x10000)
    (hb0 : img.getD q 255 = h % 256) (hb1 : img.getD (q + 1) 255 = h / 256 % 256) :
    scanRecord dev q =
      (⟨h &&& 0x7FFF, (h &&& 0x7FFF) + 2,
        if h == 0xFFFF then RecordState.Empty
        else if h &&& 0x8000 ≠ 0 then RecordState.Bad
        else RecordState.Valid⟩, 2) := by
  have havail : min 2 (dev.sectorRemaining q) = 2 := Nat.min_eq_left hrem
  have hread : readBytes dev q 2 = toLE 2 h := by
    have h2 : (toLE 2 h).length = 2 := toLE_length 2 h
    have hmain := readBytes_image dev img q (toLE 2 h) hm (by omega) ?_
    · rw [h2] at hmain
      exact hmain
    · intro i hi
      rw [h2] at hi
      interval_cases i
      · rw [Nat.add_zero, hb0,
          getD_default_irrel _ 0 255 0 (by rw [toLE_length]; omega),
          toLE_getD_of_lt 2 h 0 (by omega)]
        simp
      · rw [hb1, getD_default_irrel _ 1 255 0 (by rw [toLE_length]; omega),
          toLE_getD_of_lt 2 h 1 (by omega)]
        simp
  have hval : leVal (toLE 2 h ++ List.replicate (2 - 2) 0) = h := by
    rw [Nat.sub_self]
    simp only [List.replicate, List.append_nil]
    rw [leVal_toLE]
    have h2 : (256 : Nat) ^ 2 = 65536 := by norm_num
    rw [h2]
    exact Nat.mod_eq_of_lt hh
  simp only [scanRecord, havail, hread, hval]

/-- `ScanRecord` on a committed frame header. -/
theorem scanRecord_image_committed (dev : Device) (img : List Nat) (q l : Nat)
    (hm : matchesImage dev img) (hrem : 2 ≤ dev.sectorRemaining q)
    (hsz : q + 2 ≤ dev.size) (hl : l ≤ 0x7FFF)
    (hb0 : img.getD q 255 = l % 256) (hb1 : img.getD (q + 1) 255 = l / 256 % 256) :
    scanRecord dev q = (⟨l, l + 2, RecordState.Valid⟩, 2) := by
  rw [scanRecord_image_core dev img q l hm hrem hsz (by omega) hb0 hb1]
  rw [and_7FFF_eq l (by omega)]
  rw [if_neg (by simp only [beq_iff_eq]; omega)]
  rw [if_neg (by rw [and_8000_eq_zero l (by omega)]; simp)]

/-- `ScanRecord` on an uncommitted frame header (bit 15 still set). -/
theorem scanRecord_image_uncommitted (dev : Device) (img : List Nat) (q l : Nat)
    (hm : matchesImage dev img) (hrem : 2 ≤ dev.sectorRemaining q)
    (hsz : q + 2 ≤ dev.size) (hl : l ≤ 0x7FFE)
    (hb0 : img.getD q 255 = (l + 0x8000) % 256)
    (hb1 : img.getD (q + 1) 255 = (l + 0x8000) / 256 % 256) :
    scanRecord dev q = (⟨l, l + 2, RecordState.Bad⟩, 2) := by
  rw [scanRecord_image_core dev img q (l + 0x8000) hm hrem hsz (by omega) hb0 hb1]
  rw [← or_8000_eq_add l (by omega), or_8000_and_7FFF l (by omega)]
  rw [if_neg (by
    simp only [beq_iff_eq]
    rw [or_8000_eq_add l (by omega)]
    omega)]
  rw [if_pos (by
    rw [or_8000_eq_add l (by omega), add_8000_and_8000 l (by omega)]
    omega)]

/-- `ScanRecord` on erased media (two `0xFF` bytes). -/
theorem scanRecord_image_empty (dev : Device) (img : List Nat) (q : Nat)
    (hm : matchesImage dev img) (hrem : 2 ≤ dev.sectorRemaining q)
    (hsz : q + 2 ≤ dev.size)
    (hb0 : img.getD q 255 = 255) (hb1 : img.getD (q + 1) 255 = 255) :
    scanRecord dev q = (⟨0x7FFF, 0x7FFF + 2, RecordState.Empty⟩, 2) := by
  rw [scanRecord_image_core dev img q 0xFFFF hm hrem hsz (by omega)
    (by rw [hb0]) (by rw [hb1])]
  rw [if_pos (by simp)]
  decide

theorem isSameSector_of_lt (dev : Device) (T a b : Nat)
    (hdevT : dev.sectorSize = T) (ha : a < T) (hb : b < T) :
    dev.isSameSector a b = true := by
  simp [Device.isSameSector, Device.sectorAddress, hdevT,
    Nat.div_eq_of_lt ha, Nat.div_eq_of_lt hb]

theorem isSameSector_boundary (dev : Device) (T a : Nat)
    (hdevT : dev.sectorSize = T) (hT : 0 < T) (ha : a < T) :
    dev.isSameSector a T = false := by
  simp only [Device.isSameSector, Device.sectorAddress, hdevT,
    Nat.div_eq_of_lt ha, Nat.div_self hT, Nat.zero_mul, Nat.one_mul]
  simp only [beq_eq_false_iff_ne, ne_eq]
  omega

theorem isSameSector_of_mem (dev : Device) (base a b : Nat)
    (hT : 0 < dev.sectorSize) (hbase : base % dev.sectorSize = 0)
    (ha1 : base ≤ a) (ha2 : a < base + dev.sectorSize)
    (hb1 : base ≤ b) (hb2 : b < base + dev.sectorSize) :
    dev.isSameSector a b = true := by
  have h1 : dev.sectorAddress a = base :=
    (sectorAddress_mem dev a base hT hbase).mpr ⟨ha1, ha2⟩
  have h2 : dev.sectorAddress b = base :=
    (sectorAddress_mem dev b base hT hbase).mpr ⟨hb1, hb2⟩
  simp [Device.isSameSector, h1, h2]

theorem isSameSector_boundary_at (dev : Device) (base a : Nat)
    (hT : 0 < dev.sectorSize) (hbase : base % dev.sectorSize = 0)
    (ha1 : base ≤ a) (ha2 : a < base + dev.sectorSize) :
    dev.isSameSector a (base + dev.sectorSize) = false := by
  have h1 : dev.sectorAddress a = base :=
    (sectorAddress_mem dev a base hT hbase).mpr ⟨ha1, ha2⟩
  have h2 : dev.sectorAddress (base + dev.sectorSize) = base + dev.sectorSize :=
    sectorAddress_of_aligned dev _ hT (by rw [Nat.add_mod_right]; exact hbase)
  simp only [Device.isSameSector, h1, h2, beq_eq_false_iff_ne, ne_eq]
  omega

theorem sectorRemaining_at (dev : Device) (base k : Nat)
    (hbase : base % dev.sectorSize = 0) (hk : k < dev.sectorSize) :
    dev.sectorRemaining (base + k) = dev.sectorSize - k := by
  rw [Device.sectorRemaining, mod_of_aligned_add dev base k hbase hk]

/-- `NextRecord` with a Valid cached sector info goes straight to the record
loop (the first-call rescan needs the Bad marker). -/
theorem nextRecordFn_of_valid (fuel magic : Nat) (dev : Device)
    (re : RecordEnumerator) (hbad : re.si.IsBad = false)
    (hvalid : re.si.IsValid = true) :
    nextRecordFn fuel magic dev re = nextRecordLoop fuel dev re := by
  simp [nextRecordFn, hbad, hvalid]

/-- The value `NextRecord`'s record loop produces when started at offset `q`
of sector 0 whose image continues with the frames `fs`:  skip uncommitted
(Bad) frames, yield the first committed frame, stop on the erased tail or at
the exact sector end. -/
def loopOutcome (T r0 q len0 : Nat) (si : SectorInfo) :
    List (List Nat × Bool) → RecordEnumerator × Nat
  | [] => if q = T then (⟨r0, q, len0, si⟩, 0) else (⟨q, q, len0, si⟩, 0)
  | (p, c) :: rest =>
    if c then (⟨q + 2, q + (p.length + 2), p.length, si⟩, p.length)
    else loopOutcome T q (q + (p.length + 2)) len0 si rest

/-- The record loop of `NextRecord`, run inside the sector based at `base`
(ending at `E = base + T`) whose image holds the frames `fs` from offset `q`
on: it computes `loopOutcome`. -/
theorem nextRecordLoop_image (dev : Device) (T base E : Nat) (img : List Nat)
    (hdevT : dev.sectorSize = T) (h16 : 16 ≤ T) (hbase : base % T = 0)
    (hE : E = base + T) (hEsz : E ≤ dev.size)
    (hm : matchesImage dev img) :
    ∀ (fs : List (List Nat × Bool)) (fuel r0 q len0 : Nat) (si : SectorInfo),
      goodFrames fs → fs.length < fuel → base + 8 ≤ q → base ≤ r0 → r0 < E →
      (∀ i < (flatFrames fs).length,
        img.getD (q + i) 255 = (flatFrames fs).getD i 255) →
      ((q + (flatFrames fs).length + 2 ≤ E ∧
        ∀ j, q + (flatFrames fs).length ≤ j → j < E → img.getD j 255 = 255) ∨
        q + (flatFrames fs).length = E) →
      nextRecordLoop fuel dev ⟨r0, q, len0, si⟩ =
        some (loopOutcome E r0 q len0 si fs) := by
  subst hE
  have hbase' : base % dev.sectorSize = 0 := by rw [hdevT]; exact hbase
  have hT0 : 0 < dev.sectorSize := by rw [hdevT]; omega
  intro fs
  induction fs with
  | nil =>
    intro fuel r0 q len0 si hg hfuel hq8 hr0l hr0 hhold htail
    cases fuel with
    | zero => exact absurd hfuel (by omega)
    | succ fuel =>
      simp only [flatFrames, List.length_nil, Nat.add_zero] at htail
      rw [nextRecordLoop]
      rcases htail with ⟨hle, herased⟩ | hfull
      · have hsame : dev.isSameSector r0 q = true :=
          isSameSector_of_mem dev base r0 q hT0 hbase' hr0l
            (by rw [hdevT]; omega) (by omega) (by rw [hdevT]; omega)
        rw [if_pos hsame]
        have hrem : 2 ≤ dev.sectorRemaining q := by
          rw [show q = base + (q - base) by omega,
            sectorRemaining_at dev base (q - base) hbase' (by rw [hdevT]; omega),
            hdevT]
          omega
        have hscan := scanRecord_image_empty dev img q hm hrem (by omega)
          (herased q (by omega) (by omega)) (herased (q + 1) (by omega) (by omega))
        simp only [hscan, RecordInfo.IsEmpty, beq_self_eq_true, if_true]
        rw [loopOutcome, if_neg (by omega)]
      · subst hfull
        have hsame : dev.isSameSector r0 (base + T) = false := by
          have := isSameSector_boundary_at dev base r0 hT0 hbase' hr0l
            (by rw [hdevT]; omega)
          rwa [hdevT] at this
        rw [if_neg (by simp [hsame]), loopOutcome, if_pos rfl]
  | cons f rest ih =>
    rcases f with ⟨p, c⟩
    intro fuel r0 q len0 si hg hfuel hq8 hr0l hr0 hhold htail
    have hp1 : 1 ≤ p.length := (hg (p, c) (List.mem_cons_self _ _)).1
    have hp2 : p.length ≤ (if c then 0x7FFF else 0x7FFE) :=
      (hg (p, c) (List.mem_cons_self _ _)).2.1
    have hpb : ∀ b ∈ p, b < 256 := (hg (p, c) (List.mem_cons_self _ _)).2.2
    have hgrest : goodFrames rest := fun f hf => hg f (List.mem_cons_of_mem _ hf)
    have hflen : (flatFrames ((p, c) :: rest)).length =
        2 + p.length + (flatFrames rest).length := by
      simp [flatFrames, frameBytes_length]
    have hfit : q + (2 + p.length + (flatFrames rest).length) ≤ base + T := by
      rw [hflen] at htail
      omega
    have hqT : q + 2 + p.length ≤ base + T := by omega
    have hqlt : q < base + T := by omega
    -- the two header bytes of the first frame
    have hhdr : ∀ i < 2, img.getD (q + i) 255 =
        (toLE 2 (if c then p.length else p.length + 0x8000)).getD i 255 := by
      intro i hi
      have h1 := hhold i (by rw [hflen]; omega)
      rw [h1, flatFrames, getD_append_lemma, if_pos (by rw [frameBytes_length]; omega),
        frameBytes, getD_append_lemma, if_pos (by rw [toLE_length]; omega)]
    have hb0 : img.getD q 255 =
        (if c then p.length else p.length + 0x8000) % 256 := by
      have := hhdr 0 (by omega)
      rw [Nat.add_zero] at this
      rw [this, getD_default_irrel _ 0 255 0 (by rw [toLE_length]; omega),
        toLE_getD_of_lt 2 _ 0 (by omega)]
      simp
    have hb1 : img.getD (q + 1) 255 =
        (if c then p.length else p.length + 0x8000) / 256 % 256 := by
      have := hhdr 1 (by omega)
      rw [this, getD_default_irrel _ 1 255 0 (by rw [toLE_length]; omega),
        toLE_getD_of_lt 2 _ 1 (by omega)]
      simp
    have hrem : 2 ≤ dev.sectorRemaining q := by
      rw [show q = base + (q - base) by omega,
        sectorRemaining_at dev base (q - base) hbase' (by rw [hdevT]; omega),
        hdevT]
      omega
    have hhold1 : ∀ i < (flatFrames rest).length,
        img.getD (q + (p.length + 2) + i) 255 = (flatFrames rest).getD i 255 := by
      intro i hi
      have h1 := hhold (2 + p.length + i) (by rw [hflen]; omega)
      rw [show q + (2 + p.length + i) = q + (p.length + 2) + i by omega] at h1
      have hfb : (frameBytes (p, c)).length = 2 + p.length := frameBytes_length (p, c)
      rw [h1, flatFrames, getD_append_lemma, if_neg (by rw [hfb]; omega), hfb,
        show 2 + p.length + i - (2 + p.length) = i by omega]
    have htail1 : (q + (p.length + 2) + (flatFrames rest).length + 2 ≤ base + T ∧
        ∀ j, q + (p.length + 2) + (flatFrames rest).length ≤ j → j < base + T →
          img.getD j 255 = 255) ∨
        q + (p.length + 2) + (flatFrames rest).length = base + T := by
      rw [hflen] at htail
      rcases htail with ⟨hle, herased⟩ | hfull
      · exact Or.inl ⟨by omega, fun j hj1 hj2 => herased j (by omega) hj2⟩
      · exact Or.inr (by omega)
    cases fuel with
    | zero => exact absurd hfuel (by omega)
    | succ fuel =>
      rw [nextRecordLoop]
      have hsame : dev.isSameSector r0 q = true :=
        isSameSector_of_mem dev base r0 q hT0 hbase' hr0l
          (by rw [hdevT]; omega) (by omega) (by rw [hdevT]; omega)
      rw [if_pos hsame]
      cases c with
      | true =>
        rw [if_pos rfl] at hb0 hb1
        have hscan := scanRecord_image_committed dev img q p.length hm hrem
          (by omega) hp2 hb0 hb1
        simp only [hscan, RecordInfo.IsEmpty, RecordInfo.IsBad]
        rw [loopOutcome]
        simp
      | false =>
        rw [if_neg (by simp)] at hb0 hb1
        have hscan := scanRecord_image_uncommitted dev img q p.length hm hrem
          (by omega) hp2 hb0 hb1
        simp only [hscan, RecordInfo.IsEmpty, RecordInfo.IsBad]
        have hne : q + (p.length + 2) ≠ q := by omega
        rw [if_neg (by simp), if_pos (by simp), if_pos (by simpa using hne)]
        rw [loopOutcome]
        simp only [Bool.false_eq_true, if_false]
        have hfuel1 : rest.length < fuel := by
          rw [List.length_cons] at hfuel
          omega
        exact ih fuel q (q + (p.length + 2)) len0 si hgrest hfuel1
          (by omega) (by omega) hqlt hhold1 htail1

/-! ### Walking and collecting a whole sector of frames -/

theorem walkRecords_congr (fuel inner magic : Nat) (dev : Device)
    (reA reB : RecordEnumerator)
    (h : nextRecordFn inner magic dev reA = nextRecordFn inner magic dev reB) :
    walkRecords (fuel + 1) inner magic dev reA =
      walkRecords (fuel + 1) inner magic dev reB := by
  rw [walkRecords, walkRecords, h]

theorem collectNext_congr (fuel inner magic : Nat) (dev : Device)
    (reA reB : RecordEnumerator)
    (h : nextRecordFn inner magic dev reA = nextRecordFn inner magic dev reB) :
    collectNext (fuel + 1) inner magic dev reA =
      collectNext (fuel + 1) inner magic dev reB := by
  rw [collectNext, collectNext, h]

/-- Final enumerator state of the `Scan` record walk over the frames `fs`:
`r = rNext = ` end-of-frames offset when the walk stopped on erased bytes,
and `r < rNext = T` (sector boundary) when the frames fill the sector
exactly. -/
def walkOutcome (T r0 q len0 : Nat) (si : SectorInfo) :
    List (List Nat × Bool) → RecordEnumerator
  | [] => if q = T then ⟨r0, q, len0, si⟩ else ⟨q, q, len0, si⟩
  | (p, c) :: rest =>
    if c then walkOutcome T (q + 2) (q + (p.length + 2)) p.length si rest
    else walkOutcome T q (q + (p.length + 2)) len0 si rest

theorem walkRecords_image (dev : Device) (T base E magic : Nat) (img : List Nat)
    (hdevT : dev.sectorSize = T) (h16 : 16 ≤ T) (hbase : base % T = 0)
    (hE : E = base + T) (hEsz : E ≤ dev.size)
    (hm : matchesImage dev img) :
    ∀ (fs : List (List Nat × Bool)) (fuel inner r0 q len0 : Nat)
      (si : SectorInfo),
      goodFrames fs → fs.length < fuel → fs.length < inner →
      si.IsBad = false → si.IsValid = true →
      base + 8 ≤ q → base ≤ r0 → r0 < E →
      (∀ i < (flatFrames fs).length,
        img.getD (q + i) 255 = (flatFrames fs).getD i 255) →
      ((q + (flatFrames fs).length + 2 ≤ E ∧
        ∀ j, q + (flatFrames fs).length ≤ j → j < E → img.getD j 255 = 255) ∨
        q + (flatFrames fs).length = E) →
      walkRecords fuel inner magic dev ⟨r0, q, len0, si⟩ =
        some (walkOutcome E r0 q len0 si fs) := by
  subst hE
  intro fs
  induction fs with
  | nil =>
    intro fuel inner r0 q len0 si hg hfuel hinner hbad hvalid hq8 hr0l hr0 hhold htail
    cases fuel with
    | zero => exact absurd hfuel (by omega)
    | succ fuel =>
      have hNRF : nextRecordFn inner magic dev ⟨r0, q, len0, si⟩ =
          some (loopOutcome (base + T) r0 q len0 si []) :=
        (nextRecordFn_of_valid inner magic dev _ hbad hvalid).trans
          (nextRecordLoop_image dev T base (base + T) img hdevT h16 hbase rfl hEsz
            hm [] inner r0 q len0 si hg hinner hq8 hr0l hr0 hhold htail)
      rw [walkRecords, hNRF]
      by_cases hqT : q = base + T
      · rw [loopOutcome, if_pos hqT, walkOutcome, if_pos hqT]
      · rw [loopOutcome, if_neg hqT, walkOutcome, if_neg hqT]
  | cons f rest ih =>
    rcases f with ⟨p, c⟩
    intro fuel inner r0 q len0 si hg hfuel hinner hbad hvalid hq8 hr0l hr0 hhold htail
    have hp1 : 1 ≤ p.length := (hg (p, c) (List.mem_cons_self _ _)).1
    have hgrest : goodFrames rest := fun f hf => hg f (List.mem_cons_of_mem _ hf)
    have hflen : (flatFrames ((p, c) :: rest)).length =
        2 + p.length + (flatFrames rest).length := by
      simp [flatFrames, frameBytes_length]
    have hfit : q + (2 + p.length + (flatFrames rest).length) ≤ base + T := by
      rw [hflen] at htail
      omega
    have hhold1 : ∀ i < (flatFrames rest).length,
        img.getD (q + (p.length + 2) + i) 255 = (flatFrames rest).getD i 255 := by
      intro i hi
      have h1 := hhold (2 + p.length + i) (by rw [hflen]; omega)
      rw [show q + (2 + p.length + i) = q + (p.length + 2) + i by omega] at h1
      have hfb : (frameBytes (p, c)).length = 2 + p.length := frameBytes_length (p, c)
      rw [h1, flatFrames, getD_append_lemma, if_neg (by rw [hfb]; omega), hfb,
        show 2 + p.length + i - (2 + p.length) = i by omega]
    have htail1 : (q + (p.length + 2) + (flatFrames rest).length + 2 ≤ base + T ∧
        ∀ j, q + (p.length + 2) + (flatFrames rest).length ≤ j → j < base + T →
          img.getD j 255 = 255) ∨
        q + (p.length + 2) + (flatFrames rest).length = base + T := by
      rw [hflen] at htail
      rcases htail with ⟨hle, herased⟩ | hfull
      · exact Or.inl ⟨by omega, fun j hj1 hj2 => herased j (by omega) hj2⟩
      · exact Or.inr (by omega)
    cases fuel with
    | zero => exact absurd hfuel (by omega)
    | succ fuel =>
      have hfuel1 : rest.length < fuel := by
        rw [List.length_cons] at hfuel
        omega
      have hinner1 : rest.length < inner := by
        rw [List.length_cons] at hinner
        omega
      have hNRF : nextRecordFn inner magic dev ⟨r0, q, len0, si⟩ =
          some (loopOutcome (base + T) r0 q len0 si ((p, c) :: rest)) :=
        (nextRecordFn_of_valid inner magic dev _ hbad hvalid).trans
          (nextRecordLoop_image dev T base (base + T) img hdevT h16 hbase rfl hEsz
            hm ((p, c) :: rest) inner r0 q len0 si hg hinner hq8 hr0l hr0 hhold htail)
      cases c with
      | true =>
        rw [walkRecords, hNRF, loopOutcome, if_pos rfl]
        obtain ⟨k, hk⟩ : ∃ k, p.length = k + 1 := ⟨p.length - 1, by omega⟩
        rw [walkOutcome, if_pos rfl]
        have hih := ih fuel inner (q + 2) (q + (p.length + 2)) p.length si
          hgrest hfuel1 hinner1 hbad hvalid (by omega) (by omega) (by omega)
          hhold1 htail1
        rw [hk]
        rw [hk] at hih
        exact hih
      | false =>
        have hNRF2 : nextRecordFn inner magic dev
            ⟨q, q + (p.length + 2), len0, si⟩ =
            some (loopOutcome (base + T) q (q + (p.length + 2)) len0 si rest) :=
          (nextRecordFn_of_valid inner magic dev _ hbad hvalid).trans
            (nextRecordLoop_image dev T base (base + T) img hdevT h16 hbase rfl
              hEsz hm rest inner q (q + (p.length + 2)) len0 si hgrest hinner1
              (by omega) (by omega) (by omega) hhold1 htail1)
        have hcongr := walkRecords_congr fuel inner magic dev
          ⟨r0, q, len0, si⟩ ⟨q, q + (p.length + 2), len0, si⟩
          (hNRF.trans hNRF2.symm)
        rw [hcongr, walkOutcome, if_neg (by simp)]
        exact ih (fuel + 1) inner q (q + (p.length + 2)) len0 si
          hgrest (by omega) hinner1 hbad hvalid (by omega) (by omega) (by omega)
          hhold1 htail1


theorem collectNext_image (dev : Device) (T base E magic : Nat) (img : List Nat)
    (hdevT : dev.sectorSize = T) (h16 : 16 ≤ T) (hbase : base % T = 0)
    (hE : E = base + T) (hEsz : E ≤ dev.size)
    (hm : matchesImage dev img) :
    ∀ (fs : List (List Nat × Bool)) (fuel inner r0 q len0 : Nat)
      (si : SectorInfo),
      goodFrames fs → fs.length < fuel → fs.length < inner →
      si.IsBad = false → si.IsValid = true →
      base + 8 ≤ q → base ≤ r0 → r0 < E →
      (∀ i < (flatFrames fs).length,
        img.getD (q + i) 255 = (flatFrames fs).getD i 255) →
      ((q + (flatFrames fs).length + 2 ≤ E ∧
        ∀ j, q + (flatFrames fs).length ≤ j → j < E → img.getD j 255 = 255) ∨
        q + (flatFrames fs).length = E) →
      collectNext fuel inner magic dev ⟨r0, q, len0, si⟩ =
        some (committedPayloads fs) := by
  subst hE
  intro fs
  induction fs with
  | nil =>
    intro fuel inner r0 q len0 si hg hfuel hinner hbad hvalid hq8 hr0l hr0 hhold htail
    cases fuel with
    | zero => exact absurd hfuel (by omega)
    | succ fuel =>
      have hNRF : nextRecordFn inner magic dev ⟨r0, q, len0, si⟩ =
          some (loopOutcome (base + T) r0 q len0 si []) :=
        (nextRecordFn_of_valid inner magic dev _ hbad hvalid).trans
          (nextRecordLoop_image dev T base (base + T) img hdevT h16 hbase rfl hEsz
            hm [] inner r0 q len0 si hg hinner hq8 hr0l hr0 hhold htail)
      rw [collectNext, hNRF]
      by_cases hqT : q = base + T
      · rw [loopOutcome, if_pos hqT]
        rfl
      · rw [loopOutcome, if_neg hqT]
        rfl
  | cons f rest ih =>
    rcases f with ⟨p, c⟩
    intro fuel inner r0 q len0 si hg hfuel hinner hbad hvalid hq8 hr0l hr0 hhold htail
    have hp1 : 1 ≤ p.length := (hg (p, c) (List.mem_cons_self _ _)).1
    have hgrest : goodFrames rest := fun f hf => hg f (List.mem_cons_of_mem _ hf)
    have hflen : (flatFrames ((p, c) :: rest)).length =
        2 + p.length + (flatFrames rest).length := by
      simp [flatFrames, frameBytes_length]
    have hfit : q + (2 + p.length + (flatFrames rest).length) ≤ base + T := by
      rw [hflen] at htail
      omega
    have hhold1 : ∀ i < (flatFrames rest).length,
        img.getD (q + (p.length + 2) + i) 255 = (flatFrames rest).getD i 255 := by
      intro i hi
      have h1 := hhold (2 + p.length + i) (by rw [hflen]; omega)
      rw [show q + (2 + p.length + i) = q + (p.length + 2) + i by omega] at h1
      have hfb : (frameBytes (p, c)).length = 2 + p.length := frameBytes_length (p, c)
      rw [h1, flatFrames, getD_append_lemma, if_neg (by rw [hfb]; omega), hfb,
        show 2 + p.length + i - (2 + p.length) = i by omega]
    have htail1 : (q + (p.length + 2) + (flatFrames rest).length + 2 ≤ base + T ∧
        ∀ j, q + (p.length + 2) + (flatFrames rest).length ≤ j → j < base + T →
          img.getD j 255 = 255) ∨
        q + (p.length + 2) + (flatFrames rest).length = base + T := by
      rw [hflen] at htail
      rcases htail with ⟨hle, herased⟩ | hfull
      · exact Or.inl ⟨by omega, fun j hj1 hj2 => herased j (by omega) hj2⟩
      · exact Or.inr (by omega)
    cases fuel with
    | zero => exact absurd hfuel (by omega)
    | succ fuel =>
      have hfuel1 : rest.length < fuel := by
        rw [List.length_cons] at hfuel
        omega
      have hinner1 : rest.length < inner := by
        rw [List.length_cons] at hinner
        omega
      have hNRF : nextRecordFn inner magic dev ⟨r0, q, len0, si⟩ =
          some (loopOutcome (base + T) r0 q len0 si ((p, c) :: rest)) :=
        (nextRecordFn_of_valid inner magic dev _ hbad hvalid).trans
          (nextRecordLoop_image dev T base (base + T) img hdevT h16 hbase rfl hEsz
            hm ((p, c) :: rest) inner r0 q len0 si hg hinner hq8 hr0l hr0 hhold htail)
      cases c with
      | true =>
        rw [collectNext, hNRF, loopOutcome, if_pos rfl]
        obtain ⟨k, hk⟩ : ∃ k, p.length = k + 1 := ⟨p.length - 1, by omega⟩
        have hread : readBytes dev (q + 2) p.length = p := by
          have := readBytes_image dev img (q + 2) p hm (by omega) ?_
          · exact this
          · intro i hi
            have h1 := hhold (2 + i) (by rw [hflen]; omega)
            rw [show q + (2 + i) = q + 2 + i by omega] at h1
            have hfb : (frameBytes (p, true)).length = 2 + p.length :=
              frameBytes_length (p, true)
            rw [h1, flatFrames, getD_append_lemma, if_pos (by rw [hfb]; omega),
              frameBytes, getD_append_lemma, toLE_length, if_neg (by omega),
              show 2 + i - 2 = i by omega]
        have hih := ih fuel inner (q + 2) (q + (p.length + 2)) p.length si
          hgrest hfuel1 hinner1 hbad hvalid (by omega) (by omega) (by omega)
          hhold1 htail1
        rw [hk] at hih
        rw [hk]
        show (collectNext fuel inner magic dev
            ⟨q + 2, q + (k + 1 + 2), k + 1, si⟩).map
            (fun l => readBytes dev (q + 2) (k + 1) :: l) =
          some (committedPayloads ((p, true) :: rest))
        rw [hih, Option.map_some', ← hk, hread,
          committedPayloads_cons, if_pos rfl]
      | false =>
        have hNRF2 : nextRecordFn inner magic dev
            ⟨q, q + (p.length + 2), len0, si⟩ =
            some (loopOutcome (base + T) q (q + (p.length + 2)) len0 si rest) :=
          (nextRecordFn_of_valid inner magic dev _ hbad hvalid).trans
            (nextRecordLoop_image dev T base (base + T) img hdevT h16 hbase rfl
              hEsz hm rest inner q (q + (p.length + 2)) len0 si hgrest hinner1
              (by omega) (by omega) (by omega) hhold1 htail1)
        have hcongr := collectNext_congr fuel inner magic dev
          ⟨r0, q, len0, si⟩ ⟨q, q + (p.length + 2), len0, si⟩
          (hNRF.trans hNRF2.symm)
        rw [hcongr, committedPayloads_cons, if_neg (by simp)]
        exact ih (fuel + 1) inner q (q + (p.length + 2)) len0 si
          hgrest (by omega) hinner1 hbad hvalid (by omega) (by omega) (by omega)
          hhold1 htail1


/-! ### Scan and forward enumeration over a one-sector journal image -/

theorem headerImage_length (magic : Nat) : (headerImage magic).length = 8 := by
  simp [headerImage, toLE_length]

theorem sectorImage_length (magic : Nat) (fs : List (List Nat × Bool)) :
    (sectorImage magic fs).length = 8 + (flatFrames fs).length := by
  simp [sectorImage, headerImage, toLE_length]
  omega

theorem sectorImage_getD_frames (magic : Nat) (fs : List (List Nat × Bool))
    (i : Nat) :
    (sectorImage magic fs).getD (8 + i) 255 = (flatFrames fs).getD i 255 := by
  rw [sectorImage, getD_append_lemma, headerImage_length,
    if_neg (by omega), show 8 + i - 8 = i by omega]

theorem sectorImage_getD_header (magic : Nat) (fs : List (List Nat × Bool))
    (i : Nat) (hi : i < 8) :
    (sectorImage magic fs).getD i 255 = (headerImage magic).getD i 255 := by
  rw [sectorImage, getD_append_lemma, headerImage_length, if_pos hi]

theorem foldl_const {α β : Type} (f : α → β → α) (l : List β) (a : α)
    (h : ∀ b ∈ l, f a b = a) : l.foldl f a = a := by
  induction l with
  | nil => rfl
  | cons x xs ih =>
    rw [List.foldl_cons, h x (List.mem_cons_self _ _)]
    exact ih fun b hb => h b (List.mem_cons_of_mem _ hb)

theorem readBytes_headerImage (magic : Nat) (dev : Device) (img : List Nat)
    (hm : matchesImage dev img) (hsz : 8 ≤ dev.size)
    (hhdr : ∀ i < 8, img.getD i 255 = (headerImage magic).getD i 255) :
    readBytes dev 0 8 = headerImage magic := by
  have hlen : (headerImage magic).length = 8 := headerImage_length magic
  have := readBytes_image dev img 0 (headerImage magic) hm (by omega) ?_
  · rw [hlen] at this
    exact this
  · intro i hi
    rw [hlen] at hi
    rw [Nat.zero_add]
    exact hhdr i hi

/-- `ScanSector` of sector 0 whose image starts with the first-use header:
Valid, sequence 1, first record at 8. -/
theorem scanSector_image_valid (magic : Nat) (dev : Device) (img : List Nat)
    (hm : matchesImage dev img) (hsz : 8 ≤ dev.size) (hmagic : magic < 2 ^ 32)
    (hhdr : ∀ i < 8, img.getD i 255 = (headerImage magic).getD i 255) :
    scanSector magic dev 0 none = ⟨1, 8, SectorState.Valid⟩ := by
  have hbase : dev.sectorAddress 0 = 0 := by
    simp [Device.sectorAddress]
  have h8 := readBytes_headerImage magic dev img hm hsz hhdr
  have hsplit := readBytes_add dev 0 4 4
  rw [show (4 : Nat) + 4 = 8 from rfl] at hsplit
  have happ : readBytes dev 0 4 ++ readBytes dev (0 + 4) 4 =
      toLE 4 magic ++ toLE 4 1 := by
    rw [← hsplit, h8, headerImage]
  have hparts := List.append_inj happ (by simp [readBytes, toLE_length])
  have hmLE : readLE dev 0 4 = magic := by
    rw [readLE, hparts.1, leVal_toLE,
      show (256 : Nat) ^ 4 = 2 ^ 32 by norm_num]
    exact Nat.mod_eq_of_lt hmagic
  have hsLE : readLE dev (0 + 4) 4 = 1 := by
    rw [readLE, hparts.2, leVal_toLE]
    norm_num
  have hall : (readBytes dev 0 8).all (· == 255) = false := by
    rw [h8, headerImage, List.all_append,
      show (toLE 4 1).all (· == 255) = false by decide, Bool.and_false]
  simp only [scanSector, hbase, hmLE, hsLE]
  rw [if_neg (by simp [hall]), if_neg (by simp)]

/-- `ScanSector` of an erased sector is Empty no matter the `following`
argument. -/
theorem scanSector_empty (magic : Nat) (dev : Device) (a : Nat)
    (fo : Option SectorInfo)
    (hbytes : ∀ i < 8, dev.data (dev.sectorAddress a + i) = 255) :
    scanSector magic dev a fo = ⟨0xFFFFFFFF, 8, SectorState.Empty⟩ := by
  have h8 : readBytes dev (dev.sectorAddress a) 8 = List.replicate 8 255 :=
    readBytes_erased _ _ _ hbytes
  have hall : (readBytes dev (dev.sectorAddress a) 8).all (· == 255) = true := by
    rw [h8]
    decide
  have hseq : readLE dev (dev.sectorAddress a + 4) 4 = 0xFFFFFFFF := by
    rw [readLE, readBytes_erased _ _ _ (fun i hi => by
      rw [show dev.sectorAddress a + 4 + i = dev.sectorAddress a + (4 + i) by omega]
      exact hbytes (4 + i) (by omega)), leVal_replicate_255]
    norm_num
  simp only [scanSector, hseq]
  rw [if_pos hall]

/-- A non-initial sector of the one-sector journal scans Empty: the image is
confined to sector 0. -/
theorem scanSector_tail_empty (magic T N : Nat) (dev : Device)
    (img : List Nat) (m : Nat) (hm : matchesImage dev img)
    (hdevT : dev.sectorSize = T) (hdevN : dev.size = N * T) (h16 : 16 ≤ T)
    (himg : img.length ≤ T) (hm1 : 1 ≤ m) (hmN : m < N)
    (fo : Option SectorInfo) :
    scanSector magic dev (m * T) fo = ⟨0xFFFFFFFF, 8, SectorState.Empty⟩ := by
  apply scanSector_empty
  intro i hi
  have haligned : dev.sectorAddress (m * T) = m * T :=
    sectorAddress_of_aligned dev (m * T) (by omega)
      (by rw [hdevT]; exact Nat.mul_mod_left m T)
  rw [haligned]
  have hxlt : m * T + i < dev.size := by
    rw [hdevN]
    calc m * T + i < m * T + T := by omega
      _ = (m + 1) * T := by rw [Nat.succ_mul]
      _ ≤ N * T := Nat.mul_le_mul_right T (by omega)
  have hTle : T ≤ m * T := by
    calc T = 1 * T := (Nat.one_mul T).symm
      _ ≤ m * T := Nat.mul_le_mul_right T hm1
  rw [hm (m * T + i) hxlt]
  exact getD_eq_default img _ 255 (by omega)

/-- The fold step of `scanPhase1`, named so the fold can be reasoned about
one sector at a time. -/
def scanPhase1Step (magic : Nat) (dev : Device)
    (acc : Option (Nat × SectorInfo × Nat)) (k : Nat) :
    Option (Nat × SectorInfo × Nat) :=
  let addr := k * dev.sectorSize
  let si := scanSector magic dev addr none
  if si.IsEmpty then acc
  else if ¬ si.IsValid then acc
  else
    match acc with
    | none => some (addr, si, si.sequence)
    | some (bestAddr, best, baseSeq) =>
      if ovfGT si.sequence best.sequence && ovfGT si.sequence baseSeq then
        some (addr, si, baseSeq)
      else some (bestAddr, best, baseSeq)

theorem scanPhase1_eq (magic : Nat) (dev : Device) :
    scanPhase1 magic dev =
      (List.range dev.numSectors).foldl (scanPhase1Step magic dev) none := rfl

/-- The fold step of `scanBack`. -/
def scanBackStep (magic : Nat) (dev : Device)
    (acc : Nat × SectorInfo × Bool) (addr : Nat) : Nat × SectorInfo × Bool :=
  if acc.2.2 then acc
  else
    let si := scanSector magic dev addr (some acc.2.1)
    if si.IsPreceding then (addr, si, false)
    else if si.IsValid then (acc.1, acc.2.1, true)
    else acc

theorem scanBack_eq (magic : Nat) (dev : Device) (last : Nat)
    (siLast : SectorInfo) :
    scanBack magic dev last siLast =
      (((ringBack dev (dev.numSectors - 1) last).foldl
          (scanBackStep magic dev) (last, siLast, false)).1,
        ((ringBack dev (dev.numSectors - 1) last).foldl
          (scanBackStep magic dev) (last, siLast, false)).2.1) := rfl

theorem ringBack_desc (dev : Device) (T : Nat) (hdevT : dev.sectorSize = T)
    (hT : 0 < T) :
    ∀ (n m : Nat), n ≤ m →
      ∀ x ∈ ringBack dev n (m * T), ∃ j, m - n ≤ j ∧ j < m ∧ x = j * T := by
  intro n
  induction n with
  | zero =>
    intro m _ x hx
    simp [ringBack] at hx
  | succ n ih =>
    intro m hnm x hx
    rw [ringBack] at hx
    have hm1 : 1 ≤ m := by omega
    have hprev : prevSectorAddr dev (m * T) = (m - 1) * T := by
      rw [prevSectorAddr, if_neg (Nat.mul_ne_zero (by omega) (by omega)), hdevT,
        Nat.sub_one_mul]
    rw [hprev] at hx
    rcases List.mem_cons.mp hx with h | h
    · exact ⟨m - 1, by omega, by omega, h⟩
    · obtain ⟨j, hj1, hj2, hj3⟩ := ih (m - 1) (by omega) x h
      exact ⟨j, by omega, by omega, hj3⟩

theorem ringBack_zero_mem (dev : Device) (T N : Nat)
    (hdevT : dev.sectorSize = T) (hdevN : dev.size = N * T) (hT : 0 < T)
    (hN : 1 ≤ N) :
    ∀ x ∈ ringBack dev (N - 1) 0, ∃ m, 1 ≤ m ∧ m < N ∧ x = m * T := by
  intro x hx
  obtain ⟨K, hK⟩ : ∃ K, N = K + 1 := ⟨N - 1, by omega⟩
  subst hK
  simp only [Nat.add_sub_cancel] at hx
  cases K with
  | zero => simp [ringBack] at hx
  | succ K =>
    rw [ringBack] at hx
    have hprev0 : prevSectorAddr dev 0 = (K + 1) * T := by
      rw [prevSectorAddr, if_pos rfl, hdevT, hdevN]
      rw [show (K + 1 + 1) * T - T = (K + 1) * T by rw [Nat.succ_mul (K + 1) T]; omega]
    rw [hprev0] at hx
    rcases List.mem_cons.mp hx with h | h
    · exact ⟨K + 1, by omega, by omega, h⟩
    · obtain ⟨j, hj1, hj2, hj3⟩ :=
        ringBack_desc dev T hdevT hT K (K + 1) (by omega) x h
      exact ⟨j, by omega, by omega, hj3⟩

/-- Phase 1 of `Scan` on the one-sector image: sector 0 is the unique Valid
sector and wins with sequence 1. -/
theorem scanPhase1_image (magic T N : Nat) (dev : Device) (img : List Nat)
    (hm : matchesImage dev img) (hdevT : dev.sectorSize = T)
    (hdevN : dev.size = N * T) (h16 : 16 ≤ T) (hN : 1 ≤ N)
    (hmagic : magic < 2 ^ 32) (himg : img.length ≤ T)
    (hhdr : ∀ i < 8, img.getD i 255 = (headerImage magic).getD i 255) :
    scanPhase1 magic dev = some (0, ⟨1, 8, SectorState.Valid⟩, 1) := by
  have hnum : dev.numSectors = N := by
    rw [Device.numSectors, hdevN, hdevT, Nat.mul_comm]
    exact Nat.mul_div_cancel_left N (by omega)
  obtain ⟨M, hM⟩ : ∃ M, N = M + 1 := ⟨N - 1, by omega⟩
  have hTsz : T ≤ N * T := by
    calc T = 1 * T := (Nat.one_mul T).symm
      _ ≤ N * T := Nat.mul_le_mul_right T hN
  have hsz8 : 8 ≤ dev.size := by
    rw [hdevN]
    omega
  have hs0 : scanSector magic dev 0 none = ⟨1, 8, SectorState.Valid⟩ :=
    scanSector_image_valid magic dev img hm hsz8 hmagic hhdr
  rw [scanPhase1_eq, hnum, hM, List.range_succ_eq_map, List.foldl_cons]
  have hstep0 : scanPhase1Step magic dev none 0 =
      some (0, ⟨1, 8, SectorState.Valid⟩, 1) := by
    simp only [scanPhase1Step, Nat.zero_mul, hs0]
    rfl
  rw [hstep0]
  apply foldl_const
  intro k hk
  rcases List.mem_map.mp hk with ⟨j, hj, rfl⟩
  have hjM : j < M := List.mem_range.mp hj
  have hse : scanSector magic dev ((j + 1) * dev.sectorSize) none =
      ⟨0xFFFFFFFF, 8, SectorState.Empty⟩ := by
    rw [hdevT]
    exact scanSector_tail_empty magic T N dev img (j + 1) hm hdevT hdevN h16
      himg (by omega) (by omega) none
  simp only [scanPhase1Step, hse]
  rfl

/-- The backward `ValidPreceding` walk of `Scan` finds only Empty sectors on
the one-sector image and leaves `firstSector = lastSector = 0`. -/
theorem scanBack_image (magic T N : Nat) (dev : Device) (img : List Nat)
    (hm : matchesImage dev img) (hdevT : dev.sectorSize = T)
    (hdevN : dev.size = N * T) (h16 : 16 ≤ T) (hN : 1 ≤ N)
    (himg : img.length ≤ T) (siLast : SectorInfo) :
    scanBack magic dev 0 siLast = (0, siLast) := by
  have hnum : dev.numSectors = N := by
    rw [Device.numSectors, hdevN, hdevT, Nat.mul_comm]
    exact Nat.mul_div_cancel_left N (by omega)
  rw [scanBack_eq, hnum]
  have hfold : (ringBack dev (N - 1) 0).foldl (scanBackStep magic dev)
      (0, siLast, false) = (0, siLast, false) := by
    apply foldl_const
    intro addr haddr
    obtain ⟨m, hm1, hmN, rfl⟩ := ringBack_zero_mem dev T N hdevT hdevN (by omega)
      hN addr haddr
    have hse : scanSector magic dev (m * T) (some siLast) =
        ⟨0xFFFFFFFF, 8, SectorState.Empty⟩ :=
      scanSector_tail_empty magic T N dev img m hm hdevT hdevN h16 himg hm1 hmN _
    simp only [scanBackStep, hse]
    rfl
  rw [hfold]

theorem walkOutcome_tail (T : Nat) :
    ∀ (fs : List (List Nat × Bool)) (r0 q len0 : Nat) (si : SectorInfo),
      q + (flatFrames fs).length + 2 ≤ T →
      (walkOutcome T r0 q len0 si fs).r = q + (flatFrames fs).length ∧
      (walkOutcome T r0 q len0 si fs).rNext = q + (flatFrames fs).length ∧
      (walkOutcome T r0 q len0 si fs).si = si := by
  intro fs
  induction fs with
  | nil =>
    intro r0 q len0 si hle
    simp only [flatFrames, List.length_nil, Nat.add_zero] at hle ⊢
    rw [walkOutcome, if_neg (by omega)]
    exact ⟨rfl, rfl, rfl⟩
  | cons f rest ih =>
    rcases f with ⟨p, c⟩
    intro r0 q len0 si hle
    have hflen : (flatFrames ((p, c) :: rest)).length =
        2 + p.length + (flatFrames rest).length := by
      simp [flatFrames, frameBytes_length]
    rw [hflen] at hle ⊢
    rw [walkOutcome]
    cases c with
    | true =>
      rw [if_pos rfl]
      obtain ⟨h1, h2, h3⟩ := ih (q + 2) (q + (p.length + 2)) p.length si (by omega)
      exact ⟨h1.trans (by omega), h2.trans (by omega), h3⟩
    | false =>
      rw [if_neg (by simp)]
      obtain ⟨h1, h2, h3⟩ := ih q (q + (p.length + 2)) len0 si (by omega)
      exact ⟨h1.trans (by omega), h2.trans (by omega), h3⟩

theorem walkOutcome_full (T : Nat) :
    ∀ (fs : List (List Nat × Bool)) (r0 q len0 : Nat) (si : SectorInfo),
      goodFrames fs → r0 < T → q + (flatFrames fs).length = T →
      (walkOutcome T r0 q len0 si fs).r < T ∧
      (walkOutcome T r0 q len0 si fs).rNext = T ∧
      (walkOutcome T r0 q len0 si fs).si = si := by
  intro fs
  induction fs with
  | nil =>
    intro r0 q len0 si _ hr0 hfull
    simp only [flatFrames, List.length_nil, Nat.add_zero] at hfull
    rw [walkOutcome, if_pos hfull]
    exact ⟨hr0, hfull, rfl⟩
  | cons f rest ih =>
    rcases f with ⟨p, c⟩
    intro r0 q len0 si hg hr0 hfull
    have hp1 : 1 ≤ p.length := (hg (p, c) (List.mem_cons_self _ _)).1
    have hgrest : goodFrames rest := fun f hf => hg f (List.mem_cons_of_mem _ hf)
    have hflen : (flatFrames ((p, c) :: rest)).length =
        2 + p.length + (flatFrames rest).length := by
      simp [flatFrames, frameBytes_length]
    rw [hflen] at hfull
    rw [walkOutcome]
    cases c with
    | true =>
      rw [if_pos rfl]
      exact ih (q + 2) (q + (p.length + 2)) p.length si hgrest (by omega) (by omega)
    | false =>
      rw [if_neg (by simp)]
      exact ih q (q + (p.length + 2)) len0 si hgrest (by omega) (by omega)

/-- `Scan` on a device whose sector 0 carries the one-sector journal image of
the frames `fs` (all other sectors erased): it finds sector 0 Valid with
sequence 1, walks the records, and sets `freeOffset` to the end-of-frames
offset — or to 0 when the frames fill the sector exactly. -/
theorem scanFn_image (magic T N : Nat) (dev : Device) (st : EngState)
    (fs : List (List Nat × Bool))
    (hm : matchesImage dev (sectorImage magic fs))
    (hdevT : dev.sectorSize = T) (hdevN : dev.size = N * T)
    (h16 : 16 ≤ T) (hN : 1 ≤ N) (hmagic : magic < 2 ^ 32)
    (hgood : goodFrames fs)
    (hfit : 8 + (flatFrames fs).length + 2 ≤ T ∨ 8 + (flatFrames fs).length = T) :
    scanFn (fs.length + 1) (fs.length + 1) magic dev st =
      some ⟨⟨1, 8, SectorState.Valid⟩, 0, 0,
        if 8 + (flatFrames fs).length = T then 0 else 8 + (flatFrames fs).length,
        st.maxRecord⟩ := by
  have himglen : (sectorImage magic fs).length ≤ T := by
    rw [sectorImage_length]
    omega
  have hhdr : ∀ i < 8, (sectorImage magic fs).getD i 255 =
      (headerImage magic).getD i 255 :=
    fun i hi => sectorImage_getD_header magic fs i hi
  have hTsz : T ≤ dev.size := by
    rw [hdevN]
    calc T = 1 * T := (Nat.one_mul T).symm
      _ ≤ N * T := Nat.mul_le_mul_right T hN
  have hsz8 : 8 ≤ dev.size := by omega
  have hphase := scanPhase1_image magic T N dev _ hm hdevT hdevN h16 hN hmagic
    himglen hhdr
  have hbase0 : dev.sectorAddress 0 = 0 := by
    simp [Device.sectorAddress]
  have hscan0 : scanSector magic dev (dev.sectorAddress 0) none =
      ⟨1, 8, SectorState.Valid⟩ := by
    rw [hbase0]
    exact scanSector_image_valid magic dev _ hm hsz8 hmagic hhdr
  have hhold : ∀ i < (flatFrames fs).length,
      (sectorImage magic fs).getD (8 + i) 255 = (flatFrames fs).getD i 255 :=
    fun i _ => sectorImage_getD_frames magic fs i
  have htail : (8 + (flatFrames fs).length + 2 ≤ T ∧
      ∀ j, 8 + (flatFrames fs).length ≤ j → j < T →
        (sectorImage magic fs).getD j 255 = 255) ∨
      8 + (flatFrames fs).length = T := by
    rcases hfit with h | h
    · exact Or.inl ⟨h, fun j hj1 _ =>
        getD_eq_default _ _ _ (by rw [sectorImage_length]; omega)⟩
    · exact Or.inr h
  have hinit : nextRecordFn (fs.length + 1) magic dev ⟨0, 0, 0, SectorInfo.reset⟩ =
      nextRecordFn (fs.length + 1) magic dev
        ⟨0, 8, 0, ⟨1, 8, SectorState.Valid⟩⟩ := by
    simp only [nextRecordFn, hscan0]
    rfl
  have hwalk := walkRecords_image dev T 0 T magic _ hdevT h16 (Nat.zero_mod T)
    (by omega) hTsz hm fs
    (fs.length + 1) (fs.length + 1) 0 8 0 ⟨1, 8, SectorState.Valid⟩ hgood
    (by omega) (by omega) (by decide) (by decide) (by omega) (by omega)
    (by omega) hhold htail
  have hw : walkRecords (fs.length + 1) (fs.length + 1) magic dev
      ⟨0, 0, 0, SectorInfo.reset⟩ =
      some (walkOutcome T 0 8 0 ⟨1, 8, SectorState.Valid⟩ fs) :=
    (walkRecords_congr fs.length (fs.length + 1) magic dev _ _ hinit).trans hwalk
  have hback := scanBack_image magic T N dev _ hm hdevT hdevN h16 hN himglen
    ⟨1, 8, SectorState.Valid⟩
  have hcore : scanCore (fs.length + 1) (fs.length + 1) magic dev =
      some (⟨1, 8, SectorState.Valid⟩, 0, 0,
        if 8 + (flatFrames fs).length = T then 0
        else 8 + (flatFrames fs).length) := by
    simp only [scanCore, hphase, enumerateRecords, hw, hback]
    rcases hfit with h | h
    · obtain ⟨hr, hrn, _⟩ :=
        walkOutcome_tail T fs 0 8 0 ⟨1, 8, SectorState.Valid⟩ (by omega)
      rw [hr, hrn]
      rw [if_pos (by rw [beq_iff_eq])]
      rw [Nat.sub_zero, if_neg (by omega)]
    · obtain ⟨hr, hrn, _⟩ :=
        walkOutcome_full T fs 0 8 0 ⟨1, 8, SectorState.Valid⟩ hgood (by omega)
          (by omega)
      rw [hrn, if_neg (by simp only [beq_iff_eq]; omega), if_pos (by omega)]
  simp only [scanFn, hcore, Option.map_some']

/-- Forward enumeration (`NextSector` + `NextRecord`, as the repository's
tests read the journal back) over the one-sector journal image returns
exactly the committed payloads in order. -/
theorem collectAll_image (magic T N : Nat) (dev : Device) (st : EngState)
    (fs : List (List Nat × Bool))
    (hm : matchesImage dev (sectorImage magic fs))
    (hdevT : dev.sectorSize = T) (hdevN : dev.size = N * T)
    (h16 : 16 ≤ T) (hN : 1 ≤ N) (hmagic : magic < 2 ^ 32)
    (hgood : goodFrames fs)
    (hfit : 8 + (flatFrames fs).length + 2 ≤ T ∨ 8 + (flatFrames fs).length = T)
    (hfirst : st.firstSector = 0) (hlast : st.lastSector = 0) :
    collectAll (fs.length + 1) (fs.length + 1) magic dev st =
      some (committedPayloads fs) := by
  have himglen : (sectorImage magic fs).length ≤ T := by
    rw [sectorImage_length]
    omega
  have hhdr : ∀ i < 8, (sectorImage magic fs).getD i 255 =
      (headerImage magic).getD i 255 :=
    fun i hi => sectorImage_getD_header magic fs i hi
  have hTsz : T ≤ dev.size := by
    rw [hdevN]
    calc T = 1 * T := (Nat.one_mul T).symm
      _ ≤ N * T := Nat.mul_le_mul_right T hN
  have hsz8 : 8 ≤ dev.size := by omega
  have hnum : dev.numSectors = N := by
    rw [Device.numSectors, hdevN, hdevT, Nat.mul_comm]
    exact Nat.mul_div_cancel_left N (by omega)
  have hbase0 : dev.sectorAddress 0 = 0 := by
    simp [Device.sectorAddress]
  have hscan0 : scanSector magic dev 0 none = ⟨1, 8, SectorState.Valid⟩ :=
    scanSector_image_valid magic dev _ hm hsz8 hmagic hhdr
  have hhold : ∀ i < (flatFrames fs).length,
      (sectorImage magic fs).getD (8 + i) 255 = (flatFrames fs).getD i 255 :=
    fun i _ => sectorImage_getD_frames magic fs i
  have htail : (8 + (flatFrames fs).length + 2 ≤ T ∧
      ∀ j, 8 + (flatFrames fs).length ≤ j → j < T →
        (sectorImage magic fs).getD j 255 = 255) ∨
      8 + (flatFrames fs).length = T := by
    rcases hfit with h | h
    · exact Or.inl ⟨h, fun j hj1 _ =>
        getD_eq_default _ _ _ (by rw [sectorImage_length]; omega)⟩
    · exact Or.inr h
  have hns1 : nextSectorFn (dev.numSectors + 1) magic dev st none =
      some (some 0, true) := by
    obtain ⟨K, hK⟩ : ∃ K, dev.numSectors = K + 1 := ⟨dev.numSectors - 1, by omega⟩
    rw [hK, nextSectorFn]
    have hb : (none == some st.lastSector) = false := rfl
    rw [if_neg (by rw [hb]; simp)]
    show (if (scanSector magic dev st.firstSector none).IsValid = true then
        some (some st.firstSector, true)
      else nextSectorFn (K + 1) magic dev st (some st.firstSector)) =
      some (some 0, true)
    rw [hfirst, hscan0, if_pos (by decide)]
  have hns2 : nextSectorFn (dev.numSectors + 1) magic dev st (some 0) =
      some (none, false) := by
    obtain ⟨K, hK⟩ : ∃ K, dev.numSectors = K + 1 := ⟨dev.numSectors - 1, by omega⟩
    rw [hK, nextSectorFn]
    rw [if_pos (by rw [hlast]; rfl)]
  have hinit : nextRecordFn (fs.length + 1) magic dev ⟨0, 0, 0, SectorInfo.reset⟩ =
      nextRecordFn (fs.length + 1) magic dev
        ⟨0, 8, 0, ⟨1, 8, SectorState.Valid⟩⟩ := by
    have hscan0b : scanSector magic dev (dev.sectorAddress 0) none =
        ⟨1, 8, SectorState.Valid⟩ := by
      rw [hbase0]
      exact hscan0
    simp only [nextRecordFn, hscan0b]
    rfl
  have hcol0 := collectNext_image dev T 0 T magic _ hdevT h16 (Nat.zero_mod T)
    (by omega) hTsz hm fs
    (fs.length + 1) (fs.length + 1) 0 8 0 ⟨1, 8, SectorState.Valid⟩ hgood
    (by omega) (by omega) (by decide) (by decide) (by omega) (by omega)
    (by omega) hhold htail
  have hcol : collectNext (fs.length + 1) (fs.length + 1) magic dev
      (enumerateRecords 0) = some (committedPayloads fs) :=
    (collectNext_congr fs.length (fs.length + 1) magic dev _ _ hinit).trans hcol0
  show collectSectors (dev.numSectors + 1) (fs.length + 1) (fs.length + 1)
      magic dev st none = some (committedPayloads fs)
  obtain ⟨K, hK⟩ : ∃ K, dev.numSectors = K + 1 := ⟨dev.numSectors - 1, by omega⟩
  rw [hK]
  simp only [collectSectors, hns1, hns2, hcol, Option.map_some', List.append_nil]

/-! ### Driving writes into the first sector -/

/-- One `BeginWrite` iteration when no rotation is needed and `InitRecord`
succeeds with payload `m`. -/
theorem beginWriteLoop_direct (fuel magic m : Nat) (dev : Device)
    (st : EngState) (ri : RecordInfo) (len : Nat)
    (hfo : ¬(st.freeOffset = 0 ∨ st.freeOffset ≥ dev.sectorSize))
    (hir : initRecord dev (st.lastSector + st.freeOffset) ri len =
      (program dev (st.lastSector + st.freeOffset) (toLE 2 (m ||| 0x8000)),
        ⟨m, 2 + m, RecordState.Valid⟩, 2)) :
    beginWriteLoop (fuel + 1) magic dev st ri len =
      some (program dev (st.lastSector + st.freeOffset) (toLE 2 (m ||| 0x8000)),
        { st with
            freeOffset := st.freeOffset + (2 + m)
            maxRecord := dev.sectorSize - (st.freeOffset + (2 + m) + 2) },
        st.lastSector + (st.freeOffset + (2 + m)) - (2 + m) + 2, m) := by
  rw [beginWriteLoop]
  rw [if_neg (by simp only [Bool.or_eq_true, decide_eq_true_eq]; exact hfo)]
  simp only [hir, RecordInfo.IsValid, beq_self_eq_true, if_true]

/-- The first write on a fresh, freshly scanned journal: `NewSector`
initializes sector 0 with sequence 1 and the record frame lands at
offset 8, payload at offset 10. -/
theorem doWrite_first (magic T N fuel : Nat) (dev : Device) (mr : Nat)
    (p : List Nat) (c : Bool)
    (hm : matchesImage dev [])
    (hdevT : dev.sectorSize = T) (hdevN : dev.size = N * T)
    (h16 : 16 ≤ T) (hN : 1 ≤ N)
    (hp1 : 1 ≤ p.length) (hp2 : p.length ≤ 0x7FFF) (hpb : ∀ b ∈ p, b < 256)
    (hfit : 8 + (2 + p.length) ≤ T) :
    ∃ dev2 mr2,
      doWrite (fuel + 2) magic dev ⟨SectorInfo.reset, 0, 0, 0, mr⟩ p c =
        some (dev2, ⟨⟨1, 8, SectorState.Valid⟩, 0, 0,
          8 + (flatFrames [(p, c)]).length, mr2⟩) ∧
      matchesImage dev2 (sectorImage magic [(p, c)]) ∧
      dev2.sectorSize = T ∧ dev2.size = N * T := by
  have hTsz : T ≤ dev.size := by
    rw [hdevN]
    calc T = 1 * T := (Nat.one_mul T).symm
      _ ≤ N * T := Nat.mul_le_mul_right T hN
  have hlen2 : (flatFrames [(p, c)]).length = 2 + p.length := by
    simp [flatFrames, frameBytes_length]
  have hempty : isEmptyRange dev 0 dev.sectorSize = true :=
    isEmptyRange_matchesImage dev [] 0 dev.sectorSize hm
      (by rw [hdevT]; omega) (fun i _ => rfl)
  have hinit := initSector_image magic dev hm
  have hempty' : isEmptyRange dev
      (⟨SectorInfo.reset, 0, 0, 0, mr⟩ : EngState).lastSector dev.sectorSize =
      true := hempty
  have hnew : newSectorFn (fuel + 1 + 1) magic dev
      ⟨SectorInfo.reset, 0, 0, 0, mr⟩ =
      some ((initSector magic dev 0 SectorInfo.reset).1,
        ⟨⟨1, 8, SectorState.Valid⟩, 0, 0, 8, mr⟩) := by
    simp only [newSectorFn]
    rw [if_neg (by simp)]
    rw [newSectorLoop_step (fuel + 1) magic dev _]
    rw [if_neg (by rw [hempty']; simp)]
    have hproj1 : (⟨SectorInfo.reset, 0, 0, 0, mr⟩ : EngState).lastSector = 0 := rfl
    have hproj2 : (⟨SectorInfo.reset, 0, 0, 0, mr⟩ : EngState).last =
      SectorInfo.reset := rfl
    rw [hproj1, hproj2, hinit.2]
  have hd1T : (initSector magic dev 0 SectorInfo.reset).1.sectorSize = T := by
    rw [← hdevT]
    rfl
  have hd1N : (initSector magic dev 0 SectorInfo.reset).1.size = N * T := by
    rw [← hdevN]
    rfl
  have hpos8 : (8 : Nat) % (initSector magic dev 0 SectorInfo.reset).1.sectorSize
      = 8 := by
    rw [hd1T]
    exact Nat.mod_eq_of_lt (by omega)
  have hir := initRecord_at_first (initSector magic dev 0 SectorInfo.reset).1 8
    RecordInfo.reset p.length (by rw [hd1T]; omega) hpos8
  rw [show min (min p.length 0x7FFF)
      ((initSector magic dev 0 SectorInfo.reset).1.sectorSize - 10) = p.length
    from by rw [hd1T]; omega] at hir
  have hbegin : beginWriteFn (fuel + 2) magic dev
      ⟨SectorInfo.reset, 0, 0, 0, mr⟩ p.length =
      some (program (initSector magic dev 0 SectorInfo.reset).1 8
          (toLE 2 (p.length ||| 0x8000)),
        ⟨⟨1, 8, SectorState.Valid⟩, 0, 0, 8 + (2 + p.length),
          (initSector magic dev 0 SectorInfo.reset).1.sectorSize -
            (8 + (2 + p.length) + 2)⟩,
        0 + (8 + (2 + p.length)) - (2 + p.length) + 2, p.length) := by
    show beginWriteLoop (fuel + 1 + 1) magic dev ⟨SectorInfo.reset, 0, 0, 0, mr⟩
      RecordInfo.reset p.length = _
    rw [beginWriteLoop]
    rw [if_pos (by simp)]
    rw [hnew]
    simp only [hir, RecordInfo.IsValid, beq_self_eq_true, if_true]
  rw [show (0 : Nat) + (8 + (2 + p.length)) - (2 + p.length) + 2 = 10
    from by omega] at hbegin
  refine ⟨(if c then
      commitRecord (program (program (initSector magic dev 0 SectorInfo.reset).1
        8 (toLE 2 (p.length ||| 0x8000))) 10 p) 10
    else program (program (initSector magic dev 0 SectorInfo.reset).1
      8 (toLE 2 (p.length ||| 0x8000))) 10 p),
    (initSector magic dev 0 SectorInfo.reset).1.sectorSize -
      (8 + (2 + p.length) + 2), ?_, ?_, ?_, ?_⟩
  · simp only [doWrite, hbegin, Option.map_some', List.take_length, hlen2]
  · have him1 : matchesImage (program (initSector magic dev 0 SectorInfo.reset).1
        8 (toLE 2 (p.length ||| 0x8000)))
        (headerImage magic ++ toLE 2 (p.length + 0x8000)) := by
      rw [or_8000_eq_add p.length (by omega)]
      have := matchesImage_program_append
        (initSector magic dev 0 SectorInfo.reset).1 (headerImage magic)
        (toLE 2 (p.length + 0x8000)) hinit.1 (toLE_mem_lt _ _)
      rwa [headerImage_length] at this
    have hlen10 : (headerImage magic ++ toLE 2 (p.length + 0x8000)).length = 10 := by
      simp [headerImage, toLE_length]
    have him2 : matchesImage (program (program
        (initSector magic dev 0 SectorInfo.reset).1
        8 (toLE 2 (p.length ||| 0x8000))) 10 p)
        ((headerImage magic ++ toLE 2 (p.length + 0x8000)) ++ p) := by
      have := matchesImage_program_append _ _ p him1 hpb
      rwa [hlen10] at this
    cases c with
    | true =>
      have him2b : matchesImage (program (program
          (initSector magic dev 0 SectorInfo.reset).1
          8 (toLE 2 (p.length ||| 0x8000))) 10 p)
          (headerImage magic ++ (toLE 2 (p.length + 0x8000) ++ p)) := by
        rw [← List.append_assoc]
        exact him2
      have hc := matchesImage_commit _ (headerImage magic) p p.length him2b
        (by omega)
      rw [headerImage_length] at hc
      rw [show (8 : Nat) + 2 = 10 from rfl] at hc
      have himg : sectorImage magic [(p, true)] =
          headerImage magic ++ (toLE 2 p.length ++ p) := by
        simp [sectorImage, flatFrames, frameBytes]
      rw [if_pos rfl, himg]
      exact hc
    | false =>
      have himg : sectorImage magic [(p, false)] =
          headerImage magic ++ (toLE 2 (p.length + 0x8000) ++ p) := by
        simp [sectorImage, flatFrames, frameBytes]
      rw [if_neg (by simp), himg, ← List.append_assoc]
      exact him2
  · cases c with
    | true => exact hdevT
    | false => exact hdevT
  · cases c with
    | true => exact hdevN
    | false => exact hdevN

theorem flatFrames_length_pos (fs : List (List Nat × Bool)) (hne : fs ≠ [])
    (hg : goodFrames fs) : 3 ≤ (flatFrames fs).length := by
  cases fs with
  | nil => exact absurd rfl hne
  | cons f rest =>
    rcases f with ⟨p, c⟩
    have hp1 : 1 ≤ p.length := (hg (p, c) (List.mem_cons_self _ _)).1
    have : (flatFrames ((p, c) :: rest)).length =
        2 + p.length + (flatFrames rest).length := by
      simp [flatFrames, frameBytes_length]
    omega

/-- A subsequent write on a journal whose sector 0 already holds the frames
`fs`: no rotation, the new frame is appended at the free offset. -/
theorem doWrite_next (magic T N fuel : Nat) (dev : Device) (mr : Nat)
    (fs : List (List Nat × Bool)) (p : List Nat) (c : Bool)
    (hdevT : dev.sectorSize = T) (hdevN : dev.size = N * T)
    (hm : matchesImage dev (sectorImage magic fs))
    (h16 : 16 ≤ T) (hne : fs ≠ []) (hgfs : goodFrames fs)
    (hp1 : 1 ≤ p.length) (hp2 : p.length ≤ 0x7FFF) (hpb : ∀ b ∈ p, b < 256)
    (hfit : 8 + (flatFrames fs).length + (2 + p.length) + 2 ≤ T ∨
      8 + (flatFrames fs).length + (2 + p.length) = T) :
    ∃ dev2 mr2,
      doWrite (fuel + 2) magic dev
          ⟨⟨1, 8, SectorState.Valid⟩, 0, 0, 8 + (flatFrames fs).length, mr⟩ p c =
        some (dev2, ⟨⟨1, 8, SectorState.Valid⟩, 0, 0,
          8 + (flatFrames (fs ++ [(p, c)])).length, mr2⟩) ∧
      matchesImage dev2 (sectorImage magic (fs ++ [(p, c)])) ∧
      dev2.sectorSize = T ∧ dev2.size = N * T := by
  have hflat3 : 3 ≤ (flatFrames fs).length := flatFrames_length_pos fs hne hgfs
  have hQT : 8 + (flatFrames fs).length < T := by omega
  have hmodQ : (0 + (8 + (flatFrames fs).length)) % dev.sectorSize =
      8 + (flatFrames fs).length := by
    rw [Nat.zero_add, hdevT]
    exact Nat.mod_eq_of_lt (by omega)
  have hrem : dev.sectorRemaining (0 + (8 + (flatFrames fs).length)) =
      T - (8 + (flatFrames fs).length) := by
    rw [Device.sectorRemaining, hmodQ, hdevT]
  have hir : initRecord dev (0 + (8 + (flatFrames fs).length))
      RecordInfo.reset p.length =
      (program dev (0 + (8 + (flatFrames fs).length))
        (toLE 2 (p.length ||| 0x8000)),
        ⟨p.length, 2 + p.length, RecordState.Valid⟩, 2) := by
    rw [initRecord_spec]
    rw [show ((0 + (8 + (flatFrames fs).length)) % dev.sectorSize == 8) = false
      from by rw [hmodQ]; exact beq_eq_false_iff_ne.mpr (by omega)]
    simp only [Bool.false_eq_true, if_false]
    rw [show min p.length 0x7FFF = p.length from by omega]
    rw [hrem, if_neg (by omega)]
  have hfoQ : ¬((⟨⟨1, 8, SectorState.Valid⟩, 0, 0,
      8 + (flatFrames fs).length, mr⟩ : EngState).freeOffset = 0 ∨
      (⟨⟨1, 8, SectorState.Valid⟩, 0, 0,
        8 + (flatFrames fs).length, mr⟩ : EngState).freeOffset ≥
        dev.sectorSize) := by
    show ¬(8 + (flatFrames fs).length = 0 ∨
      8 + (flatFrames fs).length ≥ dev.sectorSize)
    rw [hdevT]
    omega
  have hirE : initRecord dev
      ((⟨⟨1, 8, SectorState.Valid⟩, 0, 0,
        8 + (flatFrames fs).length, mr⟩ : EngState).lastSector +
       (⟨⟨1, 8, SectorState.Valid⟩, 0, 0,
        8 + (flatFrames fs).length, mr⟩ : EngState).freeOffset)
      RecordInfo.reset p.length =
      (program dev
        ((⟨⟨1, 8, SectorState.Valid⟩, 0, 0,
          8 + (flatFrames fs).length, mr⟩ : EngState).lastSector +
         (⟨⟨1, 8, SectorState.Valid⟩, 0, 0,
          8 + (flatFrames fs).length, mr⟩ : EngState).freeOffset)
        (toLE 2 (p.length ||| 0x8000)),
        ⟨p.length, 2 + p.length, RecordState.Valid⟩, 2) := hir
  have hdirect := beginWriteLoop_direct (fuel + 1) magic p.length dev
    ⟨⟨1, 8, SectorState.Valid⟩, 0, 0, 8 + (flatFrames fs).length, mr⟩
    RecordInfo.reset p.length hfoQ hirE
  rw [show (⟨⟨1, 8, SectorState.Valid⟩, 0, 0,
        8 + (flatFrames fs).length, mr⟩ : EngState).lastSector +
      ((⟨⟨1, 8, SectorState.Valid⟩, 0, 0,
        8 + (flatFrames fs).length, mr⟩ : EngState).freeOffset +
        (2 + p.length)) - (2 + p.length) + 2 =
      8 + (flatFrames fs).length + 2
    from by
      show (0 : Nat) + (8 + (flatFrames fs).length + (2 + p.length)) -
        (2 + p.length) + 2 = 8 + (flatFrames fs).length + 2
      omega] at hdirect
  rw [show (⟨⟨1, 8, SectorState.Valid⟩, 0, 0,
        8 + (flatFrames fs).length, mr⟩ : EngState).lastSector +
      (⟨⟨1, 8, SectorState.Valid⟩, 0, 0,
        8 + (flatFrames fs).length, mr⟩ : EngState).freeOffset =
      8 + (flatFrames fs).length
    from by
      show (0 : Nat) + (8 + (flatFrames fs).length) = 8 + (flatFrames fs).length
      omega] at hdirect
  have hQ' : 8 + (flatFrames (fs ++ [(p, c)])).length =
      8 + (flatFrames fs).length + (2 + p.length) := by
    rw [flatFrames_append]
    simp [flatFrames, frameBytes_length]
    omega
  have him1 : matchesImage (program dev (8 + (flatFrames fs).length)
      (toLE 2 (p.length ||| 0x8000)))
      (sectorImage magic fs ++ toLE 2 (p.length + 0x8000)) := by
    rw [or_8000_eq_add p.length (by omega)]
    have := matchesImage_program_append dev (sectorImage magic fs)
      (toLE 2 (p.length + 0x8000)) hm (toLE_mem_lt _ _)
    rwa [sectorImage_length] at this
  have hlen2' : (sectorImage magic fs ++ toLE 2 (p.length + 0x8000)).length =
      8 + (flatFrames fs).length + 2 := by
    rw [List.length_append, sectorImage_length, toLE_length]
  have him2 : matchesImage (program (program dev (8 + (flatFrames fs).length)
      (toLE 2 (p.length ||| 0x8000))) (8 + (flatFrames fs).length + 2) p)
      ((sectorImage magic fs ++ toLE 2 (p.length + 0x8000)) ++ p) := by
    have := matchesImage_program_append _
      (sectorImage magic fs ++ toLE 2 (p.length + 0x8000)) p him1 hpb
    rwa [hlen2'] at this
  refine ⟨(if c then
      commitRecord (program (program dev (8 + (flatFrames fs).length)
        (toLE 2 (p.length ||| 0x8000))) (8 + (flatFrames fs).length + 2) p)
        (8 + (flatFrames fs).length + 2)
    else program (program dev (8 + (flatFrames fs).length)
      (toLE 2 (p.length ||| 0x8000))) (8 + (flatFrames fs).length + 2) p),
    dev.sectorSize -
      (8 + (flatFrames fs).length + (2 + p.length) + 2), ?_, ?_, ?_, ?_⟩
  · have hbfn : beginWriteFn (fuel + 2) magic dev
        ⟨⟨1, 8, SectorState.Valid⟩, 0, 0, 8 + (flatFrames fs).length, mr⟩
        p.length =
        some (program dev (8 + (flatFrames fs).length)
            (toLE 2 (p.length ||| 0x8000)),
          ⟨⟨1, 8, SectorState.Valid⟩, 0, 0,
            8 + (flatFrames fs).length + (2 + p.length),
            dev.sectorSize - (8 + (flatFrames fs).length + (2 + p.length) + 2)⟩,
          8 + (flatFrames fs).length + 2, p.length) := hdirect
    simp only [doWrite, hbfn, Option.map_some', List.take_length, hQ']
  · cases c with
    | true =>
      have him2b : matchesImage (program (program dev
          (8 + (flatFrames fs).length) (toLE 2 (p.length ||| 0x8000)))
          (8 + (flatFrames fs).length + 2) p)
          (sectorImage magic fs ++ (toLE 2 (p.length + 0x8000) ++ p)) := by
        rw [← List.append_assoc]
        exact him2
      have hc := matchesImage_commit _ (sectorImage magic fs) p p.length him2b
        (by omega)
      rw [sectorImage_length] at hc
      have himg : sectorImage magic (fs ++ [(p, true)]) =
          sectorImage magic fs ++ (toLE 2 p.length ++ p) := by
        simp [sectorImage, flatFrames_append, flatFrames, frameBytes,
          List.append_assoc]
      rw [if_pos rfl, himg]
      exact hc
    | false =>
      have himg : sectorImage magic (fs ++ [(p, false)]) =
          (sectorImage magic fs ++ toLE 2 (p.length + 0x8000)) ++ p := by
        simp [sectorImage, flatFrames_append, flatFrames, frameBytes,
          List.append_assoc]
      rw [if_neg (by simp), himg]
      exact him2
  · cases c with
    | true => exact hdevT
    | false => exact hdevT
  · cases c with
    | true => exact hdevN
    | false => exact hdevN

theorem goodFrames_append (fs gs : List (List Nat × Bool))
    (h1 : goodFrames fs) (h2 : goodFrames gs) : goodFrames (fs ++ gs) :=
  fun f hf => (List.mem_append.mp hf).elim (h1 f) (h2 f)

/-- Running a list of further writes from a sector-0 journal state appends
all their frames in order. -/
theorem doWrites_image (magic T N fuel : Nat) :
    ∀ (todo fs : List (List Nat × Bool)) (dev : Device) (mr : Nat),
      dev.sectorSize = T → dev.size = N * T →
      matchesImage dev (sectorImage magic fs) →
      16 ≤ T → fs ≠ [] → goodFrames fs → goodFrames todo →
      (8 + (flatFrames (fs ++ todo)).length + 2 ≤ T ∨
        8 + (flatFrames (fs ++ todo)).length = T) →
      ∃ dev2 mr2,
        doWrites (fuel + 2) magic todo dev
          ⟨⟨1, 8, SectorState.Valid⟩, 0, 0, 8 + (flatFrames fs).length, mr⟩ =
          some (dev2, ⟨⟨1, 8, SectorState.Valid⟩, 0, 0,
            8 + (flatFrames (fs ++ todo)).length, mr2⟩) ∧
        matchesImage dev2 (sectorImage magic (fs ++ todo)) ∧
        dev2.sectorSize = T ∧ dev2.size = N * T := by
  intro todo
  induction todo with
  | nil =>
    intro fs dev mr hdevT hdevN hm h16 hne hgfs hgtodo hfit
    refine ⟨dev, mr, ?_, ?_, hdevT, hdevN⟩
    · rw [List.append_nil]
      rfl
    · rw [List.append_nil]
      exact hm
  | cons f rest ih =>
    rcases f with ⟨p, c⟩
    intro fs dev mr hdevT hdevN hm h16 hne hgfs hgtodo hfit
    have hp1 : 1 ≤ p.length := (hgtodo (p, c) (List.mem_cons_self _ _)).1
    have hp2 : p.length ≤ (if c then 0x7FFF else 0x7FFE) :=
      (hgtodo (p, c) (List.mem_cons_self _ _)).2.1
    have hp2A : p.length ≤ 0x7FFF := le_trans hp2 (by cases c <;> decide)
    have hpb : ∀ b ∈ p, b < 256 := (hgtodo (p, c) (List.mem_cons_self _ _)).2.2
    have hgrest : goodFrames rest :=
      fun f hf => hgtodo f (List.mem_cons_of_mem _ hf)
    have hgone : goodFrames [(p, c)] := by
      intro f hf
      rcases List.mem_singleton.mp hf with rfl
      exact ⟨hp1, hp2, hpb⟩
    have hflenA : (flatFrames (fs ++ (p, c) :: rest)).length =
        (flatFrames fs).length + (2 + p.length) + (flatFrames rest).length := by
      rw [flatFrames_append]
      simp [flatFrames, frameBytes_length]
      omega
    have hstepfit : 8 + (flatFrames fs).length + (2 + p.length) + 2 ≤ T ∨
        8 + (flatFrames fs).length + (2 + p.length) = T := by
      rw [hflenA] at hfit
      cases rest with
      | nil =>
        simp only [flatFrames, List.length_nil] at hfit
        omega
      | cons g gs =>
        have h3 := flatFrames_length_pos (g :: gs) (by simp) hgrest
        omega
    obtain ⟨dev2, mr2, heq, hm2, hT2, hN2⟩ := doWrite_next magic T N fuel dev mr
      fs p c hdevT hdevN hm h16 hne hgfs hp1 hp2A hpb hstepfit
    have hfit2 : 8 + (flatFrames ((fs ++ [(p, c)]) ++ rest)).length + 2 ≤ T ∨
        8 + (flatFrames ((fs ++ [(p, c)]) ++ rest)).length = T := by
      rw [List.append_assoc, List.singleton_append]
      exact hfit
    obtain ⟨dev3, mr3, heq3, hm3, hT3, hN3⟩ := ih (fs ++ [(p, c)]) dev2 mr2
      hT2 hN2 hm2 h16 (by simp) (goodFrames_append fs [(p, c)] hgfs hgone)
      hgrest hfit2
    rw [List.append_assoc, List.singleton_append] at heq3 hm3
    refine ⟨dev3, mr3, ?_, hm3, hT3, hN3⟩
    rw [doWrites, heq]
    exact heq3

/-- `Scan` and the forward enumeration on a fully erased journal: the state
stays at the zeroed registers and no records are returned. -/
theorem scan_collect_erased (magic T N : Nat) (h16 : 16 ≤ T) (hN : 1 ≤ N) :
    scanFn 1 1 magic (erasedDevice (N * T) T) initialState = some initialState ∧
    collectAll 1 1 magic (erasedDevice (N * T) T) initialState = some [] := by
  have hse : ∀ (a : Nat) (fo : Option SectorInfo),
      scanSector magic (erasedDevice (N * T) T) a fo =
        ⟨0xFFFFFFFF, 8, SectorState.Empty⟩ :=
    fun a fo => scanSector_empty magic _ a fo (fun i _ => rfl)
  have hphase : scanPhase1 magic (erasedDevice (N * T) T) = none := by
    rw [scanPhase1_eq]
    apply foldl_const
    intro k _
    simp only [scanPhase1Step, hse]
    rfl
  have hnum : (erasedDevice (N * T) T).numSectors = N := by
    show N * T / T = N
    rw [Nat.mul_comm]
    exact Nat.mul_div_cancel_left N (by omega)
  constructor
  · have hcore : scanCore 1 1 magic (erasedDevice (N * T) T) =
        some (SectorInfo.reset, 0, 0, 0) := by
      simp only [scanCore, hphase]
    simp only [scanFn, hcore, Option.map_some']
    rfl
  · have hns : nextSectorFn ((erasedDevice (N * T) T).numSectors + 1) magic
        (erasedDevice (N * T) T) initialState none = some (none, false) := by
      obtain ⟨K, hK⟩ : ∃ K, (erasedDevice (N * T) T).numSectors = K + 1 :=
        ⟨(erasedDevice (N * T) T).numSectors - 1, by omega⟩
      rw [hK, nextSectorFn]
      rw [if_neg (by simp)]
      show (if (scanSector magic (erasedDevice (N * T) T)
          initialState.firstSector none).IsValid = true then
          some (some initialState.firstSector, true)
        else nextSectorFn (K + 1) magic (erasedDevice (N * T) T) initialState
          (some initialState.firstSector)) = some (none, false)
      rw [if_neg (by rw [hse]; decide)]
      show nextSectorFn (K + 1) magic (erasedDevice (N * T) T) initialState
        (some 0) = some (none, false)
      rfl
    show collectSectors ((erasedDevice (N * T) T).numSectors + 1) 1 1 magic
      (erasedDevice (N * T) T) initialState none = some []
    obtain ⟨K, hK⟩ : ∃ K, (erasedDevice (N * T) T).numSectors = K + 1 :=
      ⟨(erasedDevice (N * T) T).numSectors - 1, by omega⟩
    rw [hK]
    rw [collectSectors]
    rw [hns]

/-- The full round trip on a fresh journal: run the write requests, re-scan,
then enumerate forward; exactly the committed payloads come back, in order.
-/
theorem journal_roundTrip (magic T N : Nat) (rs : List (List Nat × Bool))
    (h16 : 16 ≤ T) (hN : 1 ≤ N) (hmagic : magic < 2 ^ 32)
    (hgood : goodFrames rs)
    (hfit : 8 + (flatFrames rs).length + 2 ≤ T ∨
      8 + (flatFrames rs).length = T) :
    ∃ dev2 st2 st3,
      doWrites 2 magic rs (erasedDevice (N * T) T) initialState =
        some (dev2, st2) ∧
      scanFn (rs.length + 1) (rs.length + 1) magic dev2 st2 = some st3 ∧
      collectAll (rs.length + 1) (rs.length + 1) magic dev2 st3 =
        some (committedPayloads rs) := by
  cases rs with
  | nil =>
    obtain ⟨hscan, hcol⟩ := scan_collect_erased magic T N h16 hN
    exact ⟨erasedDevice (N * T) T, initialState, initialState, rfl, hscan, hcol⟩
  | cons f rest =>
    rcases f with ⟨p, c⟩
    have hp1 : 1 ≤ p.length := (hgood (p, c) (List.mem_cons_self _ _)).1
    have hp2 : p.length ≤ (if c then 0x7FFF else 0x7FFE) :=
      (hgood (p, c) (List.mem_cons_self _ _)).2.1
    have hp2A : p.length ≤ 0x7FFF := le_trans hp2 (by cases c <;> decide)
    have hpb : ∀ b ∈ p, b < 256 := (hgood (p, c) (List.mem_cons_self _ _)).2.2
    have hgrest : goodFrames rest :=
      fun f hf => hgood f (List.mem_cons_of_mem _ hf)
    have hgone : goodFrames [(p, c)] := by
      intro f hf
      rcases List.mem_singleton.mp hf with rfl
      exact ⟨hp1, hp2, hpb⟩
    have hflenA : (flatFrames ((p, c) :: rest)).length =
        2 + p.length + (flatFrames rest).length := by
      simp [flatFrames, frameBytes_length]
    have hfitfirst : 8 + (2 + p.length) ≤ T := by
      rw [hflenA] at hfit
      omega
    have hm0 : matchesImage (erasedDevice (N * T) T) [] :=
      matchesImage_erased (N * T) T
    obtain ⟨dev1, mr1, heq1, hm1, hT1, hN1⟩ := doWrite_first magic T N 0
      (erasedDevice (N * T) T) 0 p c hm0 rfl rfl h16 hN hp1 hp2A hpb hfitfirst
    have hfit2 : 8 + (flatFrames ([(p, c)] ++ rest)).length + 2 ≤ T ∨
        8 + (flatFrames ([(p, c)] ++ rest)).length = T := by
      rw [List.singleton_append]
      exact hfit
    obtain ⟨dev2, mr2, heq2, hm2, hT2, hN2⟩ := doWrites_image magic T N 0 rest
      [(p, c)] dev1 mr1 hT1 hN1 hm1 h16 (by simp) hgone hgrest hfit2
    rw [List.singleton_append] at heq2 hm2
    have hscan := scanFn_image magic T N dev2
      ⟨⟨1, 8, SectorState.Valid⟩, 0, 0,
        8 + (flatFrames ((p, c) :: rest)).length, mr2⟩
      ((p, c) :: rest) hm2 hT2 hN2 h16 hN hmagic hgood hfit
    have hcol := collectAll_image magic T N dev2
      ⟨⟨1, 8, SectorState.Valid⟩, 0, 0,
        (if 8 + (flatFrames ((p, c) :: rest)).length = T then 0
          else 8 + (flatFrames ((p, c) :: rest)).length), mr2⟩
      ((p, c) :: rest) hm2 hT2 hN2 h16 hN hmagic hgood hfit rfl rfl
    refine ⟨dev2, ⟨⟨1, 8, SectorState.Valid⟩, 0, 0,
      8 + (flatFrames ((p, c) :: rest)).length, mr2⟩,
      ⟨⟨1, 8, SectorState.Valid⟩, 0, 0,
        (if 8 + (flatFrames ((p, c) :: rest)).length = T then 0
          else 8 + (flatFrames ((p, c) :: rest)).length), mr2⟩, ?_, ?_, hcol⟩
    · rw [show initialState = (⟨SectorInfo.reset, 0, 0, 0, 0⟩ : EngState)
        from rfl]
      rw [doWrites]
      have heq1b : doWrite 2 magic (erasedDevice (N * T) T)
          ⟨SectorInfo.reset, 0, 0, 0, 0⟩ p c =
          some (dev1, ⟨⟨1, 8, SectorState.Valid⟩, 0, 0,
            8 + (flatFrames [(p, c)]).length, mr1⟩) := heq1
      rw [heq1b]
      have heq2b : doWrites 2 magic rest dev1
          ⟨⟨1, 8, SectorState.Valid⟩, 0, 0,
            8 + (flatFrames [(p, c)]).length, mr1⟩ =
          some (dev2, ⟨⟨1, 8, SectorState.Valid⟩, 0, 0,
            8 + (flatFrames ((p, c) :: rest)).length, mr2⟩) := heq2
      exact heq2b
    · exact hscan

/-! ### Multi-sector journal images and the greedy frame layout -/

/-- The 8-byte header image of a sector carrying sequence `seq`. -/
def headerImageSeq (magic seq : Nat) : List Nat := toLE 4 magic ++ toLE 4 seq

/-- Pad an image to the sector size with erased bytes. -/
def padTo (T : Nat) (img : List Nat) : List Nat :=
  img ++ List.replicate (T - img.length) 255

/-- Byte image of consecutive ring sectors starting at sequence `s`: every
sector but the last is padded to the sector size. -/
def multiImage (magic T : Nat) : Nat → List (List (List Nat × Bool)) → List Nat
  | _, [] => []
  | s, sec :: rest =>
    if rest.isEmpty then headerImageSeq magic s ++ flatFrames sec
    else padTo T (headerImageSeq magic s ++ flatFrames sec) ++
      multiImage magic T (s + 1) rest

/-- The greedy per-sector grouping the engine's sector rotation produces: a
frame goes into the current sector when it fits before the sector end,
otherwise it opens a fresh sector at the first record offset 8. -/
def layoutGo (T : Nat) : List (List Nat × Bool) → Nat →
    List (List Nat × Bool) → List (List (List Nat × Bool))
  | [], _, cur => [cur]
  | f :: rest, q, cur =>
    if q + (2 + f.1.length) ≤ T then
      layoutGo T rest (q + (2 + f.1.length)) (cur ++ [f])
    else cur :: layoutGo T rest (8 + (2 + f.1.length)) [f]

/-- Sector grouping of a whole request sequence on a fresh journal. -/
def layout (T : Nat) (rs : List (List Nat × Bool)) :
    List (List (List Nat × Bool)) :=
  layoutGo T rs 8 []

theorem headerImageSeq_length (magic seq : Nat) :
    (headerImageSeq magic seq).length = 8 := by
  simp [headerImageSeq, toLE_length]

theorem headerImage_eq_seq (magic : Nat) :
    headerImage magic = headerImageSeq magic 1 := rfl

theorem padTo_length (T : Nat) (img : List Nat) (h : img.length ≤ T) :
    (padTo T img).length = T := by
  simp [padTo]
  omega

theorem getD_replicate_255 (n y : Nat) :
    (List.replicate n 255).getD y 255 = 255 := by
  by_cases h : y < n
  · rw [List.getD_eq_getElem _ _ (by simpa using h)]
    exact List.getElem_replicate _ _
  · exact getD_eq_default _ _ _ (by simpa using Nat.le_of_not_lt h)

theorem padTo_getD (T : Nat) (img : List Nat) (x : Nat) :
    (padTo T img).getD x 255 = img.getD x 255 := by
  by_cases hx : x < img.length
  · rw [padTo, getD_append_lemma, if_pos hx]
  · rw [padTo, getD_append_lemma, if_neg hx,
      getD_eq_default img x 255 (by omega), getD_replicate_255]

theorem multiImage_single (magic T s : Nat) (sec : List (List Nat × Bool)) :
    multiImage magic T s [sec] = headerImageSeq magic s ++ flatFrames sec := by
  simp [multiImage]

theorem multiImage_cons (magic T s : Nat) (sec : List (List Nat × Bool))
    (rest : List (List (List Nat × Bool))) (hne : rest ≠ []) :
    multiImage magic T s (sec :: rest) =
      padTo T (headerImageSeq magic s ++ flatFrames sec) ++
        multiImage magic T (s + 1) rest := by
  rw [multiImage, if_neg (by simp [hne])]

theorem multiImage_length (magic T : Nat) :
    ∀ (secs : List (List (List Nat × Bool))) (cur : List (List Nat × Bool))
      (s : Nat),
      (∀ sec ∈ secs, 8 + (flatFrames sec).length ≤ T) →
      (multiImage magic T s (secs ++ [cur])).length =
        secs.length * T + (8 + (flatFrames cur).length) := by
  intro secs
  induction secs with
  | nil =>
    intro cur s _
    rw [List.nil_append, multiImage_single, List.length_append,
      headerImageSeq_length, List.length_nil, Nat.zero_mul]
    omega
  | cons sec secs ih =>
    intro cur s hfill
    have hsec : 8 + (flatFrames sec).length ≤ T :=
      hfill sec (List.mem_cons_self _ _)
    rw [List.cons_append,
      multiImage_cons magic T s sec (secs ++ [cur]) (by simp),
      List.length_append,
      padTo_length _ _ (by rw [List.length_append, headerImageSeq_length]; omega),
      ih cur (s + 1) (fun x hx => hfill x (List.mem_cons_of_mem _ hx)),
      List.length_cons, Nat.succ_mul]
    omega

theorem multiImage_view (magic T : Nat) :
    ∀ (secs : List (List (List Nat × Bool))) (s j : Nat), j < secs.length →
      (∀ sec ∈ secs, 8 + (flatFrames sec).length ≤ T) →
      ∀ x < T, (multiImage magic T s secs).getD (j * T + x) 255 =
        (headerImageSeq magic (s + j) ++ flatFrames (secs.getD j [])).getD
          x 255 := by
  intro secs
  induction secs with
  | nil =>
    intro s j hj
    simp at hj
  | cons sec rest ih =>
    intro s j hj hfill x hx
    cases rest with
    | nil =>
      have hj0 : j = 0 := by
        rw [List.length_cons, List.length_nil] at hj
        omega
      subst hj0
      rw [multiImage_single, Nat.zero_mul, Nat.zero_add, Nat.add_zero]
      rfl
    | cons sec2 rest2 =>
      have hsec : 8 + (flatFrames sec).length ≤ T :=
        hfill sec (List.mem_cons_self _ _)
      have hlen1 : (headerImageSeq magic s ++ flatFrames sec).length ≤ T := by
        rw [List.length_append, headerImageSeq_length]
        omega
      rw [multiImage_cons magic T s sec (sec2 :: rest2) (by simp)]
      cases j with
      | zero =>
        rw [Nat.zero_mul, Nat.zero_add, getD_append_lemma,
          if_pos (by rw [padTo_length _ _ hlen1]; exact hx),
          padTo_getD, Nat.add_zero]
        rfl
      | succ j =>
        rw [show (j + 1) * T + x = T + (j * T + x) from by
            rw [Nat.succ_mul]; omega,
          getD_append_lemma, padTo_length _ _ hlen1, if_neg (by omega),
          show T + (j * T + x) - T = j * T + x from by omega]
        rw [ih (s + 1) j (by rw [List.length_cons] at hj; omega)
          (fun y hy => hfill y (List.mem_cons_of_mem _ hy)) x hx]
        rw [show s + 1 + j = s + (j + 1) from by omega]
        rfl

/-! ### Scanning a multi-sector journal image -/

theorem readBytes_headerImageSeq (magic seq : Nat) (dev : Device)
    (img : List Nat) (base : Nat) (hm : matchesImage dev img)
    (hsz : base + 8 ≤ dev.size)
    (hhdr : ∀ i < 8, img.getD (base + i) 255 =
      (headerImageSeq magic seq).getD i 255) :
    readBytes dev base 8 = headerImageSeq magic seq := by
  have hlen : (headerImageSeq magic seq).length = 8 :=
    headerImageSeq_length magic seq
  have := readBytes_image dev img base (headerImageSeq magic seq) hm
    (by omega) ?_
  · rw [hlen] at this
    exact this
  · intro i hi
    rw [hlen] at hi
    exact hhdr i hi

/-- `ScanSector` of an aligned sector whose image holds magic and a live
sequence `seq`: the sector reads back Valid, or ValidPreceding exactly when
the `following` info carries the successor sequence. -/
theorem scanSector_image_at (magic seq : Nat) (dev : Device) (img : List Nat)
    (base : Nat) (fo : Option SectorInfo)
    (hm : matchesImage dev img) (hbase : dev.sectorAddress base = base)
    (hsz : base + 8 ≤ dev.size) (hmagic : magic < 2 ^ 32)
    (hseq : seq < 2 ^ 32) (hseqne : seq ≠ 2 ^ 32 - 1)
    (hhdr : ∀ i < 8, img.getD (base + i) 255 =
      (headerImageSeq magic seq).getD i 255) :
    scanSector magic dev base fo = ⟨seq, 8,
      match fo with
      | some f => if (seq + 1) % 2 ^ 32 == f.sequence then
          SectorState.ValidPreceding
        else SectorState.Valid
      | none => SectorState.Valid⟩ := by
  have h8 := readBytes_headerImageSeq magic seq dev img base hm hsz hhdr
  have hsplit := readBytes_add dev base 4 4
  rw [show (4 : Nat) + 4 = 8 from rfl] at hsplit
  have happ : readBytes dev base 4 ++ readBytes dev (base + 4) 4 =
      toLE 4 magic ++ toLE 4 seq := by
    rw [← hsplit, h8, headerImageSeq]
  have hparts := List.append_inj happ (by simp [readBytes, toLE_length])
  have hmLE : readLE dev base 4 = magic := by
    rw [readLE, hparts.1, leVal_toLE,
      show (256 : Nat) ^ 4 = 2 ^ 32 by norm_num]
    exact Nat.mod_eq_of_lt hmagic
  have hsLE : readLE dev (base + 4) 4 = seq := by
    rw [readLE, hparts.2, leVal_toLE,
      show (256 : Nat) ^ 4 = 2 ^ 32 by norm_num]
    exact Nat.mod_eq_of_lt hseq
  have hseqall : (toLE 4 seq).all (· == 255) = false := by
    cases hc : (toLE 4 seq).all (· == 255) with
    | false => rfl
    | true =>
      have h1 := (toLE_all_ones_iff 4 seq
        (by rw [show (256 : Nat) ^ 4 = 2 ^ 32 by norm_num]; exact hseq)).mp hc
      rw [show (256 : Nat) ^ 4 = 2 ^ 32 by norm_num] at h1
      exact absurd h1 hseqne
  have hall : (readBytes dev base 8).all (· == 255) = false := by
    rw [h8, headerImageSeq, List.all_append, hseqall, Bool.and_false]
  simp only [scanSector, hbase, hmLE, hsLE]
  rw [if_neg (by simp [hall]), if_neg (by simp)]

theorem scanSector_image_at_none (magic seq : Nat) (dev : Device)
    (img : List Nat) (base : Nat)
    (hm : matchesImage dev img) (hbase : dev.sectorAddress base = base)
    (hsz : base + 8 ≤ dev.size) (hmagic : magic < 2 ^ 32)
    (hseq : seq < 2 ^ 32) (hseqne : seq ≠ 2 ^ 32 - 1)
    (hhdr : ∀ i < 8, img.getD (base + i) 255 =
      (headerImageSeq magic seq).getD i 255) :
    scanSector magic dev base none = ⟨seq, 8, SectorState.Valid⟩ :=
  scanSector_image_at magic seq dev img base none hm hbase hsz hmagic hseq
    hseqne hhdr

theorem scanSector_image_at_prec (magic seq : Nat) (dev : Device)
    (img : List Nat) (base : Nat) (f : SectorInfo)
    (hm : matchesImage dev img) (hbase : dev.sectorAddress base = base)
    (hsz : base + 8 ≤ dev.size) (hmagic : magic < 2 ^ 32)
    (hseq1 : seq + 1 < 2 ^ 32) (hf : f.sequence = seq + 1)
    (hhdr : ∀ i < 8, img.getD (base + i) 255 =
      (headerImageSeq magic seq).getD i 255) :
    scanSector magic dev base (some f) =
      ⟨seq, 8, SectorState.ValidPreceding⟩ := by
  rw [scanSector_image_at magic seq dev img base (some f) hm hbase hsz hmagic
    (by omega) (by omega) hhdr]
  show (⟨seq, 8, if (seq + 1) % 2 ^ 32 == f.sequence then
      SectorState.ValidPreceding else SectorState.Valid⟩ : SectorInfo) = _
  rw [Nat.mod_eq_of_lt hseq1, hf, if_pos (by simp)]

/-- `ScanSector` of an aligned sector lying entirely past the image: erased,
hence Empty. -/
theorem scanSector_empty_beyond (magic : Nat) (dev : Device) (img : List Nat)
    (a : Nat) (fo : Option SectorInfo) (hm : matchesImage dev img)
    (haligned : dev.sectorAddress a = a) (hsz : a + 8 ≤ dev.size)
    (hbeyond : img.length ≤ a) :
    scanSector magic dev a fo = ⟨0xFFFFFFFF, 8, SectorState.Empty⟩ := by
  apply scanSector_empty
  intro i hi
  rw [haligned, hm (a + i) (by omega)]
  exact getD_eq_default img _ 255 (by omega)

theorem ovfGT_succ_self (j : Nat) (h : j < 2 ^ 32) : ovfGT (j + 1) j = true := by
  simp only [ovfGT]
  rw [Nat.mod_eq_of_lt h,
    show j + 1 + 2 ^ 32 - j = 2 ^ 32 + 1 from by omega,
    show (2 ^ 32 + 1) % 2 ^ 32 = 1 from by norm_num]
  decide

theorem ovfGT_succ_one (j : Nat) (h1 : 1 ≤ j) (h2 : j < 2 ^ 31) :
    ovfGT (j + 1) 1 = true := by
  simp only [ovfGT]
  rw [show (1 : Nat) % 2 ^ 32 = 1 from by norm_num,
    show j + 1 + 2 ^ 32 - 1 = j + 2 ^ 32 from by omega,
    Nat.add_mod_right, Nat.mod_eq_of_lt (by
      have : (2 : Nat) ^ 31 < 2 ^ 32 := by norm_num
      omega)]
  simp only [Bool.and_eq_true, decide_eq_true_eq]
  exact ⟨by omega, h2⟩

/-- Phase 1 of `Scan` over the first `j + 1` ring sectors when sectors
`0..j` are Valid with sequences `1..j+1`: the fold keeps upgrading to the
latest sector. -/
theorem scanPhase1_fold_upto (magic T : Nat) (dev : Device) (K : Nat)
    (hdevT : dev.sectorSize = T) (hK31 : K < 2 ^ 31)
    (hscan : ∀ j ≤ K, scanSector magic dev (j * T) none =
      ⟨j + 1, 8, SectorState.Valid⟩) :
    ∀ j ≤ K, (List.range (j + 1)).foldl (scanPhase1Step magic dev) none =
      some (j * T, ⟨j + 1, 8, SectorState.Valid⟩, 1) := by
  intro j
  induction j with
  | zero =>
    intro _
    rw [show List.range 1 = [0] from rfl, List.foldl_cons, List.foldl_nil]
    have h0 : scanSector magic dev 0 none = ⟨1, 8, SectorState.Valid⟩ := by
      have := hscan 0 (by omega)
      rwa [Nat.zero_mul] at this
    simp only [scanPhase1Step, Nat.zero_mul, h0]
    rfl
  | succ j ih =>
    intro hj
    rw [List.range_succ, List.foldl_append, ih (by omega), List.foldl_cons,
      List.foldl_nil]
    have hsc : scanSector magic dev ((j + 1) * dev.sectorSize) none =
        ⟨j + 1 + 1, 8, SectorState.Valid⟩ := by
      rw [hdevT]
      exact hscan (j + 1) hj
    simp only [scanPhase1Step, hsc]
    rw [show ((⟨j + 1 + 1, 8, SectorState.Valid⟩ : SectorInfo).IsEmpty) = false
        from rfl,
      show ((⟨j + 1 + 1, 8, SectorState.Valid⟩ : SectorInfo).IsValid) = true
        from rfl]
    rw [if_neg (by simp), if_neg (by simp)]
    rw [ovfGT_succ_self (j + 1) (by
        have : (2 : Nat) ^ 31 < 2 ^ 32 := by norm_num
        omega),
      ovfGT_succ_one (j + 1) (by omega) (by omega), Bool.and_self,
      if_pos rfl, hdevT]

/-- Phase 1 of `Scan` on a `K + 1`-sector journal image: the last written
sector `K` wins with sequence `K + 1` and `baseSeq` 1. -/
theorem scanPhase1_image_multi (magic T N K : Nat) (dev : Device)
    (hdevT : dev.sectorSize = T) (hdevN : dev.size = N * T) (hT : 0 < T)
    (hKN : K < N) (hK31 : K < 2 ^ 31)
    (hscan : ∀ j ≤ K, scanSector magic dev (j * T) none =
      ⟨j + 1, 8, SectorState.Valid⟩)
    (hempty : ∀ j, K < j → j < N →
      scanSector magic dev (j * T) none = ⟨0xFFFFFFFF, 8, SectorState.Empty⟩) :
    scanPhase1 magic dev = some (K * T, ⟨K + 1, 8, SectorState.Valid⟩, 1) := by
  have hnum : dev.numSectors = N := by
    rw [Device.numSectors, hdevN, hdevT, Nat.mul_comm]
    exact Nat.mul_div_cancel_left N (by omega)
  rw [scanPhase1_eq, hnum, show N = (K + 1) + (N - K - 1) from by omega,
    List.range_add, List.foldl_append,
    scanPhase1_fold_upto magic T dev K hdevT hK31 hscan K (le_refl K)]
  apply foldl_const
  intro k hk
  rcases List.mem_map.mp hk with ⟨i, hi, rfl⟩
  have hiM : i < N - K - 1 := List.mem_range.mp hi
  have hse : scanSector magic dev ((K + 1 + i) * dev.sectorSize) none =
      ⟨0xFFFFFFFF, 8, SectorState.Empty⟩ := by
    rw [hdevT]
    exact hempty (K + 1 + i) (by omega) (by omega)
  simp only [scanPhase1Step, hse]
  rfl

theorem ringBack_desc_eq (dev : Device) (T : Nat) (hdevT : dev.sectorSize = T)
    (hT : 0 < T) :
    ∀ (n m : Nat), n ≤ m → ringBack dev n (m * T) =
      (List.range n).map (fun i => (m - 1 - i) * T) := by
  intro n
  induction n with
  | zero =>
    intro m _
    rfl
  | succ n ih =>
    intro m hnm
    rw [ringBack]
    have hprev : prevSectorAddr dev (m * T) = (m - 1) * T := by
      rw [prevSectorAddr, if_neg (Nat.mul_ne_zero (by omega) (by omega)), hdevT,
        Nat.sub_one_mul]
    rw [hprev, ih (m - 1) (by omega), List.range_succ_eq_map, List.map_cons,
      List.map_map]
    congr 1
    apply List.map_congr_left
    intro i _
    show (m - 1 - 1 - i) * T = (m - 1 - (i + 1)) * T
    congr 1
    omega

theorem ringBack_zero_eq (dev : Device) (T N : Nat)
    (hdevT : dev.sectorSize = T) (hdevN : dev.size = N * T) (hT : 0 < T)
    (hN : 1 ≤ N) :
    ∀ n, n ≤ N - 1 → ringBack dev n 0 =
      (List.range n).map (fun i => (N - 1 - i) * T) := by
  intro n hn
  cases n with
  | zero => rfl
  | succ n =>
    rw [ringBack]
    have hprev0 : prevSectorAddr dev 0 = (N - 1) * T := by
      rw [prevSectorAddr, if_pos rfl, hdevT, hdevN, Nat.sub_one_mul]
    rw [hprev0, ringBack_desc_eq dev T hdevT hT n (N - 1) (by omega),
      List.range_succ_eq_map, List.map_cons, List.map_map]
    congr 1
    apply List.map_congr_left
    intro i _
    show (N - 1 - 1 - i) * T = (N - 1 - (i + 1)) * T
    congr 1
    omega

/-- The backward `ValidPreceding` chain of `Scan`: descending from sector
`j` it consumes the `j` preceding sectors and lands on sector 0. -/
theorem scanBack_fold_desc (magic T K : Nat) (dev : Device)
    (hdevT : dev.sectorSize = T) (hT : 0 < T)
    (hprec : ∀ j < K, ∀ f : SectorInfo, f.sequence = j + 2 →
      scanSector magic dev (j * T) (some f) =
        ⟨j + 1, 8, SectorState.ValidPreceding⟩) :
    ∀ j, j ≤ K → ∀ n, j ≤ n → ∀ si : SectorInfo, si.sequence = j + 1 →
      ∃ si0 : SectorInfo, si0.sequence = 1 ∧
        (ringBack dev n (j * T)).foldl (scanBackStep magic dev)
          (j * T, si, false) =
        (ringBack dev (n - j) 0).foldl (scanBackStep magic dev)
          (0, si0, false) := by
  intro j
  induction j with
  | zero =>
    intro _ n _ si hsi
    exact ⟨si, hsi, by rw [Nat.zero_mul, Nat.sub_zero]⟩
  | succ j ih =>
    intro hjK n hjn si hsi
    obtain ⟨n', rfl⟩ : ∃ n', n = n' + 1 := ⟨n - 1, by omega⟩
    rw [ringBack]
    have hprev : prevSectorAddr dev ((j + 1) * T) = j * T := by
      rw [prevSectorAddr, if_neg (Nat.mul_ne_zero (by omega) (by omega)), hdevT,
        Nat.succ_mul]
      omega
    rw [hprev, List.foldl_cons]
    have hstep : scanBackStep magic dev ((j + 1) * T, si, false) (j * T) =
        (j * T, ⟨j + 1, 8, SectorState.ValidPreceding⟩, false) := by
      simp only [scanBackStep]
      rw [if_neg (by simp)]
      rw [hprec j (by omega) si (by omega)]
      have hp : (⟨j + 1, 8, SectorState.ValidPreceding⟩ :
          SectorInfo).IsPreceding = true := rfl
      rw [if_pos hp]
    rw [hstep]
    obtain ⟨si0, h1, h2⟩ := ih (by omega) n' (by omega)
      ⟨j + 1, 8, SectorState.ValidPreceding⟩ rfl
    exact ⟨si0, h1, by
      rw [show n' + 1 - (j + 1) = n' - j from by omega]
      exact h2⟩

/-- The wrap-around part of the backward walk only meets erased sectors and
leaves the accumulator alone. -/
theorem scanBack_fold_wrap (magic T N K : Nat) (dev : Device)
    (hdevT : dev.sectorSize = T) (hdevN : dev.size = N * T) (hT : 0 < T)
    (hN : 1 ≤ N)
    (hempty : ∀ j, K < j → j < N → ∀ fo : Option SectorInfo,
      scanSector magic dev (j * T) fo = ⟨0xFFFFFFFF, 8, SectorState.Empty⟩) :
    ∀ m, m ≤ N - 1 - K → ∀ acc0 : Nat × SectorInfo × Bool,
      (ringBack dev m 0).foldl (scanBackStep magic dev) acc0 = acc0 := by
  intro m hm acc0
  apply foldl_const
  intro addr haddr
  rw [ringBack_zero_eq dev T N hdevT hdevN hT hN m (by omega)] at haddr
  obtain ⟨i, hi, rfl⟩ := List.mem_map.mp haddr
  have hiN := List.mem_range.mp hi
  simp only [scanBackStep]
  by_cases hstop : acc0.2.2 = true
  · rw [if_pos hstop]
  · rw [if_neg hstop, hempty (N - 1 - i) (by omega) (by omega) _]
    rw [if_neg (by decide), if_neg (by decide)]

/-- The backward walk of `Scan` from the last written sector `K` of a
multi-sector image finds sector 0 as `firstSector`. -/
theorem scanBack_image_multi (magic T N K : Nat) (dev : Device)
    (hdevT : dev.sectorSize = T) (hdevN : dev.size = N * T) (hT : 0 < T)
    (hN : 1 ≤ N) (hKN : K < N)
    (hprec : ∀ j < K, ∀ f : SectorInfo, f.sequence = j + 2 →
      scanSector magic dev (j * T) (some f) =
        ⟨j + 1, 8, SectorState.ValidPreceding⟩)
    (hempty : ∀ j, K < j → j < N → ∀ fo : Option SectorInfo,
      scanSector magic dev (j * T) fo = ⟨0xFFFFFFFF, 8, SectorState.Empty⟩)
    (siLast : SectorInfo) (hsl : siLast.sequence = K + 1) :
    (scanBack magic dev (K * T) siLast).1 = 0 := by
  have hnum : dev.numSectors = N := by
    rw [Device.numSectors, hdevN, hdevT, Nat.mul_comm]
    exact Nat.mul_div_cancel_left N (by omega)
  rw [scanBack_eq, hnum]
  obtain ⟨si0, _, hfold⟩ := scanBack_fold_desc magic T K dev hdevT hT hprec
    K (le_refl K) (N - 1) (by omega) siLast hsl
  rw [hfold, scanBack_fold_wrap magic T N K dev hdevT hdevN hT hN hempty
    (N - 1 - K) (le_refl _) (0, si0, false)]

theorem getD_append_length {α : Type} (l : List α) (a d : α) :
    (l ++ [a]).getD l.length d = a := by
  induction l with
  | nil => rfl
  | cons x xs ih =>
    rw [List.cons_append, List.length_cons, List.getD_cons_succ]
    exact ih

theorem getD_append_lt {α : Type} (l1 l2 : List α) (j : Nat) (d : α)
    (h : j < l1.length) : (l1 ++ l2).getD j d = l1.getD j d := by
  induction l1 generalizing j with
  | nil => simp at h
  | cons x xs ih =>
    cases j with
    | zero => rfl
    | succ j =>
      rw [List.cons_append, List.getD_cons_succ, List.getD_cons_succ]
      exact ih j (by rw [List.length_cons] at h; omega)

theorem getD_mem_of_lt {α : Type} (l : List α) (j : Nat) (d : α)
    (h : j < l.length) : l.getD j d ∈ l := by
  rw [List.getD_eq_getElem _ _ h]
  exact List.getElem_mem h

theorem drop_eq_getD_cons {α : Type} (l : List α) (n : Nat) (d : α)
    (h : n < l.length) : l.drop n = l.getD n d :: l.drop (n + 1) := by
  rw [List.getD_eq_getElem _ _ h]
  exact List.drop_eq_getElem_cons h

theorem committedPayloads_flat :
    ∀ L : List (List (List Nat × Bool)),
      (L.map committedPayloads).join = committedPayloads L.join := by
  intro L
  induction L with
  | nil => rfl
  | cons x xs ih =>
    rw [List.map_cons,
      show (committedPayloads x :: List.map committedPayloads xs).join =
        committedPayloads x ++ (List.map committedPayloads xs).join from rfl,
      show (x :: xs).join = x ++ xs.join from rfl,
      committedPayloads_append, ih]

theorem length_le_join {α : Type} :
    ∀ (L : List (List α)) (x : List α), x ∈ L → x.length ≤ L.join.length := by
  intro L
  induction L with
  | nil =>
    intro x hx
    simp at hx
  | cons y ys ih =>
    intro x hx
    rw [show (y :: ys).join = y ++ ys.join from rfl, List.length_append]
    rcases List.mem_cons.mp hx with rfl | h
    · omega
    · have := ih x h
      omega

theorem layoutGo_join (T : Nat) :
    ∀ (rs : List (List Nat × Bool)) (q : Nat) (cur : List (List Nat × Bool)),
      (layoutGo T rs q cur).join = cur ++ rs := by
  intro rs
  induction rs with
  | nil =>
    intro q cur
    simp [layoutGo]
  | cons f rest ih =>
    intro q cur
    rw [layoutGo]
    split
    · rw [ih]
      simp
    · rw [show (cur :: layoutGo T rest (8 + (2 + f.1.length)) [f]).join =
          cur ++ (layoutGo T rest (8 + (2 + f.1.length)) [f]).join from rfl,
        ih]
      simp

theorem layoutGo_ne_nil (T : Nat) :
    ∀ (rs : List (List Nat × Bool)) (q : Nat) (cur : List (List Nat × Bool)),
      layoutGo T rs q cur ≠ [] := by
  intro rs
  induction rs with
  | nil =>
    intro q cur
    simp [layoutGo]
  | cons f rest ih =>
    intro q cur
    rw [layoutGo]
    split
    · exact ih _ _
    · simp

theorem layoutGo_fill (T : Nat) :
    ∀ (rs : List (List Nat × Bool)) (q : Nat) (cur : List (List Nat × Bool)),
      q = 8 + (flatFrames cur).length → q ≤ T →
      (∀ f ∈ rs, f.1.length + 10 ≤ T) →
      ∀ sec ∈ layoutGo T rs q cur, 8 + (flatFrames sec).length ≤ T := by
  intro rs
  induction rs with
  | nil =>
    intro q cur hq hqT _ sec hsec
    rw [layoutGo] at hsec
    rcases List.mem_singleton.mp hsec with rfl
    omega
  | cons f rest ih =>
    intro q cur hq hqT hfits sec hsec
    have hflen1 : (flatFrames (cur ++ [f])).length =
        (flatFrames cur).length + (2 + f.1.length) := by
      rw [flatFrames_append]
      simp [flatFrames, frameBytes_length]
    have hflen2 : (flatFrames [f]).length = 2 + f.1.length := by
      simp [flatFrames, frameBytes_length]
    rw [layoutGo] at hsec
    split at hsec
    · rename_i hle
      exact ih _ _ (by rw [hflen1]; omega) (by omega)
        (fun g hg => hfits g (List.mem_cons_of_mem _ hg)) sec hsec
    · rcases List.mem_cons.mp hsec with rfl | h
      · omega
      · have hf10 := hfits f (List.mem_cons_self _ _)
        exact ih _ _ (by rw [hflen2]) (by omega)
          (fun g hg => hfits g (List.mem_cons_of_mem _ hg)) sec h

/-- Per-sector byte facts the scan needs, read off the multi-sector image:
header bytes, frame bytes, and the erased tail of each sector. -/
theorem multiImage_sector_facts (magic T : Nat)
    (secs : List (List (List Nat × Bool))) (cur : List (List Nat × Bool))
    (hfill : ∀ sec ∈ secs ++ [cur], 8 + (flatFrames sec).length ≤ T)
    (h16 : 16 ≤ T) :
    ∀ j < (secs ++ [cur]).length,
      (∀ i < 8, (multiImage magic T 1 (secs ++ [cur])).getD (j * T + i) 255 =
        (headerImageSeq magic (j + 1)).getD i 255) ∧
      (∀ i < (flatFrames ((secs ++ [cur]).getD j [])).length,
        (multiImage magic T 1 (secs ++ [cur])).getD (j * T + (8 + i)) 255 =
          (flatFrames ((secs ++ [cur]).getD j [])).getD i 255) ∧
      (∀ x, 8 + (flatFrames ((secs ++ [cur]).getD j [])).length ≤ x → x < T →
        (multiImage magic T 1 (secs ++ [cur])).getD (j * T + x) 255 = 255) := by
  intro j hj
  have hview := multiImage_view magic T (secs ++ [cur]) 1 j hj hfill
  rw [show 1 + j = j + 1 from by omega] at hview
  have hflenj : 8 + (flatFrames ((secs ++ [cur]).getD j [])).length ≤ T :=
    hfill _ (getD_mem_of_lt _ j [] hj)
  refine ⟨?_, ?_, ?_⟩
  · intro i hi
    rw [hview i (by omega), getD_append_lemma, headerImageSeq_length,
      if_pos hi]
  · intro i hi
    rw [hview (8 + i) (by omega), getD_append_lemma, headerImageSeq_length,
      if_neg (by omega), show 8 + i - 8 = i from by omega]
  · intro x hx1 hx2
    rw [hview x hx2, getD_append_lemma, headerImageSeq_length,
      if_neg (by omega)]
    exact getD_eq_default _ _ _ (by omega)

/-- The first `NextRecord` call on a fresh enumerator rescans the sector
header; with a non-Bad scan result it proceeds exactly like an enumerator
already aimed at the first record. -/
theorem nextRecordFn_rescan (fuel magic : Nat) (dev : Device) (a : Nat)
    (si : SectorInfo)
    (hscan : scanSector magic dev (dev.sectorAddress a) none = si)
    (hbad : si.IsBad = false) :
    nextRecordFn fuel magic dev ⟨a, a, 0, SectorInfo.reset⟩ =
      nextRecordFn fuel magic dev ⟨a, a + si.firstRecord, 0, si⟩ := by
  have h1 : ((a == a) && SectorInfo.reset.IsBad) = true := by
    rw [beq_self_eq_true, Bool.true_and]
    rfl
  have h2 : ((a == a + si.firstRecord) && si.IsBad) = false := by
    rw [hbad, Bool.and_false]
  simp only [nextRecordFn, h1, h2, hscan]
  rw [if_pos (show True from trivial),
    if_neg (show ¬((false : Bool) = true) from by simp)]

/-- `Scan` on a journal whose image spans sectors `0..K` (sequences
`1..K+1`, all later ring sectors erased): it selects sector `K` as
`lastSector`, walks its records for `freeOffset`, and chains the
`ValidPreceding` sectors back to sector 0 as `firstSector`. -/
theorem scanFn_image_multi (magic T N K cf : Nat) (dev : Device)
    (st : EngState) (secs : List (List (List Nat × Bool)))
    (cur : List (List Nat × Bool)) (hK : secs.length = K)
    (hm : matchesImage dev (multiImage magic T 1 (secs ++ [cur])))
    (hdevT : dev.sectorSize = T) (hdevN : dev.size = N * T)
    (h16 : 16 ≤ T) (hKN : K < N) (hN31 : N ≤ 2 ^ 31) (hmagic : magic < 2 ^ 32)
    (hgood : ∀ sec ∈ secs ++ [cur], goodFrames sec)
    (hfit : ∀ sec ∈ secs ++ [cur],
      8 + (flatFrames sec).length + 2 ≤ T ∨ 8 + (flatFrames sec).length = T)
    (hcf : ∀ sec ∈ secs ++ [cur], sec.length < cf) :
    scanFn cf cf magic dev st =
      some ⟨⟨K + 1, 8, SectorState.Valid⟩, 0, K * T,
        (if 8 + (flatFrames cur).length = T then 0
         else 8 + (flatFrames cur).length), st.maxRecord⟩ := by
  have h2e : (2 : Nat) ^ 31 < 2 ^ 32 := by norm_num
  have hfill : ∀ sec ∈ secs ++ [cur], 8 + (flatFrames sec).length ≤ T := by
    intro sec hsec
    rcases hfit sec hsec with h | h <;> omega
  have hcur_mem : cur ∈ secs ++ [cur] :=
    List.mem_append.mpr (Or.inr (List.mem_singleton.mpr rfl))
  have hfillc := hfill cur hcur_mem
  have himglen : (multiImage magic T 1 (secs ++ [cur])).length =
      K * T + (8 + (flatFrames cur).length) := by
    rw [← hK]
    exact multiImage_length magic T secs cur 1
      (fun sec hsec => hfill sec (List.mem_append.mpr (Or.inl hsec)))
  have hall_len : (secs ++ [cur]).length = K + 1 := by
    rw [List.length_append, hK]
    rfl
  have hsec_facts := multiImage_sector_facts magic T secs cur hfill h16
  have hcurD : (secs ++ [cur]).getD K [] = cur := by
    rw [← hK]
    exact getD_append_length secs cur []
  have haddr : ∀ j : Nat, dev.sectorAddress (j * T) = j * T := by
    intro j
    exact sectorAddress_of_aligned dev _ (by rw [hdevT]; omega)
      (by rw [hdevT]; exact Nat.mul_mod_left j T)
  have hjsz : ∀ j, j < N → j * T + 8 ≤ dev.size := by
    intro j hj
    have h2 : (j + 1) * T ≤ N * T := Nat.mul_le_mul_right T (by omega)
    rw [Nat.succ_mul] at h2
    rw [hdevN]
    omega
  have hscanV : ∀ j ≤ K, scanSector magic dev (j * T) none =
      ⟨j + 1, 8, SectorState.Valid⟩ := by
    intro j hj
    exact scanSector_image_at_none magic (j + 1) dev _ (j * T) hm (haddr j)
      (hjsz j (by omega)) hmagic (by omega) (by omega)
      (fun i hi => (hsec_facts j (by rw [hall_len]; omega)).1 i hi)
  have hprec : ∀ j < K, ∀ f : SectorInfo, f.sequence = j + 2 →
      scanSector magic dev (j * T) (some f) =
        ⟨j + 1, 8, SectorState.ValidPreceding⟩ := by
    intro j hj f hf
    exact scanSector_image_at_prec magic (j + 1) dev _ (j * T) f hm (haddr j)
      (hjsz j (by omega)) hmagic (by omega) (by omega)
      (fun i hi => (hsec_facts j (by rw [hall_len]; omega)).1 i hi)
  have hempty : ∀ j, K < j → j < N → ∀ fo : Option SectorInfo,
      scanSector magic dev (j * T) fo =
        ⟨0xFFFFFFFF, 8, SectorState.Empty⟩ := by
    intro j hj1 hj2 fo
    apply scanSector_empty_beyond magic dev _ (j * T) fo hm (haddr j)
      (hjsz j hj2)
    rw [himglen]
    have h1 : (K + 1) * T ≤ j * T := Nat.mul_le_mul_right T (by omega)
    rw [Nat.succ_mul] at h1
    omega
  have hphase := scanPhase1_image_multi magic T N K dev hdevT hdevN (by omega)
    hKN (by omega) hscanV (fun j h1 h2 => hempty j h1 h2 none)
  have hfactsK := hsec_facts K (by rw [hall_len]; omega)
  rw [hcurD] at hfactsK
  have hcfK : cur.length < cf := hcf cur hcur_mem
  obtain ⟨cf', rfl⟩ : ∃ cf', cf = cf' + 1 := ⟨cf - 1, by omega⟩
  have hKTbase : (K * T) % T = 0 := Nat.mul_mod_left K T
  have hKTsz : K * T + T ≤ dev.size := by
    have h2 : (K + 1) * T ≤ N * T := Nat.mul_le_mul_right T (by omega)
    rw [Nat.succ_mul] at h2
    rw [hdevN]
    omega
  have hhold : ∀ i < (flatFrames cur).length,
      (multiImage magic T 1 (secs ++ [cur])).getD (K * T + 8 + i) 255 =
        (flatFrames cur).getD i 255 := by
    intro i hi
    have h := hfactsK.2.1 i hi
    rwa [show K * T + (8 + i) = K * T + 8 + i from by omega] at h
  have htail : (K * T + 8 + (flatFrames cur).length + 2 ≤ K * T + T ∧
      ∀ x, K * T + 8 + (flatFrames cur).length ≤ x → x < K * T + T →
        (multiImage magic T 1 (secs ++ [cur])).getD x 255 = 255) ∨
      K * T + 8 + (flatFrames cur).length = K * T + T := by
    rcases hfit cur hcur_mem with h | h
    · refine Or.inl ⟨by omega, fun x hx1 hx2 => ?_⟩
      exact getD_eq_default _ _ _ (by rw [himglen]; omega)
    · exact Or.inr (by omega)
  have hwalk0 := walkRecords_image dev T (K * T) (K * T + T) magic _ hdevT h16
    hKTbase rfl hKTsz hm cur (cf' + 1) (cf' + 1) (K * T) (K * T + 8) 0
    ⟨K + 1, 8, SectorState.Valid⟩ (hgood cur hcur_mem) hcfK hcfK rfl rfl
    (by omega) (by omega) (by omega) hhold htail
  have hscanKA : scanSector magic dev (dev.sectorAddress (K * T)) none =
      ⟨K + 1, 8, SectorState.Valid⟩ := by
    rw [haddr K]
    exact hscanV K (le_refl K)
  have hinit2 : nextRecordFn (cf' + 1) magic dev
      ⟨K * T, K * T, 0, SectorInfo.reset⟩ =
      nextRecordFn (cf' + 1) magic dev
        ⟨K * T, K * T + 8, 0, ⟨K + 1, 8, SectorState.Valid⟩⟩ :=
    nextRecordFn_rescan (cf' + 1) magic dev (K * T)
      ⟨K + 1, 8, SectorState.Valid⟩ hscanKA rfl
  have hw : walkRecords (cf' + 1) (cf' + 1) magic dev
      ⟨K * T, K * T, 0, SectorInfo.reset⟩ =
      some (walkOutcome (K * T + T) (K * T) (K * T + 8) 0
        ⟨K + 1, 8, SectorState.Valid⟩ cur) :=
    (walkRecords_congr cf' (cf' + 1) magic dev _ _ hinit2).trans hwalk0
  have hback := scanBack_image_multi magic T N K dev hdevT hdevN (by omega)
    (by omega) hKN hprec hempty ⟨K + 1, 8, SectorState.Valid⟩ rfl
  have hcore : scanCore (cf' + 1) (cf' + 1) magic dev =
      some (⟨K + 1, 8, SectorState.Valid⟩, 0, K * T,
        if 8 + (flatFrames cur).length = T then 0
        else 8 + (flatFrames cur).length) := by
    simp only [scanCore, hphase, enumerateRecords, hw]
    rcases hfit cur hcur_mem with h | h
    · obtain ⟨hr, hrn, _⟩ := walkOutcome_tail (K * T + T) cur (K * T)
        (K * T + 8) 0 ⟨K + 1, 8, SectorState.Valid⟩ (by omega)
      rw [hr, hrn, if_pos (by rw [beq_iff_eq]), hback]
      rw [show K * T + 8 + (flatFrames cur).length - K * T =
        8 + (flatFrames cur).length from by omega]
      rw [if_neg (by omega)]
    · obtain ⟨hr, hrn, _⟩ := walkOutcome_full (K * T + T) cur (K * T)
        (K * T + 8) 0 ⟨K + 1, 8, SectorState.Valid⟩ (hgood cur hcur_mem)
        (by omega) (by omega)
      rw [hrn, if_neg (by simp only [beq_iff_eq]; omega), hback,
        if_pos (by omega)]
  simp only [scanFn, hcore, Option.map_some']

/-- The sector enumeration of the forward read-back: from sector `j` it
visits sectors `j+1..K` in order, collects each one's records, and stops at
`lastSector = K`. -/
theorem collectSectors_multi (magic T N K cf inner : Nat) (dev : Device)
    (st : EngState) (allSecs : List (List (List Nat × Bool)))
    (hdevT : dev.sectorSize = T) (hdevN : dev.size = N * T) (hT : 0 < T)
    (hKN : K < N) (hlen : allSecs.length = K + 1)
    (hlast : st.lastSector = K * T)
    (hscanV : ∀ j ≤ K, scanSector magic dev (j * T) none =
      ⟨j + 1, 8, SectorState.Valid⟩)
    (hcol : ∀ j ≤ K,
      collectNext cf inner magic dev (enumerateRecords (j * T)) =
        some (committedPayloads (allSecs.getD j []))) :
    ∀ (cnt j : Nat), j + cnt = K → ∀ fuel, cnt < fuel →
      collectSectors fuel cf inner magic dev st (some (j * T)) =
        some ((allSecs.drop (j + 1)).map committedPayloads).join := by
  have hnum : dev.numSectors = N := by
    rw [Device.numSectors, hdevN, hdevT, Nat.mul_comm]
    exact Nat.mul_div_cancel_left N (by omega)
  intro cnt
  induction cnt with
  | zero =>
    intro j hj fuel hfuel
    obtain ⟨f', rfl⟩ : ∃ f', fuel = f' + 1 := ⟨fuel - 1, by omega⟩
    have hjK : j = K := by omega
    subst hjK
    have hns : nextSectorFn (dev.numSectors + 1) magic dev st (some (j * T)) =
        some (none, false) := by
      obtain ⟨Kf, hKf⟩ : ∃ Kf, dev.numSectors = Kf + 1 :=
        ⟨dev.numSectors - 1, by omega⟩
      rw [hKf, nextSectorFn,
        if_pos (by rw [hlast]; exact beq_self_eq_true _)]
    rw [collectSectors, hns, List.drop_eq_nil_of_le (by omega)]
    rfl
  | succ cnt ih =>
    intro j hj fuel hfuel
    obtain ⟨f', rfl⟩ : ∃ f', fuel = f' + 1 := ⟨fuel - 1, by omega⟩
    have hbneq : (some (j * T) == some st.lastSector) = false := by
      rw [hlast]
      exact beq_eq_false_iff_ne.mpr (by
        intro hc
        have hjk : j * T = K * T := Option.some.inj hc
        have := Nat.eq_of_mul_eq_mul_right hT hjk
        omega)
    have hnsa : nextSectorAddr dev (j * T) = (j + 1) * T := by
      rw [nextSectorAddr, hdevT, hdevN]
      rw [if_neg (by
        intro hc
        rw [show j * T + T = (j + 1) * T from by rw [Nat.succ_mul]] at hc
        have := Nat.eq_of_mul_eq_mul_right hT hc
        omega)]
      rw [Nat.succ_mul]
    have hns : nextSectorFn (dev.numSectors + 1) magic dev st (some (j * T)) =
        some (some ((j + 1) * T), true) := by
      obtain ⟨Kf, hKf⟩ : ∃ Kf, dev.numSectors = Kf + 1 :=
        ⟨dev.numSectors - 1, by omega⟩
      rw [hKf, nextSectorFn, if_neg (by rw [hbneq]; simp)]
      show (if (scanSector magic dev (nextSectorAddr dev (j * T))
            none).IsValid = true then
          some (some (nextSectorAddr dev (j * T)), true)
        else nextSectorFn (Kf + 1) magic dev st
          (some (nextSectorAddr dev (j * T)))) = _
      rw [hnsa, hscanV (j + 1) (by omega),
        if_pos (show (⟨j + 1 + 1, 8, SectorState.Valid⟩ :
          SectorInfo).IsValid = true from rfl)]
    rw [collectSectors]
    simp only [hns, hcol (j + 1) (by omega), ih (j + 1) (by omega) f' (by omega),
      Option.map_some']
    rw [drop_eq_getD_cons allSecs (j + 1) [] (by omega), List.map_cons]
    rfl

/-- Forward enumeration over the `K + 1`-sector journal image collects each
sector's committed payloads in sector order. -/
theorem collectAll_image_multi (magic T N K cf : Nat) (dev : Device)
    (st : EngState) (secs : List (List (List Nat × Bool)))
    (cur : List (List Nat × Bool)) (hK : secs.length = K)
    (hm : matchesImage dev (multiImage magic T 1 (secs ++ [cur])))
    (hdevT : dev.sectorSize = T) (hdevN : dev.size = N * T)
    (h16 : 16 ≤ T) (hKN : K < N) (hN31 : N ≤ 2 ^ 31) (hmagic : magic < 2 ^ 32)
    (hgood : ∀ sec ∈ secs ++ [cur], goodFrames sec)
    (hfit : ∀ sec ∈ secs ++ [cur],
      8 + (flatFrames sec).length + 2 ≤ T ∨ 8 + (flatFrames sec).length = T)
    (hcf : ∀ sec ∈ secs ++ [cur], sec.length < cf)
    (hfirst : st.firstSector = 0) (hlast : st.lastSector = K * T) :
    collectAll cf cf magic dev st =
      some ((secs ++ [cur]).map committedPayloads).join := by
  have h2e : (2 : Nat) ^ 31 < 2 ^ 32 := by norm_num
  have hfill : ∀ sec ∈ secs ++ [cur], 8 + (flatFrames sec).length ≤ T := by
    intro sec hsec
    rcases hfit sec hsec with h | h <;> omega
  have himglen : (multiImage magic T 1 (secs ++ [cur])).length =
      K * T + (8 + (flatFrames cur).length) := by
    rw [← hK]
    exact multiImage_length magic T secs cur 1
      (fun sec hsec => hfill sec (List.mem_append.mpr (Or.inl hsec)))
  have hall_len : (secs ++ [cur]).length = K + 1 := by
    rw [List.length_append, hK]
    rfl
  have hsec_facts := multiImage_sector_facts magic T secs cur hfill h16
  have haddr : ∀ j : Nat, dev.sectorAddress (j * T) = j * T := by
    intro j
    exact sectorAddress_of_aligned dev _ (by rw [hdevT]; omega)
      (by rw [hdevT]; exact Nat.mul_mod_left j T)
  have hjsz : ∀ j, j < N → j * T + 8 ≤ dev.size := by
    intro j hj
    have h2 : (j + 1) * T ≤ N * T := Nat.mul_le_mul_right T (by omega)
    rw [Nat.succ_mul] at h2
    rw [hdevN]
    omega
  have hscanV : ∀ j ≤ K, scanSector magic dev (j * T) none =
      ⟨j + 1, 8, SectorState.Valid⟩ := by
    intro j hj
    exact scanSector_image_at_none magic (j + 1) dev _ (j * T) hm (haddr j)
      (hjsz j (by omega)) hmagic (by omega) (by omega)
      (fun i hi => (hsec_facts j (by rw [hall_len]; omega)).1 i hi)
  have hnum : dev.numSectors = N := by
    rw [Device.numSectors, hdevN, hdevT, Nat.mul_comm]
    exact Nat.mul_div_cancel_left N (by omega)
  have hcolj : ∀ j ≤ K,
      collectNext cf cf magic dev (enumerateRecords (j * T)) =
        some (committedPayloads ((secs ++ [cur]).getD j [])) := by
    intro j hj
    have hfacts := hsec_facts j (by rw [hall_len]; omega)
    have hjmem : ((secs ++ [cur]).getD j []) ∈ secs ++ [cur] :=
      getD_mem_of_lt _ j [] (by rw [hall_len]; omega)
    have hcfj : ((secs ++ [cur]).getD j []).length < cf := hcf _ hjmem
    obtain ⟨cf', rfl⟩ : ∃ cf', cf = cf' + 1 := ⟨cf - 1, by omega⟩
    have hbase : (j * T) % T = 0 := Nat.mul_mod_left j T
    have hEsz : j * T + T ≤ dev.size := by
      have h2 : (j + 1) * T ≤ N * T := Nat.mul_le_mul_right T (by omega)
      rw [Nat.succ_mul] at h2
      rw [hdevN]
      omega
    have hholdj : ∀ i < (flatFrames ((secs ++ [cur]).getD j [])).length,
        (multiImage magic T 1 (secs ++ [cur])).getD (j * T + 8 + i) 255 =
          (flatFrames ((secs ++ [cur]).getD j [])).getD i 255 := by
      intro i hi
      have h := hfacts.2.1 i hi
      rwa [show j * T + (8 + i) = j * T + 8 + i from by omega] at h
    have htailj :
        (j * T + 8 + (flatFrames ((secs ++ [cur]).getD j [])).length + 2 ≤
          j * T + T ∧
        ∀ x, j * T + 8 + (flatFrames ((secs ++ [cur]).getD j [])).length ≤ x →
          x < j * T + T →
          (multiImage magic T 1 (secs ++ [cur])).getD x 255 = 255) ∨
        j * T + 8 + (flatFrames ((secs ++ [cur]).getD j [])).length =
          j * T + T := by
      rcases hfit _ hjmem with h | h
      · refine Or.inl ⟨by omega, fun x hx1 hx2 => ?_⟩
        have h2 := hfacts.2.2 (x - j * T) (by omega) (by omega)
        rwa [show j * T + (x - j * T) = x from by omega] at h2
      · exact Or.inr (by omega)
    have hcol0 := collectNext_image dev T (j * T) (j * T + T) magic _ hdevT h16
      hbase rfl hEsz hm ((secs ++ [cur]).getD j []) (cf' + 1) (cf' + 1)
      (j * T) (j * T + 8) 0 ⟨j + 1, 8, SectorState.Valid⟩ (hgood _ hjmem)
      hcfj hcfj rfl rfl (by omega) (by omega) (by omega) hholdj htailj
    have hscanJA : scanSector magic dev (dev.sectorAddress (j * T)) none =
        ⟨j + 1, 8, SectorState.Valid⟩ := by
      rw [haddr j]
      exact hscanV j hj
    have hinitj : nextRecordFn (cf' + 1) magic dev
        ⟨j * T, j * T, 0, SectorInfo.reset⟩ =
        nextRecordFn (cf' + 1) magic dev
          ⟨j * T, j * T + 8, 0, ⟨j + 1, 8, SectorState.Valid⟩⟩ :=
      nextRecordFn_rescan (cf' + 1) magic dev (j * T)
        ⟨j + 1, 8, SectorState.Valid⟩ hscanJA rfl
    exact (collectNext_congr cf' (cf' + 1) magic dev _ _ hinitj).trans hcol0
  have hns0 : nextSectorFn (dev.numSectors + 1) magic dev st none =
      some (some 0, true) := by
    obtain ⟨Kf, hKf⟩ : ∃ Kf, dev.numSectors = Kf + 1 :=
      ⟨dev.numSectors - 1, by omega⟩
    rw [hKf, nextSectorFn, if_neg (by simp)]
    show (if (scanSector magic dev st.firstSector none).IsValid = true then
        some (some st.firstSector, true)
      else nextSectorFn (Kf + 1) magic dev st (some st.firstSector)) = _
    rw [hfirst]
    have h0 : scanSector magic dev 0 none = ⟨1, 8, SectorState.Valid⟩ := by
      have := hscanV 0 (by omega)
      rwa [Nat.zero_mul] at this
    rw [h0, if_pos (show (⟨0 + 1, 8, SectorState.Valid⟩ :
      SectorInfo).IsValid = true from rfl)]
  have hcol00 : collectNext cf cf magic dev (enumerateRecords 0) =
      some (committedPayloads ((secs ++ [cur]).getD 0 [])) := by
    have := hcolj 0 (by omega)
    rwa [Nat.zero_mul] at this
  obtain ⟨Kf, hKf⟩ : ∃ Kf, dev.numSectors = Kf + 1 :=
    ⟨dev.numSectors - 1, by omega⟩
  have hcs := collectSectors_multi magic T N K cf cf dev st (secs ++ [cur])
    hdevT hdevN (by omega) hKN hall_len hlast hscanV hcolj K 0 (by omega)
    (Kf + 1) (by omega)
  rw [Nat.zero_mul] at hcs
  have hsplit0 : secs ++ [cur] =
      (secs ++ [cur]).getD 0 [] :: (secs ++ [cur]).drop 1 := by
    have := drop_eq_getD_cons (secs ++ [cur]) 0 [] (by rw [hall_len]; omega)
    rwa [List.drop_zero] at this
  have hjoin : (((secs ++ [cur]).map committedPayloads).join) =
      committedPayloads ((secs ++ [cur]).getD 0 []) ++
        (((secs ++ [cur]).drop (0 + 1)).map committedPayloads).join := by
    conv_lhs => rw [hsplit0]
    rfl
  show collectSectors (dev.numSectors + 1) cf cf magic dev st none =
    some ((secs ++ [cur]).map committedPayloads).join
  rw [hKf]
  rw [collectSectors]
  simp only [hns0, hcol00, hcs, Option.map_some']
  rw [hjoin]
/-! ### Writing across sector boundaries -/

theorem matchesImage_pad (d : Device) (img : List Nat) (n : Nat)
    (hm : matchesImage d img) :
    matchesImage d (img ++ List.replicate n 255) := by
  intro x hx
  rw [hm x hx, getD_append_lemma]
  by_cases h : x < img.length
  · rw [if_pos h]
  · rw [if_neg h, getD_eq_default img x 255 (by omega), getD_replicate_255]

/-- `InitSector` of a fresh (erased) ring sector sitting right past the
image: appends the 8-byte header with the bumped sequence. -/
theorem initSector_image_at (magic : Nat) (d : Device) (img : List Nat)
    (a : Nat) (info : SectorInfo)
    (hm : matchesImage d img) (ha : d.sectorAddress a = img.length)
    (hseq : (if info.IsValid then info.sequence else 0) + 1 < 2 ^ 32) :
    matchesImage (initSector magic d a info).1
      (img ++ headerImageSeq magic
        ((if info.IsValid then info.sequence else 0) + 1)) ∧
    (initSector magic d a info).2 =
      ⟨(if info.IsValid then info.sequence else 0) + 1, 8,
        SectorState.Valid⟩ := by
  have hmod : ((if info.IsValid then info.sequence else 0) + 1) % 2 ^ 32 =
      (if info.IsValid then info.sequence else 0) + 1 :=
    Nat.mod_eq_of_lt hseq
  constructor
  · intro x hx
    show (program (program d (d.sectorAddress a + 4)
        (toLE 4 (((if info.IsValid then info.sequence else 0) + 1) % 2 ^ 32)))
        (d.sectorAddress a) (toLE 4 magic)).data x =
      (img ++ headerImageSeq magic
        ((if info.IsValid then info.sequence else 0) + 1)).getD x 255
    rw [ha, hmod]
    generalize (if info.IsValid then info.sequence else 0) + 1 = s0
    rw [program_data, program_data]
    simp only [toLE_length]
    by_cases h0 : img.length ≤ x ∧ x < img.length + 4
    · rw [if_pos (by omega), if_neg (by omega)]
      rw [hm x hx, getD_eq_default img x 255 (by omega)]
      rw [getD_append_lemma, if_neg (by omega)]
      rw [headerImageSeq, getD_append_lemma, toLE_length, if_pos (by omega)]
      rw [getD_default_irrel _ _ 255 0 (by rw [toLE_length]; omega)]
      have hmem : (toLE 4 magic).getD (x - img.length) 0 ∈ toLE 4 magic := by
        rw [List.getD_eq_getElem _ _ (by rw [toLE_length]; omega)]
        exact List.getElem_mem (by rw [toLE_length]; omega)
      exact and255_of_lt _ (toLE_mem_lt 4 magic _ hmem)
    · by_cases h4 : img.length + 4 ≤ x ∧ x < img.length + 8
      · rw [if_neg (by omega), if_pos (by omega)]
        rw [hm x hx, getD_eq_default img x 255 (by omega)]
        rw [getD_append_lemma, if_neg (by omega)]
        rw [headerImageSeq, getD_append_lemma, toLE_length, if_neg (by omega)]
        rw [getD_default_irrel _ _ 255 0 (by rw [toLE_length]; omega)]
        rw [show x - (img.length + 4) = x - img.length - 4 from by omega]
        have hmem : (toLE 4 s0).getD (x - img.length - 4) 0 ∈ toLE 4 s0 := by
          rw [List.getD_eq_getElem _ _ (by rw [toLE_length]; omega)]
          exact List.getElem_mem (by rw [toLE_length]; omega)
        exact and255_of_lt _ (toLE_mem_lt 4 _ _ hmem)
      · rw [if_neg (by omega), if_neg (by omega), hm x hx]
        by_cases hlt : x < img.length
        · rw [getD_append_lemma, if_pos hlt]
        · rw [getD_eq_default img x 255 (by omega),
            getD_eq_default _ _ _ (by
              rw [List.length_append, headerImageSeq_length]
              omega)]
  · show (⟨((if info.IsValid then info.sequence else 0) + 1) % 2 ^ 32, 8,
        SectorState.Valid⟩ : SectorInfo) = _
    rw [hmod]

theorem multiImage_snoc_frame (magic T : Nat) :
    ∀ (secs : List (List (List Nat × Bool))) (s : Nat)
      (cur : List (List Nat × Bool)) (f : List Nat × Bool),
      multiImage magic T s (secs ++ [cur]) ++ frameBytes f =
        multiImage magic T s (secs ++ [cur ++ [f]]) := by
  intro secs
  induction secs with
  | nil =>
    intro s cur f
    rw [List.nil_append, List.nil_append, multiImage_single, multiImage_single,
      flatFrames_append]
    simp [flatFrames, List.append_assoc]
  | cons sec rest ih =>
    intro s cur f
    rw [List.cons_append, List.cons_append,
      multiImage_cons magic T s sec (rest ++ [cur]) (by simp),
      multiImage_cons magic T s sec (rest ++ [cur ++ [f]]) (by simp),
      List.append_assoc, ih]

theorem multiImage_push (magic T : Nat) :
    ∀ (secs : List (List (List Nat × Bool))) (s : Nat)
      (cur : List (List Nat × Bool)) (f : List Nat × Bool),
      8 + (flatFrames cur).length ≤ T →
      (((multiImage magic T s (secs ++ [cur]) ++
          List.replicate (T - (8 + (flatFrames cur).length)) 255) ++
        headerImageSeq magic (s + secs.length + 1)) ++ frameBytes f) =
        multiImage magic T s ((secs ++ [cur]) ++ [[f]]) := by
  intro secs
  induction secs with
  | nil =>
    intro s cur f hfill
    rw [List.nil_append, multiImage_single,
      show (([cur] ++ [[f]]) : List (List (List Nat × Bool))) = cur :: [[f]]
        from rfl,
      multiImage_cons magic T s cur [[f]] (by simp), multiImage_single,
      padTo, List.length_append, headerImageSeq_length]
    simp [flatFrames, List.append_assoc]
  | cons sec rest ih =>
    intro s cur f hfill
    rw [List.cons_append, List.cons_append,
      multiImage_cons magic T s sec (rest ++ [cur]) (by simp),
      multiImage_cons magic T s sec ((rest ++ [cur]) ++ [[f]]) (by simp)]
    rw [List.append_assoc (padTo T (headerImageSeq magic s ++ flatFrames sec)),
      List.append_assoc (padTo T (headerImageSeq magic s ++ flatFrames sec)),
      List.append_assoc (padTo T (headerImageSeq magic s ++ flatFrames sec))]
    rw [show s + (sec :: rest).length + 1 = (s + 1) + rest.length + 1 from by
      rw [List.length_cons]; omega]
    rw [ih (s + 1) cur f hfill]

/-- A write whose frame still fits before the current sector end: it is
appended at the free offset, no rotation happens. -/
theorem doWrite_fit (magic T fuel : Nat) (dev : Device) (mr : Nat)
    (img : List Nat) (si : SectorInfo) (base qfo : Nat) (p : List Nat)
    (c : Bool)
    (hdevT : dev.sectorSize = T) (hm : matchesImage dev img)
    (hlen : img.length = base + qfo) (hbase : base % T = 0)
    (h16 : 16 ≤ T) (h11 : 11 ≤ qfo) (hfit : qfo + (2 + p.length) ≤ T)
    (hp1 : 1 ≤ p.length) (hp2 : p.length ≤ 0x7FFF) (hpb : ∀ b ∈ p, b < 256) :
    ∃ dev2 mr2,
      doWrite (fuel + 2) magic dev ⟨si, 0, base, qfo, mr⟩ p c =
        some (dev2, ⟨si, 0, base, qfo + (2 + p.length), mr2⟩) ∧
      matchesImage dev2 (img ++ frameBytes (p, c)) ∧
      dev2.sectorSize = T ∧ dev2.size = dev.size := by
  have hbase' : base % dev.sectorSize = 0 := by rw [hdevT]; exact hbase
  have hmodQ : (base + qfo) % dev.sectorSize = qfo :=
    mod_of_aligned_add dev base qfo hbase' (by rw [hdevT]; omega)
  have hrem : dev.sectorRemaining (base + qfo) = T - qfo := by
    rw [Device.sectorRemaining, hmodQ, hdevT]
  have hir : initRecord dev (base + qfo) RecordInfo.reset p.length =
      (program dev (base + qfo) (toLE 2 (p.length ||| 0x8000)),
        ⟨p.length, 2 + p.length, RecordState.Valid⟩, 2) := by
    rw [initRecord_spec]
    rw [show ((base + qfo) % dev.sectorSize == 8) = false from by
      rw [hmodQ]; exact beq_eq_false_iff_ne.mpr (by omega)]
    simp only [Bool.false_eq_true, if_false]
    rw [show min p.length 0x7FFF = p.length from by omega]
    rw [hrem, if_neg (by omega)]
  have hfoQ : ¬((⟨si, 0, base, qfo, mr⟩ : EngState).freeOffset = 0 ∨
      (⟨si, 0, base, qfo, mr⟩ : EngState).freeOffset ≥ dev.sectorSize) := by
    show ¬(qfo = 0 ∨ qfo ≥ dev.sectorSize)
    rw [hdevT]
    omega
  have hirE : initRecord dev
      ((⟨si, 0, base, qfo, mr⟩ : EngState).lastSector +
       (⟨si, 0, base, qfo, mr⟩ : EngState).freeOffset)
      RecordInfo.reset p.length =
      (program dev
        ((⟨si, 0, base, qfo, mr⟩ : EngState).lastSector +
         (⟨si, 0, base, qfo, mr⟩ : EngState).freeOffset)
        (toLE 2 (p.length ||| 0x8000)),
        ⟨p.length, 2 + p.length, RecordState.Valid⟩, 2) := hir
  have hdirect := beginWriteLoop_direct (fuel + 1) magic p.length dev
    ⟨si, 0, base, qfo, mr⟩ RecordInfo.reset p.length hfoQ hirE
  rw [show (⟨si, 0, base, qfo, mr⟩ : EngState).lastSector +
      ((⟨si, 0, base, qfo, mr⟩ : EngState).freeOffset + (2 + p.length)) -
      (2 + p.length) + 2 = base + qfo + 2 from by
        show base + (qfo + (2 + p.length)) - (2 + p.length) + 2 =
          base + qfo + 2
        omega] at hdirect
  rw [show (⟨si, 0, base, qfo, mr⟩ : EngState).lastSector +
      (⟨si, 0, base, qfo, mr⟩ : EngState).freeOffset = base + qfo from rfl]
    at hdirect
  have him1 : matchesImage (program dev (base + qfo)
      (toLE 2 (p.length ||| 0x8000)))
      (img ++ toLE 2 (p.length + 0x8000)) := by
    rw [or_8000_eq_add p.length (by omega)]
    have := matchesImage_program_append dev img
      (toLE 2 (p.length + 0x8000)) hm (toLE_mem_lt _ _)
    rwa [hlen] at this
  have hlen2 : (img ++ toLE 2 (p.length + 0x8000)).length =
      base + qfo + 2 := by
    rw [List.length_append, toLE_length, hlen]
  have him2 : matchesImage (program (program dev (base + qfo)
      (toLE 2 (p.length ||| 0x8000))) (base + qfo + 2) p)
      ((img ++ toLE 2 (p.length + 0x8000)) ++ p) := by
    have := matchesImage_program_append _
      (img ++ toLE 2 (p.length + 0x8000)) p him1 hpb
    rwa [hlen2] at this
  refine ⟨(if c then
      commitRecord (program (program dev (base + qfo)
        (toLE 2 (p.length ||| 0x8000))) (base + qfo + 2) p) (base + qfo + 2)
    else program (program dev (base + qfo)
      (toLE 2 (p.length ||| 0x8000))) (base + qfo + 2) p),
    dev.sectorSize - (qfo + (2 + p.length) + 2), ?_, ?_, ?_, ?_⟩
  · have hbfn : beginWriteFn (fuel + 2) magic dev ⟨si, 0, base, qfo, mr⟩
        p.length =
        some (program dev (base + qfo) (toLE 2 (p.length ||| 0x8000)),
          ⟨si, 0, base, qfo + (2 + p.length),
            dev.sectorSize - (qfo + (2 + p.length) + 2)⟩,
          base + qfo + 2, p.length) := hdirect
    simp only [doWrite, hbfn, Option.map_some', List.take_length]
  · cases c with
    | true =>
      have him2b : matchesImage (program (program dev (base + qfo)
          (toLE 2 (p.length ||| 0x8000))) (base + qfo + 2) p)
          (img ++ (toLE 2 (p.length + 0x8000) ++ p)) := by
        rw [← List.append_assoc]
        exact him2
      have hc := matchesImage_commit _ img p p.length him2b (by omega)
      rw [hlen] at hc
      rw [if_pos rfl]
      rw [show frameBytes (p, true) = toLE 2 p.length ++ p from by
        simp [frameBytes]]
      exact hc
    | false =>
      rw [if_neg (by simp)]
      rw [show frameBytes (p, false) = toLE 2 (p.length + 0x8000) ++ p from by
        simp [frameBytes]]
      rw [← List.append_assoc]
      exact him2
  · cases c with
    | true => exact hdevT
    | false => exact hdevT
  · cases c with
    | true => rfl
    | false => rfl

/-- The tail of `doWrite` after a successful `BeginWrite`: program the
payload into the writer span and optionally commit. -/
theorem doWrite_finish (magic fuel : Nat) (dev dev3 : Device)
    (st st2 : EngState) (pre : List Nat) (p : List Nat) (c : Bool) (a : Nat)
    (haddr : a = pre.length + 2)
    (hbfn : beginWriteFn (fuel + 2) magic dev st p.length =
      some (dev3, st2, a, p.length))
    (him : matchesImage dev3 (pre ++ toLE 2 (p.length + 0x8000)))
    (hp2 : p.length < 0x8000) (hpb : ∀ b ∈ p, b < 256) :
    ∃ dev2,
      doWrite (fuel + 2) magic dev st p c = some (dev2, st2) ∧
      matchesImage dev2 (pre ++ frameBytes (p, c)) ∧
      dev2.sectorSize = dev3.sectorSize ∧ dev2.size = dev3.size := by
  subst haddr
  have hlen2 : (pre ++ toLE 2 (p.length + 0x8000)).length = pre.length + 2 := by
    rw [List.length_append, toLE_length]
  have him2 : matchesImage (program dev3 (pre.length + 2) p)
      ((pre ++ toLE 2 (p.length + 0x8000)) ++ p) := by
    have := matchesImage_program_append dev3
      (pre ++ toLE 2 (p.length + 0x8000)) p him hpb
    rwa [hlen2] at this
  refine ⟨(if c then commitRecord (program dev3 (pre.length + 2) p)
      (pre.length + 2) else program dev3 (pre.length + 2) p), ?_, ?_, ?_, ?_⟩
  · simp only [doWrite, hbfn, Option.map_some', List.take_length]
  · cases c with
    | true =>
      have him2b : matchesImage (program dev3 (pre.length + 2) p)
          (pre ++ (toLE 2 (p.length + 0x8000) ++ p)) := by
        rw [← List.append_assoc]
        exact him2
      have hc := matchesImage_commit _ pre p p.length him2b hp2
      rw [if_pos rfl,
        show frameBytes (p, true) = toLE 2 p.length ++ p from by
          simp [frameBytes]]
      exact hc
    | false =>
      rw [if_neg (by simp),
        show frameBytes (p, false) = toLE 2 (p.length + 0x8000) ++ p from by
          simp [frameBytes]]
      rw [← List.append_assoc]
      exact him2
  · cases c with
    | true => rfl
    | false => rfl
  · cases c with
    | true => rfl
    | false => rfl

/-- The rotation iteration of `BeginWrite`: with `freeOffset` at or past the
sector end, the engine advances to the next (erased) ring sector,
initializes it with the bumped sequence, and allocates the record at the new
sector's first record position. -/
theorem beginWriteLoop_rotation (magic T N g : Nat) (dev : Device)
    (img : List Nat) (s base fo mr : Nat) (ri : RecordInfo) (len : Nat)
    (hdevT : dev.sectorSize = T) (hdevN : dev.size = N * T)
    (hm : matchesImage dev img) (himg : img.length ≤ base + T)
    (hbase : base % T = 0) (h16 : 16 ≤ T)
    (hfo : T ≤ fo) (hroom : base + 2 * T ≤ N * T) (hs : s + 1 < 2 ^ 32)
    (hln2 : len ≤ 0x7FFF) (hln3 : len + 10 ≤ T) :
    ∃ dev2 mr2,
      beginWriteLoop (g + 1) magic dev
          ⟨⟨s, 8, SectorState.Valid⟩, 0, base, fo, mr⟩ ri len =
        some (dev2,
          ⟨⟨s + 1, 8, SectorState.Valid⟩, 0, base + T, 8 + (2 + len), mr2⟩,
          base + T + 10, len) ∧
      matchesImage dev2
        (((img ++ List.replicate (base + T - img.length) 255) ++
          headerImageSeq magic (s + 1)) ++ toLE 2 (len + 0x8000)) ∧
      dev2.sectorSize = T ∧ dev2.size = N * T := by
  have hT0 : 0 < T := by omega
  have hnext : nextSectorAddr dev base = base + T := by
    rw [nextSectorAddr, hdevT, hdevN, if_neg (by omega)]
  have hadvance : advanceSectorFn magic dev
      ⟨⟨s, 8, SectorState.Valid⟩, 0, base, fo, mr⟩ =
      ⟨⟨s, 8, SectorState.Valid⟩, 0, base + T, 0, mr⟩ := by
    simp only [advanceSectorFn, hnext]
    rw [if_pos (show (base + T : Nat) ≠ 0 from by omega)]
  have hempty2 : isEmptyRange dev (base + T) dev.sectorSize = true := by
    rw [hdevT]
    apply isEmptyRange_matchesImage dev img (base + T) T hm
    · rw [hdevN]
      omega
    · intro i _
      exact getD_eq_default img _ 255 (by omega)
  have hm2 : matchesImage dev
      (img ++ List.replicate (base + T - img.length) 255) :=
    matchesImage_pad dev img _ hm
  have himg2len : (img ++ List.replicate (base + T - img.length) 255).length =
      base + T := by
    rw [List.length_append, List.length_replicate]
    omega
  have haddr2 : dev.sectorAddress (base + T) =
      (img ++ List.replicate (base + T - img.length) 255).length := by
    rw [himg2len]
    exact sectorAddress_of_aligned dev _ (by rw [hdevT]; omega)
      (by rw [hdevT, Nat.add_mod_right]; exact hbase)
  have hinit := initSector_image_at magic dev
    (img ++ List.replicate (base + T - img.length) 255) (base + T)
    ⟨s, 8, SectorState.Valid⟩ hm2 haddr2 hs
  have hseqr : ((if (⟨s, 8, SectorState.Valid⟩ : SectorInfo).IsValid then
      (⟨s, 8, SectorState.Valid⟩ : SectorInfo).sequence else 0) + 1) =
      s + 1 := rfl
  rw [hseqr] at hinit
  have hnewfn : newSectorFn (g + 1) magic dev
      ⟨⟨s, 8, SectorState.Valid⟩, 0, base, fo, mr⟩ =
      some ((initSector magic dev (base + T) ⟨s, 8, SectorState.Valid⟩).1,
        ⟨⟨s + 1, 8, SectorState.Valid⟩, 0, base + T, 8, mr⟩) := by
    rw [newSectorFn]
    rw [if_pos (show (⟨⟨s, 8, SectorState.Valid⟩, 0, base, fo, mr⟩ :
        EngState).freeOffset ≠ 0 from by
      show fo ≠ 0
      omega)]
    rw [hadvance]
    rw [newSectorLoop_step g magic dev ⟨⟨s, 8, SectorState.Valid⟩, 0,
      base + T, 0, mr⟩]
    have hempty2' : isEmptyRange dev
        (⟨⟨s, 8, SectorState.Valid⟩, 0, base + T, 0, mr⟩ :
          EngState).lastSector dev.sectorSize = true := hempty2
    rw [if_neg (by rw [hempty2']; simp)]
    have hp1' : (⟨⟨s, 8, SectorState.Valid⟩, 0, base + T, 0, mr⟩ :
        EngState).lastSector = base + T := rfl
    have hp2' : (⟨⟨s, 8, SectorState.Valid⟩, 0, base + T, 0, mr⟩ :
        EngState).last = ⟨s, 8, SectorState.Valid⟩ := rfl
    rw [hp1', hp2', hinit.2]
  have hd2T : (initSector magic dev (base + T)
      ⟨s, 8, SectorState.Valid⟩).1.sectorSize = T := by
    rw [← hdevT]
    rfl
  have hd2N : (initSector magic dev (base + T)
      ⟨s, 8, SectorState.Valid⟩).1.size = N * T := by
    rw [← hdevN]
    rfl
  have hpos8 : (base + T + 8) % (initSector magic dev (base + T)
      ⟨s, 8, SectorState.Valid⟩).1.sectorSize = 8 := by
    have h := mod_of_aligned_add dev (base + T) 8
      (by rw [hdevT, Nat.add_mod_right]; exact hbase) (by rw [hdevT]; omega)
    exact h
  have hir := initRecord_at_first (initSector magic dev (base + T)
    ⟨s, 8, SectorState.Valid⟩).1 (base + T + 8) ri len
    (by rw [hd2T]; omega) hpos8
  rw [show min (min len 0x7FFF) ((initSector magic dev (base + T)
      ⟨s, 8, SectorState.Valid⟩).1.sectorSize - 10) = len from by
    rw [hd2T]; omega] at hir
  refine ⟨program (initSector magic dev (base + T)
      ⟨s, 8, SectorState.Valid⟩).1 (base + T + 8) (toLE 2 (len ||| 0x8000)),
    (initSector magic dev (base + T)
      ⟨s, 8, SectorState.Valid⟩).1.sectorSize - (8 + (2 + len) + 2),
    ?_, ?_, ?_, ?_⟩
  · rw [beginWriteLoop]
    rw [if_pos (by
      simp only [Bool.or_eq_true, decide_eq_true_eq]
      right
      show dev.sectorSize ≤ fo
      rw [hdevT]
      exact hfo)]
    rw [hnewfn]
    have hirE : initRecord (initSector magic dev (base + T)
        ⟨s, 8, SectorState.Valid⟩).1
        ((⟨⟨s + 1, 8, SectorState.Valid⟩, 0, base + T, 8, mr⟩ :
          EngState).lastSector +
         (⟨⟨s + 1, 8, SectorState.Valid⟩, 0, base + T, 8, mr⟩ :
          EngState).freeOffset) ri len =
        (program (initSector magic dev (base + T)
          ⟨s, 8, SectorState.Valid⟩).1 (base + T + 8)
          (toLE 2 (len ||| 0x8000)),
          ⟨len, 2 + len, RecordState.Valid⟩, 2) := hir
    simp only [hirE, RecordInfo.IsValid, beq_self_eq_true, if_true]
    rw [show base + T + (8 + (2 + len)) - (2 + len) + 2 = base + T + 10 from by
      omega]
  · rw [or_8000_eq_add len (by omega)]
    have := matchesImage_program_append (initSector magic dev (base + T)
        ⟨s, 8, SectorState.Valid⟩).1
      ((img ++ List.replicate (base + T - img.length) 255) ++
        headerImageSeq magic (s + 1))
      (toLE 2 (len + 0x8000)) hinit.1 (toLE_mem_lt _ _)
    rwa [List.length_append, himg2len, headerImageSeq_length] at this
  · exact hd2T
  · exact hd2N

/-- A write whose frame no longer fits in the current sector: `BeginWrite`
rotates to the next ring sector and the frame opens that sector at
offset 8. -/
theorem doWrite_rotate (magic T N fuel : Nat) (dev : Device) (mr : Nat)
    (img : List Nat) (s base qfo : Nat) (p : List Nat) (c : Bool)
    (hdevT : dev.sectorSize = T) (hdevN : dev.size = N * T)
    (hm : matchesImage dev img) (hlen : img.length = base + qfo)
    (hbase : base % T = 0) (h16 : 16 ≤ T) (h11 : 11 ≤ qfo) (hqT : qfo ≤ T)
    (hnofit : T < qfo + (2 + p.length))
    (hroom : base + 2 * T ≤ N * T) (hs : s + 1 < 2 ^ 32)
    (hp1 : 1 ≤ p.length) (hp2 : p.length ≤ 0x7FFF) (hfits : p.length + 10 ≤ T)
    (hpb : ∀ b ∈ p, b < 256) :
    ∃ dev2 mr2,
      doWrite (fuel + 2) magic dev
          ⟨⟨s, 8, SectorState.Valid⟩, 0, base, qfo, mr⟩ p c =
        some (dev2, ⟨⟨s + 1, 8, SectorState.Valid⟩, 0, base + T,
          8 + (2 + p.length), mr2⟩) ∧
      matchesImage dev2
        (((img ++ List.replicate (T - qfo) 255) ++
          headerImageSeq magic (s + 1)) ++ frameBytes (p, c)) ∧
      dev2.sectorSize = T ∧ dev2.size = N * T := by
  have himgle : img.length ≤ base + T := by omega
  have hpad : base + T - img.length = T - qfo := by omega
  have haddrlen : base + T + 10 =
      ((img ++ List.replicate (base + T - img.length) 255) ++
        headerImageSeq magic (s + 1)).length + 2 := by
    rw [List.length_append, List.length_append, List.length_replicate,
      headerImageSeq_length]
    omega
  by_cases hq : T ≤ qfo
  · obtain ⟨dev3, mr3, hbeq, hbim, hbTs, hbsz⟩ := beginWriteLoop_rotation magic
      T N (fuel + 1) dev img s base qfo mr RecordInfo.reset p.length hdevT
      hdevN hm himgle hbase h16 hq hroom hs hp2 hfits
    have hbfn : beginWriteFn (fuel + 2) magic dev
        ⟨⟨s, 8, SectorState.Valid⟩, 0, base, qfo, mr⟩ p.length =
        some (dev3, ⟨⟨s + 1, 8, SectorState.Valid⟩, 0, base + T,
          8 + (2 + p.length), mr3⟩, base + T + 10, p.length) := hbeq
    obtain ⟨dev2, heq, him, hTs, hsz⟩ := doWrite_finish magic fuel dev dev3
      ⟨⟨s, 8, SectorState.Valid⟩, 0, base, qfo, mr⟩
      ⟨⟨s + 1, 8, SectorState.Valid⟩, 0, base + T, 8 + (2 + p.length), mr3⟩
      ((img ++ List.replicate (base + T - img.length) 255) ++
        headerImageSeq magic (s + 1)) p c (base + T + 10) haddrlen hbfn hbim
      (by omega) hpb
    rw [hpad] at him
    exact ⟨dev2, mr3, heq, him, hTs.trans hbTs, hsz.trans hbsz⟩
  · have hbase' : base % dev.sectorSize = 0 := by rw [hdevT]; exact hbase
    have hmodQ : (base + qfo) % dev.sectorSize = qfo :=
      mod_of_aligned_add dev base qfo hbase' (by rw [hdevT]; omega)
    have hrem : dev.sectorRemaining (base + qfo) = T - qfo := by
      rw [Device.sectorRemaining, hmodQ, hdevT]
    have hirBad : initRecord dev (base + qfo) RecordInfo.reset p.length =
        (dev, { RecordInfo.reset with state := RecordState.Bad }, 0) := by
      rw [initRecord_spec]
      rw [show ((base + qfo) % dev.sectorSize == 8) = false from by
        rw [hmodQ]; exact beq_eq_false_iff_ne.mpr (by omega)]
      simp only [Bool.false_eq_true, if_false]
      rw [show min p.length 0x7FFF = p.length from by omega, hrem]
      rw [if_pos (by omega)]
    obtain ⟨dev3, mr3, hbeq, hbim, hbTs, hbsz⟩ := beginWriteLoop_rotation magic
      T N fuel dev img s base dev.sectorSize
      (dev.sectorSize - (qfo + 0 + 0))
      { RecordInfo.reset with state := RecordState.Bad } p.length hdevT
      hdevN hm himgle hbase h16 (by omega) hroom hs hp2 hfits
    have hbfn : beginWriteFn (fuel + 2) magic dev
        ⟨⟨s, 8, SectorState.Valid⟩, 0, base, qfo, mr⟩ p.length =
        some (dev3, ⟨⟨s + 1, 8, SectorState.Valid⟩, 0, base + T,
          8 + (2 + p.length), mr3⟩, base + T + 10, p.length) := by
      show beginWriteLoop (fuel + 1 + 1) magic dev
        ⟨⟨s, 8, SectorState.Valid⟩, 0, base, qfo, mr⟩ RecordInfo.reset
        p.length = _
      rw [beginWriteLoop]
      rw [if_neg (by
        simp only [Bool.or_eq_true, decide_eq_true_eq]
        show ¬(qfo = 0 ∨ qfo ≥ dev.sectorSize)
        rw [hdevT]
        omega)]
      simp only [hirBad]
      rw [if_neg (by decide), if_pos (by decide)]
      exact hbeq
    obtain ⟨dev2, heq, him, hTs, hsz⟩ := doWrite_finish magic fuel dev dev3
      ⟨⟨s, 8, SectorState.Valid⟩, 0, base, qfo, mr⟩
      ⟨⟨s + 1, 8, SectorState.Valid⟩, 0, base + T, 8 + (2 + p.length), mr3⟩
      ((img ++ List.replicate (base + T - img.length) 255) ++
        headerImageSeq magic (s + 1)) p c (base + T + 10) haddrlen hbfn hbim
      (by omega) hpb
    rw [hpad] at him
    exact ⟨dev2, mr3, heq, him, hTs.trans hbTs, hsz.trans hbsz⟩

theorem mem_join_of_mem_mem {α : Type} :
    ∀ (L : List (List α)) (l : List α), l ∈ L → ∀ a ∈ l, a ∈ L.join := by
  intro L
  induction L with
  | nil =>
    intro l hl
    simp at hl
  | cons x xs ih =>
    intro l hl a ha
    rw [show (x :: xs).join = x ++ xs.join from rfl]
    rcases List.mem_cons.mp hl with rfl | h
    · exact List.mem_append.mpr (Or.inl ha)
    · exact List.mem_append.mpr (Or.inr (ih l h a ha))

/-- Running the remaining write requests preserves the multi-sector image
invariant: the device carries the multi-sector image of the sectors written
so far, and the requests group into sectors exactly as the greedy layout
says. -/
theorem doWrites_layout (magic T N : Nat) :
    ∀ (todo : List (List Nat × Bool)) (dev : Device) (mr : Nat)
      (secs : List (List (List Nat × Bool))) (cur : List (List Nat × Bool)),
      dev.sectorSize = T → dev.size = N * T →
      matchesImage dev (multiImage magic T 1 (secs ++ [cur])) →
      16 ≤ T → N ≤ 2 ^ 31 →
      3 ≤ (flatFrames cur).length →
      (∀ sec ∈ secs, 8 + (flatFrames sec).length ≤ T) →
      8 + (flatFrames cur).length ≤ T →
      goodFrames todo →
      (∀ f ∈ todo, f.1.length + 10 ≤ T) →
      secs.length +
        (layoutGo T todo (8 + (flatFrames cur).length) cur).length ≤ N →
      ∃ secs2 cur2 dev2 mr2,
        secs2 ++ [cur2] =
          secs ++ layoutGo T todo (8 + (flatFrames cur).length) cur ∧
        doWrites 2 magic todo dev
            ⟨⟨secs.length + 1, 8, SectorState.Valid⟩, 0, secs.length * T,
              8 + (flatFrames cur).length, mr⟩ =
          some (dev2, ⟨⟨secs2.length + 1, 8, SectorState.Valid⟩, 0,
            secs2.length * T, 8 + (flatFrames cur2).length, mr2⟩) ∧
        matchesImage dev2 (multiImage magic T 1 (secs2 ++ [cur2])) ∧
        dev2.sectorSize = T ∧ dev2.size = N * T := by
  intro todo
  induction todo with
  | nil =>
    intro dev mr secs cur hdevT hdevN hm h16 hN31 hcur3 hfillp hfillc hg
      hfits hcap
    exact ⟨secs, cur, dev, mr, by rw [layoutGo], rfl, hm, hdevT, hdevN⟩
  | cons f rest ih =>
    intro dev mr secs cur hdevT hdevN hm h16 hN31 hcur3 hfillp hfillc hg
      hfits hcap
    rcases f with ⟨p, c⟩
    have hp1 : 1 ≤ p.length := (hg (p, c) (List.mem_cons_self _ _)).1
    have hp2 : p.length ≤ (if c then 0x7FFF else 0x7FFE) :=
      (hg (p, c) (List.mem_cons_self _ _)).2.1
    have hp2A : p.length ≤ 0x7FFF := le_trans hp2 (by cases c <;> decide)
    have hpb : ∀ b ∈ p, b < 256 := (hg (p, c) (List.mem_cons_self _ _)).2.2
    have hgrest : goodFrames rest :=
      fun g hgm => hg g (List.mem_cons_of_mem _ hgm)
    have hfitsrest : ∀ g ∈ rest, g.1.length + 10 ≤ T :=
      fun g hgm => hfits g (List.mem_cons_of_mem _ hgm)
    have hf10 : p.length + 10 ≤ T := hfits (p, c) (List.mem_cons_self _ _)
    have himglen : (multiImage magic T 1 (secs ++ [cur])).length =
        secs.length * T + (8 + (flatFrames cur).length) :=
      multiImage_length magic T secs cur 1 hfillp
    have hbase : secs.length * T % T = 0 := Nat.mul_mod_left _ _
    have hflen1 : (flatFrames (cur ++ [(p, c)])).length =
        (flatFrames cur).length + (2 + p.length) := by
      rw [flatFrames_append, List.length_append]
      simp [flatFrames, frameBytes_length]
    have hflen2 : (flatFrames [(p, c)]).length = 2 + p.length := by
      simp [flatFrames, frameBytes_length]
    by_cases hle : 8 + (flatFrames cur).length + (2 + p.length) ≤ T
    · have hlay : layoutGo T ((p, c) :: rest) (8 + (flatFrames cur).length)
          cur = layoutGo T rest
            (8 + (flatFrames cur).length + (2 + p.length))
            (cur ++ [(p, c)]) := by
        rw [layoutGo, if_pos (show 8 + (flatFrames cur).length +
          (2 + ((p, c) : List Nat × Bool).1.length) ≤ T from hle)]
      obtain ⟨dev1, mr1, heq1, hm1, hT1, hsz1⟩ := doWrite_fit magic T 0 dev mr
        (multiImage magic T 1 (secs ++ [cur]))
        ⟨secs.length + 1, 8, SectorState.Valid⟩ (secs.length * T)
        (8 + (flatFrames cur).length) p c hdevT hm himglen hbase h16
        (by omega) (by omega) hp1 hp2A hpb
      rw [multiImage_snoc_frame magic T secs 1 cur (p, c)] at hm1
      obtain ⟨secs2, cur2, dev2, mr2, heqL, heqW, him, hTs, hsz⟩ :=
        ih dev1 mr1 secs (cur ++ [(p, c)]) hT1 (hsz1.trans hdevN) hm1 h16 hN31
          (by omega) hfillp (by omega) hgrest hfitsrest
          (by
            rw [hflen1, show 8 + ((flatFrames cur).length + (2 + p.length)) =
              8 + (flatFrames cur).length + (2 + p.length) from by omega,
              ← hlay]
            exact hcap)
      refine ⟨secs2, cur2, dev2, mr2, ?_, ?_, him, hTs, hsz⟩
      · rw [heqL, hflen1, show 8 + ((flatFrames cur).length + (2 + p.length)) =
          8 + (flatFrames cur).length + (2 + p.length) from by omega, hlay]
      · rw [doWrites]
        have heq1b : doWrite 2 magic dev
            ⟨⟨secs.length + 1, 8, SectorState.Valid⟩, 0, secs.length * T,
              8 + (flatFrames cur).length, mr⟩ p c =
            some (dev1, ⟨⟨secs.length + 1, 8, SectorState.Valid⟩, 0,
              secs.length * T,
              8 + (flatFrames cur).length + (2 + p.length), mr1⟩) := heq1
        rw [heq1b]
        show doWrites 2 magic rest dev1
          ⟨⟨secs.length + 1, 8, SectorState.Valid⟩, 0, secs.length * T,
            8 + (flatFrames cur).length + (2 + p.length), mr1⟩ = _
        rw [show 8 + (flatFrames cur).length + (2 + p.length) =
          8 + (flatFrames (cur ++ [(p, c)])).length from by
            rw [hflen1]; omega]
        exact heqW
    · have hnofit : T < 8 + (flatFrames cur).length + (2 + p.length) := by
        omega
      have hlay : layoutGo T ((p, c) :: rest) (8 + (flatFrames cur).length)
          cur = cur :: layoutGo T rest (8 + (2 + p.length)) [(p, c)] := by
        rw [layoutGo, if_neg (show ¬(8 + (flatFrames cur).length +
          (2 + ((p, c) : List Nat × Bool).1.length) ≤ T) from by
            show ¬(8 + (flatFrames cur).length + (2 + p.length) ≤ T)
            omega)]
      have hLne := layoutGo_ne_nil T rest (8 + (2 + p.length)) [(p, c)]
      have hcap2 : secs.length + 2 ≤ N := by
        have hcap' := hcap
        rw [hlay, List.length_cons] at hcap'
        have h1 : 0 < (layoutGo T rest (8 + (2 + p.length)) [(p, c)]).length :=
          List.length_pos.mpr hLne
        omega
      have hroom : secs.length * T + 2 * T ≤ N * T := by
        have h2 := Nat.mul_le_mul_right T hcap2
        rw [Nat.add_mul] at h2
        exact h2
      have hs32 : secs.length + 1 + 1 < 2 ^ 32 := by
        have h2e : (2 : Nat) ^ 31 < 2 ^ 32 := by norm_num
        omega
      obtain ⟨dev1, mr1, heq1, hm1, hT1, hsz1⟩ := doWrite_rotate magic T N 0
        dev mr (multiImage magic T 1 (secs ++ [cur])) (secs.length + 1)
        (secs.length * T) (8 + (flatFrames cur).length) p c hdevT hdevN hm
        himglen hbase h16 (by omega) hfillc hnofit hroom hs32 hp1 hp2A hf10
        hpb
      have hpush := multiImage_push magic T secs 1 cur (p, c) hfillc
      rw [show (1 : Nat) + secs.length + 1 = secs.length + 1 + 1 from by
        omega] at hpush
      rw [hpush] at hm1
      obtain ⟨secs2, cur2, dev2, mr2, heqL, heqW, him, hTs, hsz⟩ :=
        ih dev1 mr1 (secs ++ [cur]) [(p, c)] hT1 hsz1 hm1 h16 hN31
          (by rw [hflen2]; omega)
          (by
            intro sec hsec
            rcases List.mem_append.mp hsec with h | h
            · exact hfillp sec h
            · rcases List.mem_singleton.mp h with rfl
              exact hfillc)
          (by rw [hflen2]; omega)
          hgrest hfitsrest
          (by
            rw [List.length_append, List.length_singleton, hflen2]
            have hcap' := hcap
            rw [hlay, List.length_cons] at hcap'
            omega)
      refine ⟨secs2, cur2, dev2, mr2, ?_, ?_, him, hTs, hsz⟩
      · rw [heqL, hflen2, hlay, List.append_assoc]
        rfl
      · rw [doWrites]
        have heq1b : doWrite 2 magic dev
            ⟨⟨secs.length + 1, 8, SectorState.Valid⟩, 0, secs.length * T,
              8 + (flatFrames cur).length, mr⟩ p c =
            some (dev1, ⟨⟨secs.length + 1 + 1, 8, SectorState.Valid⟩, 0,
              secs.length * T + T, 8 + (2 + p.length), mr1⟩) := heq1
        rw [heq1b]
        show doWrites 2 magic rest dev1
          ⟨⟨secs.length + 1 + 1, 8, SectorState.Valid⟩, 0,
            secs.length * T + T, 8 + (2 + p.length), mr1⟩ = _
        rw [show (8 : Nat) + (2 + p.length) =
            8 + (flatFrames [(p, c)]).length from by rw [hflen2],
          show secs.length * T + T = (secs ++ [cur]).length * T from by
            rw [List.length_append, List.length_singleton, Nat.add_mul,
              Nat.one_mul],
          show secs.length + 1 + 1 = (secs ++ [cur]).length + 1 from by
            rw [List.length_append, List.length_singleton]]
        exact heqW

/-- The multi-sector round trip on a fresh journal: run the write requests —
rotating through as many ring sectors as the greedy layout needs — re-scan,
then enumerate forward; exactly the committed payloads come back, in
order. -/
theorem journal_roundTrip_multi (magic T N : Nat)
    (rs : List (List Nat × Bool))
    (h16 : 16 ≤ T) (hN : 1 ≤ N) (hN31 : N ≤ 2 ^ 31) (hmagic : magic < 2 ^ 32)
    (hgood : goodFrames rs)
    (hfits : ∀ f ∈ rs, f.1.length + 10 ≤ T)
    (hcap : (layout T rs).length ≤ N)
    (hsnug : ∀ sec ∈ layout T rs, 8 + (flatFrames sec).length ≠ T - 1) :
    ∃ dev2 st2 st3,
      doWrites 2 magic rs (erasedDevice (N * T) T) initialState =
        some (dev2, st2) ∧
      scanFn (rs.length + 1) (rs.length + 1) magic dev2 st2 = some st3 ∧
      collectAll (rs.length + 1) (rs.length + 1) magic dev2 st3 =
        some (committedPayloads rs) := by
  cases rs with
  | nil =>
    obtain ⟨hscan, hcol⟩ := scan_collect_erased magic T N h16 hN
    exact ⟨erasedDevice (N * T) T, initialState, initialState, rfl, hscan,
      hcol⟩
  | cons f rest =>
    rcases f with ⟨p, c⟩
    have hp1 : 1 ≤ p.length := (hgood (p, c) (List.mem_cons_self _ _)).1
    have hp2 : p.length ≤ (if c then 0x7FFF else 0x7FFE) :=
      (hgood (p, c) (List.mem_cons_self _ _)).2.1
    have hp2A : p.length ≤ 0x7FFF := le_trans hp2 (by cases c <;> decide)
    have hpb : ∀ b ∈ p, b < 256 := (hgood (p, c) (List.mem_cons_self _ _)).2.2
    have hgrest : goodFrames rest :=
      fun g hg => hgood g (List.mem_cons_of_mem _ hg)
    have hfitsrest : ∀ g ∈ rest, g.1.length + 10 ≤ T :=
      fun g hg => hfits g (List.mem_cons_of_mem _ hg)
    have hf10 : p.length + 10 ≤ T := hfits (p, c) (List.mem_cons_self _ _)
    have hfitfirst : 8 + (2 + p.length) ≤ T := by omega
    have hflen2 : (flatFrames [(p, c)]).length = 2 + p.length := by
      simp [flatFrames, frameBytes_length]
    have hlay : layout T ((p, c) :: rest) =
        layoutGo T rest (8 + (2 + p.length)) [(p, c)] := by
      rw [layout, layoutGo,
        if_pos (show 8 + (2 + ((p, c) : List Nat × Bool).1.length) ≤ T from
          hfitfirst),
        List.nil_append]
    have hm0 : matchesImage (erasedDevice (N * T) T) [] :=
      matchesImage_erased (N * T) T
    obtain ⟨dev1, mr1, heq1, hm1, hT1, hsz1⟩ := doWrite_first magic T N 0
      (erasedDevice (N * T) T) 0 p c hm0 rfl rfl h16 hN hp1 hp2A hpb hfitfirst
    have hm1b : matchesImage dev1
        (multiImage magic T 1 (([] : List (List (List Nat × Bool))) ++
          [[(p, c)]])) := hm1
    obtain ⟨secs2, cur2, dev2, mr2, heqL, heqW, him, hTs, hsz⟩ :=
      doWrites_layout magic T N rest dev1 mr1 [] [(p, c)] hT1 hsz1 hm1b h16
        hN31 (by rw [hflen2]; omega)
        (fun sec hsec => absurd hsec (List.not_mem_nil sec))
        (by rw [hflen2]; omega)
        hgrest hfitsrest
        (by
          simp only [List.length_nil]
          have hcap' := hcap
          rw [hlay] at hcap'
          rw [hflen2]
          omega)
    simp only [List.length_nil, Nat.zero_mul, Nat.zero_add] at heqW
    have hall : secs2 ++ [cur2] = layout T ((p, c) :: rest) := by
      rw [heqL, List.nil_append, hflen2, hlay]
    have hjoin : (secs2 ++ [cur2]).join = (p, c) :: rest := by
      rw [hall, layout, layoutGo_join, List.nil_append]
    have hfillAll : ∀ sec ∈ secs2 ++ [cur2],
        8 + (flatFrames sec).length ≤ T := by
      intro sec hsec
      rw [hall] at hsec
      exact layoutGo_fill T ((p, c) :: rest) 8 [] rfl (by omega) hfits sec
        hsec
    have hgoodAll : ∀ sec ∈ secs2 ++ [cur2], goodFrames sec := by
      intro sec hsec g hg
      exact hgood g (by
        rw [← hjoin]
        exact mem_join_of_mem_mem _ sec hsec g hg)
    have hfitAll : ∀ sec ∈ secs2 ++ [cur2],
        8 + (flatFrames sec).length + 2 ≤ T ∨
          8 + (flatFrames sec).length = T := by
      intro sec hsec
      have h1 := hfillAll sec hsec
      have h2 : 8 + (flatFrames sec).length ≠ T - 1 := by
        apply hsnug
        rw [← hall]
        exact hsec
      omega
    have hcfAll : ∀ sec ∈ secs2 ++ [cur2],
        sec.length < ((p, c) :: rest).length + 1 := by
      intro sec hsec
      have h1 := length_le_join (secs2 ++ [cur2]) sec hsec
      rw [hjoin] at h1
      omega
    have hlen21 : (layout T ((p, c) :: rest)).length = secs2.length + 1 := by
      rw [← hall]
      simp
    have hKN : secs2.length < N := by omega
    have hscan := scanFn_image_multi magic T N secs2.length
      (((p, c) :: rest).length + 1) dev2
      ⟨⟨secs2.length + 1, 8, SectorState.Valid⟩, 0, secs2.length * T,
        8 + (flatFrames cur2).length, mr2⟩ secs2 cur2 rfl him hTs hsz h16 hKN
      hN31 hmagic hgoodAll hfitAll hcfAll
    have hcol := collectAll_image_multi magic T N secs2.length
      (((p, c) :: rest).length + 1) dev2
      ⟨⟨secs2.length + 1, 8, SectorState.Valid⟩, 0, secs2.length * T,
        (if 8 + (flatFrames cur2).length = T then 0
         else 8 + (flatFrames cur2).length), mr2⟩ secs2 cur2 rfl him hTs hsz
      h16 hKN hN31 hmagic hgoodAll hfitAll hcfAll rfl rfl
    rw [committedPayloads_flat, hjoin] at hcol
    refine ⟨dev2, ⟨⟨secs2.length + 1, 8, SectorState.Valid⟩, 0,
      secs2.length * T, 8 + (flatFrames cur2).length, mr2⟩,
      ⟨⟨secs2.length + 1, 8, SectorState.Valid⟩, 0, secs2.length * T,
        (if 8 + (flatFrames cur2).length = T then 0
         else 8 + (flatFrames cur2).length), mr2⟩, ?_, hscan, hcol⟩
    rw [show initialState = (⟨SectorInfo.reset, 0, 0, 0, 0⟩ : EngState)
      from rfl]
    rw [doWrites]
    have heq1b : doWrite 2 magic (erasedDevice (N * T) T)
        ⟨SectorInfo.reset, 0, 0, 0, 0⟩ p c =
        some (dev1, ⟨⟨1, 8, SectorState.Valid⟩, 0, 0,
          8 + (flatFrames [(p, c)]).length, mr1⟩) := heq1
    rw [heq1b]
    exact heqW

instance goodFramesDecidable (fs : List (List Nat × Bool)) :
    Decidable (goodFrames fs) :=
  List.decidableBAll _ fs

/-- Counterexample to claim C1 as stated: in a sequence where the middle
pair omits `end_write`, a zero-length committed record is returned by
`NextRecord` with payload length 0, which the enumeration loop (and `Scan`'s
record walk) interprets as end-of-records, so the later committed record
`[5]` is never reached: the enumeration returns `[]` instead of
`[[], [5]]`. -/
theorem C1_counterexample_zero_length_record :
    committedPayloads [([], true), ([7], false), ([5], true)] = [[], [5]] ∧
    ((doWrites 2 testMagic [([], true), ([7], false), ([5], true)]
        (erasedDevice 32 32) initialState).bind fun r =>
      (scanFn 4 4 testMagic r.1 r.2).bind fun st =>
        collectAll 4 4 testMagic r.1 st) = some [] := by
  decide

/-- Claim C1 (amended): for every sequence of `BeginWrite`/write/optional
`EndWrite` rounds executed after `Scan` on an initially erased device —
payload lengths at least 1, committed payloads up to the format maximum
`0x7FFF` and uncommitted ones up to `0x7FFE`, payload bytes below 256, each
payload within a sector's record capacity (`ℓ + 10 ≤ sectorSize`), the
greedy sector layout of the frames fitting within the ring without
reclaiming old sectors, no sector's fill ending exactly one byte short of
the sector end, and at most `2^31` ring sectors — a subsequent `Scan`
followed by forward enumeration (`NextSector`/`NextRecord`) yields exactly
the committed payloads in the order they were written, across all the ring
sectors the writes rotated through: every uncommitted record is classified
Bad by `ScanRecord` and skipped via its `nextRecord` offset, and no
committed record is skipped or duplicated. -/
theorem C1_committed_payloads_round_trip (magic T N : Nat)
    (rs : List (List Nat × Bool))
    (h16 : 16 ≤ T) (hN : 1 ≤ N) (hN31 : N ≤ 2 ^ 31) (hmagic : magic < 2 ^ 32)
    (hgood : goodFrames rs)
    (hfits : ∀ f ∈ rs, f.1.length + 10 ≤ T)
    (hcap : (layout T rs).length ≤ N)
    (hsnug : ∀ sec ∈ layout T rs, 8 + (flatFrames sec).length ≠ T - 1) :
    ∃ dev2 st2 st3,
      doWrites 2 magic rs (erasedDevice (N * T) T) initialState =
        some (dev2, st2) ∧
      scanFn (rs.length + 1) (rs.length + 1) magic dev2 st2 = some st3 ∧
      collectAll (rs.length + 1) (rs.length + 1) magic dev2 st3 =
        some (committedPayloads rs) :=
  journal_roundTrip_multi magic T N rs h16 hN hN31 hmagic hgood hfits hcap
    hsnug

/-- Witness for C1 at a concrete input: three writes (the middle one left
uncommitted) on a two-sector 32-byte-sector device; the first frame fills
sector 0 to exactly two bytes short of its end, so the second write rotates
into sector 1, and enumeration returns the first and third payloads across
both sectors. -/
theorem C1_committed_payloads_round_trip_witness :
    ∃ dev2 st2 st3,
      doWrites 2 testMagic
        [(List.range 20, true), ([1], false), ([2, 3], true)]
        (erasedDevice (2 * 32) 32) initialState = some (dev2, st2) ∧
      scanFn 4 4 testMagic dev2 st2 = some st3 ∧
      collectAll 4 4 testMagic dev2 st3 =
        some (committedPayloads
          [(List.range 20, true), ([1], false), ([2, 3], true)]) :=
  C1_committed_payloads_round_trip testMagic 32 2
    [(List.range 20, true), ([1], false), ([2, 3], true)]
    (by decide) (by decide) (by decide) (by decide) (by decide) (by decide)
    (by decide) (by decide)

/-- Counterexample to claim C7 as stated: a 23-byte payload is within the
format maximum `0x7FFF`, but the first record of a 32-byte sector is
additionally clamped to the sector capacity `sectorSize - 10 = 22`, so
`Write` stores (and enumeration returns) only the first 22 bytes. -/
theorem C7_counterexample_payload_clamped :
    (List.range 23).length ≤ 0x7FFF ∧
    ((writeFn 2 testMagic (erasedDevice 32 32) initialState
        (List.range 23)).bind fun r =>
      (scanFn 2 2 testMagic r.1 r.2).bind fun st =>
        collectAll 2 2 testMagic r.1 st) = some [List.range 22] ∧
    List.range 22 ≠ List.range 23 := by
  decide

/-- Claim C7 (amended): for every payload `p` of length `ℓ` with
`1 ≤ ℓ ≤ 0x7FFF` (the format maximum — `EndWrite`'s commit clears the
header's top bit, so a committed `0x7FFF` frame is readable),
`ℓ + 10 ≤ sectorSize` (the first-record capacity clamp)
and `ℓ + 11 ≠ sectorSize` (the frame must not end exactly one byte short of
the sector end), bytes below 256: `Write(p)` on an erased-and-scanned
journal followed by `Scan` and forward enumeration returns exactly the
single written record with payload bytes `p`; the enumeration's subsequent
`NextRecord` returns 0 (no more records).  Length 0 does NOT round-trip
(see the C1 counterexample): `NextRecord` reports a zero-length record by
returning its length 0, indistinguishable from end-of-records. -/
theorem C7_committed_write_round_trip (magic T N : Nat) (p : List Nat)
    (h16 : 16 ≤ T) (hN : 1 ≤ N) (hmagic : magic < 2 ^ 32)
    (hp1 : 1 ≤ p.length) (hp2 : p.length ≤ 0x7FFF) (hpb : ∀ b ∈ p, b < 256)
    (hfit : p.length + 10 ≤ T) (hnot : p.length + 11 ≠ T) :
    ∃ dev2 st2 st3,
      writeFn 2 magic (erasedDevice (N * T) T) initialState p =
        some (dev2, st2) ∧
      scanFn 2 2 magic dev2 st2 = some st3 ∧
      collectAll 2 2 magic dev2 st3 = some [p] := by
  have hgood : goodFrames [(p, true)] := by
    intro f hf
    rcases List.mem_singleton.mp hf with rfl
    exact ⟨hp1, hp2, hpb⟩
  have hflen : (flatFrames [(p, true)]).length = 2 + p.length := by
    simp [flatFrames, frameBytes_length]
  have hfit2 : 8 + (flatFrames [(p, true)]).length + 2 ≤ T ∨
      8 + (flatFrames [(p, true)]).length = T := by
    rw [hflen]
    omega
  obtain ⟨dev2, st2, st3, h1, h2, h3⟩ := journal_roundTrip magic T N
    [(p, true)] h16 hN hmagic hgood hfit2
  refine ⟨dev2, st2, st3, ?_, h2, h3⟩
  rw [doWrites] at h1
  cases hdw : doWrite 2 magic (erasedDevice (N * T) T) initialState p true with
  | none =>
    rw [hdw] at h1
    exact absurd h1 (by simp)
  | some r =>
    rw [hdw] at h1
    have h1b : some (r.1, r.2) = some (dev2, st2) := h1
    have hr : r = (dev2, st2) := Option.some.inj h1b
    show doWrite 2 magic (erasedDevice (N * T) T) initialState p true =
      some (dev2, st2)
    rw [hdw, hr]

/-- Witness for C7 at a concrete input: the 3-byte payload `[9, 8, 7]` on a
single-sector 32-byte journal. -/
theorem C7_committed_write_round_trip_witness :
    ∃ dev2 st2 st3,
      writeFn 2 testMagic (erasedDevice (1 * 32) 32) initialState [9, 8, 7] =
        some (dev2, st2) ∧
      scanFn 2 2 testMagic dev2 st2 = some st3 ∧
      collectAll 2 2 testMagic dev2 st3 = some [[9, 8, 7]] :=
  C7_committed_write_round_trip testMagic 32 1 [9, 8, 7]
    (by decide) (by decide) (by decide) (by decide) (by decide) (by decide)
    (by decide) (by decide)

end JournalModel
